import Mathlib

/-!
Lightweight state machine (`sm.c`, `sm.h`).

A shallow embedding of the table-driven dispatcher.

* The rule table `StateTableEntry *stateTable` is a `List` holding every row of the
  C array, the `{ 0, 0, NULL, 0 }` row included.  Reading a row past the end of the
  list is an out-of-bounds access and makes the embedded function return `none`.
* The index `StateTableHashMap *stateTable_hashMap` is `Option (List Int)`; `none`
  is the `NULL` pointer.  Reads and writes outside the allocated block return `none`.
* `event_func` pointers are `Option` of a pure function, `action` pointers are
  `Option` of a label of type `A`; calling an action is recorded in a log and has
  no effect on the machine record itself.
* Every observable step of a dispatch (a predicate call, an action call, a store
  to `currentState`) is appended to a log, in program order.
* C `int` values (states, events, offsets) are `Int`; no arithmetic of the program
  can overflow on a table that fits in memory, so no wrap-around is modelled.
* The loop of `sm_stateTransition` may run forever; it is cut after a given number
  of executions of its body, and the outcome says whether the call returned.
* `free` does not change the machine record; whether the block of the index has been
  released is an explicit flag next to the machine, and releasing it twice is a fault.
-/

namespace SM

/-! ## Data model (`sm.h`) -/

/-- Value of `UI_STATE_MACHINE_ERROR` in `SMResult`. -/
def UI_STATE_MACHINE_ERROR : Int := -1

/-- Value of `UI_STATE_MACHINE_OK` in `SMResult`. -/
def UI_STATE_MACHINE_OK : Int := 0

/-- One row of the state table (`StateTableEntry`). -/
structure StateTableEntry (D A : Type) where
  state : Int
  event_func : Option (Int → D → Bool)
  action : Option A
  nextState : Int

/-- The machine record (`StateMachine`). -/
structure StateMachine (D A : Type) where
  currentState : Int
  guardState : Int
  stateTable : List (StateTableEntry D A)
  stateTable_hashMap : Option (List Int)
  transStates : Option (List Int)

/-- Observable steps of a dispatch, in program order. -/
inductive Step (D A : Type) where
  /-- The call `stateTable[row].event_func(event, data)` was made and returned `result`. -/
  | eval (row : Nat) (event : Int) (data : D) (result : Bool)
  /-- The call `stateTable[row].action(data)` was made; `a` is the function called. -/
  | act (row : Nat) (a : A) (data : D)
  /-- The store `sm->currentState = s` was executed. -/
  | assign (s : Int)

/-- The action calls of a log: row, function and payload, in order. -/
def actions {D A : Type} : List (Step D A) → List (Nat × A × D)
  | [] => []
  | Step.act i a d :: l => (i, a, d) :: actions l
  | _ :: l => actions l

/-- The predicate calls of a log: row, event, payload and result, in order. -/
def evals {D A : Type} : List (Step D A) → List (Nat × Int × D × Bool)
  | [] => []
  | Step.eval i ev d r :: l => (i, ev, d, r) :: evals l
  | _ :: l => evals l

/-- The values stored to `currentState` in a log, in order. -/
def assigns {D A : Type} : List (Step D A) → List Int
  | [] => []
  | Step.assign s :: l => s :: assigns l
  | _ :: l => assigns l

/-- The rows touched by a log (predicate called or action called). -/
def touched {D A : Type} : List (Step D A) → List Nat
  | [] => []
  | Step.eval i _ _ _ :: l => i :: touched l
  | Step.act i _ _ :: l => i :: touched l
  | _ :: l => touched l

/-! ## Memory accesses -/

/-- Read `xs[i]` for a C `int` index; `none` when the index is outside the block. -/
def readAt {α : Type} (xs : List α) (i : Int) : Option α :=
  if 0 ≤ i then xs[i.toNat]? else none

/-- Store `xs[i] = v` for a C `int` index; `none` when the index is outside the block. -/
def writeAt (xs : List Int) (i : Int) (v : Int) : Option (List Int) :=
  if 0 ≤ i ∧ i.toNat < xs.length then some (xs.set i.toNat v) else none

/-! ## `sm_init` -/

/-- The `while( 0 != sm->stateTable[tableIndex].state )` loop of `sm_init`; the first
argument is the part of the table starting at `tableIndex`. -/
def sm_init_scan {D A : Type} :
    List (StateTableEntry D A) → Int → Int → List Int → Option (List Int)
  | [], _, _, _ => none
  | e :: rest, tableIndex, stateVal, hm =>
    if e.state = 0 then some hm
    else if stateVal ≠ e.state then
      match writeAt hm e.state tableIndex with
      | none => none
      | some hm2 => sm_init_scan rest (tableIndex + 1) e.state hm2
    else sm_init_scan rest (tableIndex + 1) stateVal hm

/-- Function `sm_init`.  `allocOk` says whether `malloc` returned a block; the block has
`guardState + 1` entries, all set to `-1` before the table is scanned.  The result is
the returned status and the machine after the call. -/
def sm_init {D A : Type} (allocOk : Bool) (sm : StateMachine D A) :
    Option (Int × StateMachine D A) :=
  if allocOk then
    match sm_init_scan sm.stateTable 0 0 (List.replicate (sm.guardState + 1).toNat (-1)) with
    | none => none
    | some hm => some (UI_STATE_MACHINE_OK, { sm with stateTable_hashMap := some hm })
  else some (UI_STATE_MACHINE_ERROR, { sm with stateTable_hashMap := none })

/-! ## `make_transition` -/

/-- Steps of a firing row `i`: the predicate call that returned `TRUE`, the action call
when the pointer is not `NULL`, the store to `currentState` when `nextState` is not the
guard state. -/
def fire_steps {D A : Type} (guardState : Int) (i : Nat) (e : StateTableEntry D A)
    (event : Int) (data : D) : List (Step D A) :=
  [Step.eval i event data true]
    ++ (match e.action with
        | some a => [Step.act i a data]
        | none => [])
    ++ (if e.nextState ≠ guardState then [Step.assign e.nextState] else [])

/-- One `while( TRUE )` loop of `make_transition`, over the rows `stateTable[i]`,
`stateTable[i+1]`, ... given as a list; `scope` is the state the rows are compared with
(`sm->currentState` in the first loop, `sm->guardState` in the second) and `cur` the value
of `currentState` on entry.  The result is: whether a row fired, `currentState` on exit,
and the steps made. -/
def scan_group {D A : Type} (guardState scope event : Int) (data : D) :
    List (StateTableEntry D A) → Nat → Int → Option (Bool × Int × List (Step D A))
  | [], _, _ => none
  | e :: rest, i, cur =>
    if scope ≠ e.state then some (false, cur, [])
    else
      match e.event_func with
      | some f =>
        if f event data then
          some (true, (if e.nextState ≠ guardState then e.nextState else cur),
            fire_steps guardState i e event data)
        else
          match scan_group guardState scope event data rest (i + 1) cur with
          | none => none
          | some (fired, cur2, log) => some (fired, cur2, Step.eval i event data false :: log)
      | none => scan_group guardState scope event data rest (i + 1) cur

/-- A scan loop started at the C `int` offset `i` of the table. -/
def scan_from {D A : Type} (sm : StateMachine D A) (scope event : Int) (data : D) (i : Int) :
    Option (Bool × Int × List (Step D A)) :=
  if 0 ≤ i then
    scan_group sm.guardState scope event data (sm.stateTable.drop i.toNat) i.toNat
      sm.currentState
  else none

/-- The `if( in_guardState )` block of `make_transition`: the scan of the guard state's
rows. -/
def guard_transition {D A : Type} (sm : StateMachine D A) (hm : List Int) (event : Int)
    (data : D) : Option (StateMachine D A × List (Step D A)) :=
  match readAt hm sm.guardState with
  | none => none
  | some i =>
    if i = -1 then some (sm, [])
    else
      match scan_from sm sm.guardState event data i with
      | none => none
      | some (_, cur, log) => some ({ sm with currentState := cur }, log)

/-- Function `make_transition`: the machine after the call and the steps made. -/
def make_transition {D A : Type} (sm : StateMachine D A) (event : Int) (data : D) :
    Option (StateMachine D A × List (Step D A)) :=
  match sm.stateTable_hashMap with
  | none => none
  | some hm =>
    match readAt hm sm.currentState with
    | none => none
    | some i =>
      if i = -1 then guard_transition sm hm event data
      else
        match scan_from sm sm.currentState event data i with
        | none => none
        | some (true, cur, log) => some ({ sm with currentState := cur }, log)
        | some (false, _, log) =>
          match guard_transition sm hm event data with
          | none => none
          | some (sm2, log2) => some (sm2, log ++ log2)

/-! ## `is_trans_state` and `sm_stateTransition` -/

/-- The `while( TRUE )` loop of `is_trans_state` over the entries `transStates[i]`,
`transStates[i+1]`, ... -/
def is_trans_scan (state : Int) : List Int → Option Bool
  | [] => none
  | x :: xs => if x = 0 then some false else if x = state then some true
      else is_trans_scan state xs

/-- Function `is_trans_state`. -/
def is_trans_state {D A : Type} (sm : StateMachine D A) (state : Int) : Option Bool :=
  match sm.transStates with
  | none => some false
  | some ts => is_trans_scan state ts

/-- How a call of `sm_stateTransition` ends within a bound on its loop. -/
inductive Outcome (σ : Type) where
  /-- The call returned. -/
  | returned (s : σ)
  /-- An access outside a block was made. -/
  | fault
  /-- The loop was still running when the bound was reached. -/
  | running (s : σ)

/-- The `while( is_trans_state(sm, sm->currentState) )` loop of `sm_stateTransition`,
cut after `fuel` executions of its body; `log` holds the steps made so far. -/
def trans_loop {D A : Type} (event : Int) (data : D) :
    Nat → StateMachine D A → List (Step D A) → Outcome (StateMachine D A × List (Step D A))
  | 0, sm, log =>
    match is_trans_state sm sm.currentState with
    | none => Outcome.fault
    | some false => Outcome.returned (sm, log)
    | some true => Outcome.running (sm, log)
  | fuel + 1, sm, log =>
    match is_trans_state sm sm.currentState with
    | none => Outcome.fault
    | some false => Outcome.returned (sm, log)
    | some true =>
      match make_transition sm event data with
      | none => Outcome.fault
      | some (sm2, log2) => trans_loop event data fuel sm2 (log ++ log2)

/-- Function `sm_stateTransition`, its loop cut after `fuel` executions of the body. -/
def sm_stateTransition {D A : Type} (fuel : Nat) (sm : StateMachine D A) (event : Int)
    (data : D) : Outcome (StateMachine D A × List (Step D A)) :=
  match make_transition sm event data with
  | none => Outcome.fault
  | some (sm2, log) => trans_loop event data fuel sm2 log

/-! ## Vocabulary of the properties -/

/-- Row `i` of the table is `e` and is a rule: no row up to and including row `i` is a
terminating row (a row whose state is 0). -/
def IsRule {D A : Type} (tbl : List (StateTableEntry D A)) (i : Nat)
    (e : StateTableEntry D A) : Prop :=
  tbl[i]? = some e ∧ ∀ j r, j ≤ i → tbl[j]? = some r → r.state ≠ 0

/-- The row has a predicate and the predicate returns `TRUE` on `(event, data)`. -/
def Matches {D A : Type} (e : StateTableEntry D A) (event : Int) (data : D) : Prop :=
  ∃ f, e.event_func = some f ∧ f event data = true

/-- A table is well formed for a guard state when it has a terminating row, the states of
its rules lie in `1..guardState`, and the rules of one state are contiguous. -/
structure WellFormed {D A : Type} (tbl : List (StateTableEntry D A)) (guardState : Int) :
    Prop where
  terminated : ∃ (n : Nat) (z : StateTableEntry D A), tbl[n]? = some z ∧ z.state = 0
  inRange : ∀ i e, IsRule tbl i e → 1 ≤ e.state ∧ e.state ≤ guardState
  contiguous : ∀ i j k ei ej ek, IsRule tbl i ei → tbl[j]? = some ej → IsRule tbl k ek →
    i ≤ j → j ≤ k → ei.state = ek.state → ej.state = ei.state

/-- A log made only of predicate calls that returned `FALSE`. -/
def Misses {D A : Type} (log : List (Step D A)) : Prop :=
  ∀ st ∈ log, ∃ i ev d, st = Step.eval i ev d false

/-- The `transStates` pointer is `NULL` or the array has an entry 0. -/
def TransTerminated {D A : Type} (sm : StateMachine D A) : Prop :=
  ∀ ts, sm.transStates = some ts → (0 : Int) ∈ ts

/-- What the index holds for state `s` once the rows before row `t` have been scanned, on
a table whose rules are contiguous: `-1` when none of these rows has state `s`, and
otherwise the offset of the first of them that has. -/
def IndexUpTo {D A : Type} (tbl : List (StateTableEntry D A)) (t : Nat) (hm : List Int)
    (s : Int) : Prop :=
  (readAt hm s = some (-1) ∧ ∀ j r, j < t → tbl[j]? = some r → r.state ≠ s) ∨
  (∃ i : Nat, i < t ∧ readAt hm s = some (i : Int) ∧ (∃ e, tbl[i]? = some e ∧ e.state = s) ∧
    ∀ j r, j < i → tbl[j]? = some r → r.state ≠ s)

/-- The facts about an initialised machine on a well-formed table that the dispatch
proofs use: `hm` is the index, `n` the offset of the terminating row. -/
structure Indexed {D A : Type} (sm : StateMachine D A) (hm : List Int) (n : Nat) : Prop where
  hmap : sm.stateTable_hashMap = some hm
  len : hm.length = (sm.guardState + 1).toNat
  sentinel : ∃ z, sm.stateTable[n]? = some z ∧ z.state = 0
  rules : ∀ j r, j < n → sm.stateTable[j]? = some r → r.state ≠ 0
  inRange : ∀ j r, j < n → sm.stateTable[j]? = some r → 1 ≤ r.state ∧ r.state ≤ sm.guardState
  contiguous : ∀ i j k ri rj rk, i ≤ j → j ≤ k → k < n → sm.stateTable[i]? = some ri →
    sm.stateTable[j]? = some rj → sm.stateTable[k]? = some rk → ri.state = rk.state →
    rj.state = ri.state
  index : ∀ s : Int, 0 ≤ s → s ≤ sm.guardState → IndexUpTo sm.stateTable n hm s

/-- The state of row `i`, when the table has a row `i`. -/
def stateAt {D A : Type} (tbl : List (StateTableEntry D A)) (i : Nat) : Option Int :=
  (tbl[i]?).map (fun e => e.state)

/-- Row `j` exists, has state `s`, and its predicate is present and returns `TRUE`. -/
def rowMatches {D A : Type} (tbl : List (StateTableEntry D A)) (j : Nat) (s event : Int)
    (data : D) : Bool :=
  match tbl[j]? with
  | some r =>
    decide (r.state = s) &&
      (match r.event_func with
       | some f => f event data
       | none => false)
  | none => false

/-- Every row touched by the log is a row of the table whose state is `scope` and whose
`event_func` pointer is not `NULL`. -/
def TouchedIn {D A : Type} (tbl : List (StateTableEntry D A)) (scope : Int)
    (log : List (Step D A)) : Prop :=
  ∀ r ∈ touched log, ∃ x, tbl[r]? = some x ∧ x.state = scope ∧ x.event_func ≠ none

/-- The index holds, for every state, `-1` or the offset of a row that has this state and
lies before a terminating row. -/
def IndexSound {D A : Type} (tbl : List (StateTableEntry D A)) (hm : List Int) : Prop :=
  ∀ s v, readAt hm s = some v → v = -1 ∨
    ∃ i : Nat, v = (i : Int) ∧ s ≠ 0 ∧ (∃ e, tbl[i]? = some e ∧ e.state = s) ∧
      ∃ (n : Nat) (z : StateTableEntry D A), i < n ∧ tbl[n]? = some z ∧ z.state = 0

/-- The value of `currentState` after row `e` fired in a machine whose current state
was `cur`. -/
def firedState {D A : Type} (guardState cur : Int) (e : StateTableEntry D A) : Int :=
  if e.nextState ≠ guardState then e.nextState else cur

/-- The row `e` with its `event_func` replaced by a predicate that always returns
`FALSE`. -/
def withFalsePredicate {D A : Type} (e : StateTableEntry D A) : StateTableEntry D A :=
  { e with event_func := some (fun _ _ => false) }

/-- The log without the predicate calls of row `k`. -/
def dropEvals {D A : Type} (k : Nat) : List (Step D A) → List (Step D A)
  | [] => []
  | Step.eval i ev d r :: l =>
    if i = k then dropEvals k l else Step.eval i ev d r :: dropEvals k l
  | Step.act i a d :: l => Step.act i a d :: dropEvals k l
  | Step.assign s :: l => Step.assign s :: dropEvals k l

/-! ## The scenarios of the specification -/

/-- Action functions of the scenarios. -/
inductive Act where
  | action_log
  | action_reset
  | action_cleanup

/-- State `STATE_IDLE` of the scenarios. -/
def STATE_IDLE : Int := 1

/-- State `STATE_RUNNING` of the scenarios. -/
def STATE_RUNNING : Int := 2

/-- State `STATE_CLEANUP` of the scenarios. -/
def STATE_CLEANUP : Int := 3

/-- State `STATE_GUARD` of the scenarios, the last state. -/
def STATE_GUARD : Int := 4

/-- Event `EVENT_START` of the scenarios. -/
def EVENT_START : Int := 1

/-- Event `EVENT_STOP` of the scenarios. -/
def EVENT_STOP : Int := 2

/-- An event handler that returns `TRUE` exactly on event `k`. -/
def event_is (k : Int) : Int → Unit → Bool := fun ev _ => decide (ev = k)

/-- An event handler that always returns `TRUE`. -/
def event_true : Int → Unit → Bool := fun _ _ => true

/-- The terminating row `{ 0, 0, NULL, 0 }`. -/
def lastRow : StateTableEntry Unit Act := ⟨0, none, none, 0⟩

/-- Scenario A: one rule. -/
def tableA : List (StateTableEntry Unit Act) :=
  [⟨STATE_IDLE, some (event_is EVENT_START), some Act.action_log, STATE_RUNNING⟩, lastRow]

/-- Scenario A before `sm_init`. -/
def machineA : StateMachine Unit Act := ⟨STATE_IDLE, STATE_GUARD, tableA, none, none⟩

/-- Scenario A after `sm_init`. -/
def readyA : StateMachine Unit Act :=
  ⟨STATE_IDLE, STATE_GUARD, tableA, some [-1, 0, -1, -1, -1], none⟩

/-- Scenario C: the rule of Scenario A and a guard rule. -/
def tableC : List (StateTableEntry Unit Act) :=
  [⟨STATE_IDLE, some (event_is EVENT_START), some Act.action_log, STATE_RUNNING⟩,
   ⟨STATE_GUARD, some (event_is EVENT_STOP), some Act.action_reset, STATE_IDLE⟩,
   lastRow]

/-- Scenario C before `sm_init`, in `STATE_RUNNING`. -/
def machineC : StateMachine Unit Act := ⟨STATE_RUNNING, STATE_GUARD, tableC, none, none⟩

/-- Scenario C after `sm_init`. -/
def readyC : StateMachine Unit Act :=
  ⟨STATE_RUNNING, STATE_GUARD, tableC, some [-1, 0, -1, -1, 1], none⟩

/-- Scenario D: `STATE_CLEANUP` is transitory and is entered from `STATE_RUNNING`. -/
def tableD : List (StateTableEntry Unit Act) :=
  [⟨STATE_IDLE, some (event_is EVENT_START), some Act.action_log, STATE_RUNNING⟩,
   ⟨STATE_RUNNING, some (event_is EVENT_STOP), some Act.action_reset, STATE_CLEANUP⟩,
   ⟨STATE_CLEANUP, some event_true, some Act.action_cleanup, STATE_IDLE⟩,
   lastRow]

/-- Scenario D before `sm_init`, in `STATE_RUNNING`. -/
def machineD : StateMachine Unit Act :=
  ⟨STATE_RUNNING, STATE_GUARD, tableD, none, some [STATE_CLEANUP, 0]⟩

/-- Scenario D after `sm_init`. -/
def readyD : StateMachine Unit Act :=
  ⟨STATE_RUNNING, STATE_GUARD, tableD, some [-1, 0, 1, 2, -1], some [STATE_CLEANUP, 0]⟩

/-- A table whose only rule leads into the guard state. -/
def tableG : List (StateTableEntry Unit Act) :=
  [⟨STATE_IDLE, some (event_is EVENT_START), some Act.action_log, STATE_GUARD⟩, lastRow]

/-- The machine on `tableG` after `sm_init`, in `STATE_IDLE`. -/
def readyG : StateMachine Unit Act :=
  ⟨STATE_IDLE, STATE_GUARD, tableG, some [-1, 0, -1, -1, -1], none⟩

/-- A rule of `STATE_IDLE` that has no predicate. -/
def rowN : StateTableEntry Unit Act := ⟨STATE_IDLE, none, some Act.action_log, STATE_CLEANUP⟩

/-- A table whose first rule has no predicate. -/
def tableN : List (StateTableEntry Unit Act) :=
  [rowN,
   ⟨STATE_IDLE, some (event_is EVENT_START), some Act.action_reset, STATE_RUNNING⟩,
   lastRow]

/-- The machine on `tableN` after `sm_init`, in `STATE_IDLE`. -/
def readyN : StateMachine Unit Act :=
  ⟨STATE_IDLE, STATE_GUARD, tableN, some [-1, 0, -1, -1, -1], none⟩

/-! ## `sm_remove` -/

/-- Function `sm_remove`.  The machine record holds the index pointer only, so the state
of the block it points to is explicit: `released` says whether that block has already been
passed to `free`.  The result is the machine after the call, whether the block is released
after the call, and the number of calls of `free` made; `none` when `free` is called on a
block that was already released.  The pointer field is not written by the function. -/
def sm_remove {D A : Type} (sm : StateMachine D A) (released : Bool) :
    Option (StateMachine D A × Bool × Nat) :=
  match sm.stateTable_hashMap with
  | none => some (sm, released, 0)
  | some _ => if released then none else some (sm, true, 1)

/-! ## Successive dispatches -/

/-- The effect of `n` successive calls `make_transition(sm, event, data)`: the machine
after the last call and the steps of all the calls, `none` when one of them faults. -/
def resolves {D A : Type} (event : Int) (data : D) :
    Nat → StateMachine D A → Option (StateMachine D A × List (Step D A))
  | 0, sm => some (sm, [])
  | n + 1, sm =>
    match make_transition sm event data with
    | none => none
    | some (sm1, log1) =>
      match resolves event data n sm1 with
      | none => none
      | some (sm2, log2) => some (sm2, log1 ++ log2)

/-- Scenario A with `STATE_IDLE` declared transitory, after `sm_init`. -/
def stuckA : StateMachine Unit Act :=
  ⟨STATE_IDLE, STATE_GUARD, tableA, some [-1, 0, -1, -1, -1], some [STATE_IDLE, 0]⟩

/-- The value of `currentState` at each action call of a log, `cur` being its value before
the first step: row, function, payload and that value, in order. -/
def actionStates {D A : Type} (cur : Int) : List (Step D A) → List (Nat × A × D × Int)
  | [] => []
  | Step.eval _ _ _ _ :: l => actionStates cur l
  | Step.act i a d :: l => (i, a, d, cur) :: actionStates cur l
  | Step.assign v :: l => actionStates v l

/-- The value of `currentState` after the steps of a log, `cur` being its value before the
first step. -/
def stateAfter {D A : Type} (cur : Int) : List (Step D A) → Int
  | [] => cur
  | Step.eval _ _ _ _ :: l => stateAfter cur l
  | Step.act _ _ _ :: l => stateAfter cur l
  | Step.assign v :: l => stateAfter v l

/-! ## Runs of rows with one state -/

/-- Row `i` exists, has state `s`, and the row before it, if there is one, has another
state. -/
def RawStart {D A : Type} (tbl : List (StateTableEntry D A)) (s : Int) (i : Nat) : Prop :=
  (∃ e, tbl[i]? = some e ∧ e.state = s) ∧ ∀ p x, i = p + 1 → tbl[p]? = some x → x.state ≠ s

/-- Row `i` starts a run of state `s`: it is a rule with state `s`, and the row before it,
if there is one, has another state. -/
def RunStart {D A : Type} (tbl : List (StateTableEntry D A)) (s : Int) (i : Nat) : Prop :=
  (∃ e, IsRule tbl i e ∧ e.state = s) ∧ ∀ p x, i = p + 1 → tbl[p]? = some x → x.state ≠ s

/-- Row `i` starts the last run of state `s`: no run of `s` starts at a later row. -/
def LastRunStart {D A : Type} (tbl : List (StateTableEntry D A)) (s : Int) (i : Nat) : Prop :=
  RunStart tbl s i ∧ ∀ j, i < j → ¬ RunStart tbl s j

/-- Row `r` lies in the run of state `s` that starts at row `i`: the rows `i..r` all have
state `s`. -/
def InRun {D A : Type} (tbl : List (StateTableEntry D A)) (s : Int) (i r : Nat) : Prop :=
  i ≤ r ∧ ∀ j, i ≤ j → j ≤ r → ∃ x, tbl[j]? = some x ∧ x.state = s

/-- Every entry of the index is `-1` or the offset of a rule whose state is the indexed
state. -/
def IndexRules {D A : Type} (tbl : List (StateTableEntry D A)) (hm : List Int) : Prop :=
  ∀ s v, readAt hm s = some v → v = -1 ∨
    ∃ (i : Nat) (e : StateTableEntry D A), v = (i : Int) ∧ IsRule tbl i e ∧ e.state = s

/-- What the index holds for state `s` once the rows before row `t` have been scanned, on
any table: `-1` when none of these rows has state `s`, and otherwise the offset of the last
of these rows at which a run of `s` starts. -/
def RunsUpTo {D A : Type} (tbl : List (StateTableEntry D A)) (t : Nat) (hm : List Int)
    (s : Int) : Prop :=
  (readAt hm s = some (-1) ∧ ∀ j r, j < t → tbl[j]? = some r → r.state ≠ s) ∨
  (∃ i : Nat, i < t ∧ readAt hm s = some (i : Int) ∧ RawStart tbl s i ∧
    ∀ j, i < j → j < t → ¬ RawStart tbl s j)

/-- A table in which state 1 has two runs, separated by a rule of state 2; the rule of the
first run matches every event, the rule of the second run matches none. -/
def tableR (D A : Type) : List (StateTableEntry D A) :=
  [⟨1, some (fun _ _ => true), none, 2⟩,
   ⟨2, none, none, 2⟩,
   ⟨1, some (fun _ _ => false), none, 2⟩,
   ⟨0, none, none, 0⟩]

/-- The machine on `tableR` before `sm_init`, in state 1, with guard state 2. -/
def machineR (D A : Type) : StateMachine D A := ⟨1, 2, tableR D A, none, none⟩

/-- The machine `sm0` with the index `hm` and the current state `s`. -/
@[reducible] def atState {D A : Type} (sm0 : StateMachine D A) (hm : List Int) (s : Int) :
    StateMachine D A :=
  { sm0 with stateTable_hashMap := some hm, currentState := s }

/-! ## Lists, logs and memory accesses -/

theorem drop_of_getElem? {α : Type} (xs : List α) (i : Nat) (e : α) (h : xs[i]? = some e) :
    xs.drop i = e :: xs.drop (i + 1) := by
  obtain ⟨hlt, he⟩ := List.getElem?_eq_some.mp h
  rw [List.drop_eq_getElem_cons hlt, he]

theorem actions_append {D A : Type} (l1 l2 : List (Step D A)) :
    actions (l1 ++ l2) = actions l1 ++ actions l2 := by
  induction l1 with
  | nil => rfl
  | cons st l ih => cases st <;> simp [actions, ih]

theorem assigns_append {D A : Type} (l1 l2 : List (Step D A)) :
    assigns (l1 ++ l2) = assigns l1 ++ assigns l2 := by
  induction l1 with
  | nil => rfl
  | cons st l ih => cases st <;> simp [assigns, ih]

theorem evals_append {D A : Type} (l1 l2 : List (Step D A)) :
    evals (l1 ++ l2) = evals l1 ++ evals l2 := by
  induction l1 with
  | nil => rfl
  | cons st l ih => cases st <;> simp [evals, ih]

theorem touched_append {D A : Type} (l1 l2 : List (Step D A)) :
    touched (l1 ++ l2) = touched l1 ++ touched l2 := by
  induction l1 with
  | nil => rfl
  | cons st l ih => cases st <;> simp [touched, ih]

theorem Misses.nil {D A : Type} : Misses ([] : List (Step D A)) := by
  intro st h; cases h

theorem Misses.cons {D A : Type} (i : Nat) (ev : Int) (d : D) {log : List (Step D A)}
    (h : Misses log) : Misses (Step.eval i ev d false :: log) := by
  intro st hst
  rcases List.mem_cons.mp hst with rfl | hst
  · exact ⟨i, ev, d, rfl⟩
  · exact h st hst

theorem Misses.append {D A : Type} {l1 l2 : List (Step D A)} (h1 : Misses l1)
    (h2 : Misses l2) : Misses (l1 ++ l2) := by
  intro st hst
  rcases List.mem_append.mp hst with h | h
  · exact h1 st h
  · exact h2 st h

theorem Misses.no_actions {D A : Type} {log : List (Step D A)} (h : Misses log) :
    actions log = [] := by
  induction log with
  | nil => rfl
  | cons st l ih =>
    obtain ⟨i, ev, d, rfl⟩ := h st (List.mem_cons_self _ _)
    simpa [SM.actions] using ih (fun s hs => h s (List.mem_cons_of_mem _ hs))

theorem Misses.no_assigns {D A : Type} {log : List (Step D A)} (h : Misses log) :
    assigns log = [] := by
  induction log with
  | nil => rfl
  | cons st l ih =>
    obtain ⟨i, ev, d, rfl⟩ := h st (List.mem_cons_self _ _)
    simpa [SM.assigns] using ih (fun s hs => h s (List.mem_cons_of_mem _ hs))

theorem Misses.evals_false {D A : Type} {log : List (Step D A)} (h : Misses log) :
    ∀ p ∈ evals log, p.2.2.2 = false := by
  induction log with
  | nil => intro p hp; cases hp
  | cons st l ih =>
    obtain ⟨i, ev, d, rfl⟩ := h st (List.mem_cons_self _ _)
    intro p hp
    simp only [SM.evals, List.mem_cons] at hp
    rcases hp with rfl | hp
    · rfl
    · exact ih (fun s hs => h s (List.mem_cons_of_mem _ hs)) p hp

/-! ## The terminating row -/

theorem first_sentinel {D A : Type} (tbl : List (StateTableEntry D A))
    (h : ∃ (n : Nat) (z : StateTableEntry D A), tbl[n]? = some z ∧ z.state = 0) :
    ∃ (n : Nat) (z : StateTableEntry D A), tbl[n]? = some z ∧ z.state = 0 ∧
      ∀ j r, j < n → tbl[j]? = some r → r.state ≠ 0 := by
  classical
  have hP : ∃ n, ∃ z : StateTableEntry D A, tbl[n]? = some z ∧ z.state = 0 := h
  obtain ⟨z, hz, hz0⟩ := Nat.find_spec hP
  refine ⟨Nat.find hP, z, hz, hz0, ?_⟩
  intro j r hj hr hr0
  exact Nat.find_min hP hj ⟨r, hr, hr0⟩

theorem isRule_iff {D A : Type} {tbl : List (StateTableEntry D A)} {n : Nat}
    {z : StateTableEntry D A} (hz : tbl[n]? = some z) (hz0 : z.state = 0)
    (hmin : ∀ j r, j < n → tbl[j]? = some r → r.state ≠ 0) (i : Nat)
    (e : StateTableEntry D A) : IsRule tbl i e ↔ i < n ∧ tbl[i]? = some e := by
  constructor
  · rintro ⟨he, hall⟩
    refine ⟨?_, he⟩
    by_contra hcon
    exact hall n z (by omega) hz hz0
  · rintro ⟨hi, he⟩
    exact ⟨he, fun j r hj hr => hmin j r (by omega) hr⟩

theorem getElem?_of_lt_sentinel {D A : Type} {tbl : List (StateTableEntry D A)} {n : Nat}
    {z : StateTableEntry D A} (hz : tbl[n]? = some z) {i : Nat} (hi : i < n) :
    ∃ e, tbl[i]? = some e := by
  have hn := (List.getElem?_eq_some.mp hz).1
  exact ⟨tbl[i], List.getElem?_eq_getElem (by omega)⟩

/-! ## The scan loops -/

theorem scan_group_miss {D A : Type} (g scope ev : Int) (d : D)
    (tbl : List (StateTableEntry D A)) (cur : Int) :
    ∀ (m i : Nat) (x : StateTableEntry D A), tbl[i + m]? = some x → x.state ≠ scope →
      (∀ j r, i ≤ j → j < i + m → tbl[j]? = some r → r.state = scope ∧ ¬ Matches r ev d) →
      ∃ log, scan_group g scope ev d (tbl.drop i) i cur = some (false, cur, log) ∧
        Misses log ∧ ∀ r ∈ touched log, i ≤ r ∧ r < i + m := by
  intro m
  induction m with
  | zero =>
    intro i x hx hne _
    refine ⟨[], ?_, Misses.nil, by simp [touched]⟩
    rw [drop_of_getElem? tbl i x (by simpa using hx)]
    simp [scan_group, Ne.symm hne]
  | succ m ih =>
    intro i x hx hne hall
    have hlt : i < tbl.length := by
      have := (List.getElem?_eq_some.mp hx).1
      omega
    obtain ⟨hs, hm⟩ := hall i tbl[i] le_rfl (by omega) (List.getElem?_eq_getElem hlt)
    have hx2 : tbl[i + 1 + m]? = some x := by
      rw [← hx]; congr 1; omega
    obtain ⟨log, hlog, hmiss, htouch⟩ :=
      ih (i + 1) x hx2 hne (fun j r h1 h2 => hall j r (by omega) (by omega))
    rw [drop_of_getElem? tbl i tbl[i] (List.getElem?_eq_getElem hlt)]
    cases hf : tbl[i].event_func with
    | none =>
      refine ⟨log, ?_, hmiss, ?_⟩
      · simp [scan_group, hs, hf, hlog]
      · intro r hr
        have := htouch r hr
        omega
    | some f =>
      have hfalse : f ev d = false := by
        cases hfv : f ev d with
        | false => rfl
        | true => exact absurd ⟨f, hf, hfv⟩ hm
      refine ⟨Step.eval i ev d false :: log, ?_, Misses.cons i ev d hmiss, ?_⟩
      · simp [scan_group, hs, hf, hfalse, hlog]
      · intro r hr
        simp only [touched, List.mem_cons] at hr
        rcases hr with rfl | hr
        · omega
        · have := htouch r hr
          omega

theorem scan_group_fire {D A : Type} (g scope ev : Int) (d : D)
    (tbl : List (StateTableEntry D A)) (cur : Int) :
    ∀ (m i : Nat) (e : StateTableEntry D A), tbl[i + m]? = some e → e.state = scope →
      Matches e ev d →
      (∀ j r, i ≤ j → j < i + m → tbl[j]? = some r → r.state = scope ∧ ¬ Matches r ev d) →
      ∃ pre, Misses pre ∧ (∀ r ∈ touched pre, i ≤ r ∧ r < i + m) ∧
        scan_group g scope ev d (tbl.drop i) i cur =
          some (true, (if e.nextState ≠ g then e.nextState else cur),
            pre ++ fire_steps g (i + m) e ev d) := by
  intro m
  induction m with
  | zero =>
    intro i e he hs hmatch _
    obtain ⟨f, hf, hfv⟩ := hmatch
    refine ⟨[], Misses.nil, by simp [touched], ?_⟩
    rw [drop_of_getElem? tbl i e (by simpa using he)]
    simp [scan_group, hs, hf, hfv]
  | succ m ih =>
    intro i e he hs hmatch hall
    have hlt : i < tbl.length := by
      have := (List.getElem?_eq_some.mp he).1
      omega
    obtain ⟨hsi, hm⟩ := hall i tbl[i] le_rfl (by omega) (List.getElem?_eq_getElem hlt)
    have he2 : tbl[i + 1 + m]? = some e := by
      rw [← he]; congr 1; omega
    obtain ⟨pre, hmiss, htouch, hscan⟩ :=
      ih (i + 1) e he2 hs hmatch (fun j r h1 h2 => hall j r (by omega) (by omega))
    have hidx : i + 1 + m = i + (m + 1) := by omega
    rw [hidx] at hscan
    rw [drop_of_getElem? tbl i tbl[i] (List.getElem?_eq_getElem hlt)]
    cases hf : tbl[i].event_func with
    | none =>
      refine ⟨pre, hmiss, ?_, ?_⟩
      · intro r hr
        have := htouch r hr
        omega
      · simp [scan_group, hsi, hf, hscan]
    | some f =>
      have hfalse : f ev d = false := by
        cases hfv : f ev d with
        | false => rfl
        | true => exact absurd ⟨f, hf, hfv⟩ hm
      refine ⟨Step.eval i ev d false :: pre, Misses.cons i ev d hmiss, ?_, ?_⟩
      · intro r hr
        simp only [touched, List.mem_cons] at hr
        rcases hr with rfl | hr
        · omega
        · have := htouch r hr
          omega
      · simp [scan_group, hsi, hf, hfalse, hscan]

/-! ## The index built by `sm_init` -/

theorem readAt_set_self (hm : List Int) (s v : Int) (h0 : 0 ≤ s) (hlt : s.toNat < hm.length) :
    readAt (hm.set s.toNat v) s = some v := by
  simp [readAt, h0, List.getElem?_set, hlt]

theorem readAt_set_ne (hm : List Int) (s s2 v : Int) (h0 : 0 ≤ s) (h2 : 0 ≤ s2)
    (hne : s ≠ s2) : readAt (hm.set s2.toNat v) s = readAt hm s := by
  have : s2.toNat ≠ s.toNat := by
    intro h
    apply hne
    have a := Int.toNat_of_nonneg h0
    have b := Int.toNat_of_nonneg h2
    omega
  simp [readAt, h0, List.getElem?_set_ne this]

theorem sm_init_scan_index {D A : Type} (tbl : List (StateTableEntry D A)) (n N : Nat)
    (z : StateTableEntry D A) (hz : tbl[n]? = some z) (hz0 : z.state = 0)
    (hrange : ∀ j r, j < n → tbl[j]? = some r → r.state ≠ 0 ∧ 0 ≤ r.state ∧ r.state < N)
    (hcontig : ∀ i j k ri rj rk, i ≤ j → j ≤ k → k < n → tbl[i]? = some ri →
      tbl[j]? = some rj → tbl[k]? = some rk → ri.state = rk.state → rj.state = ri.state) :
    ∀ (m t : Nat) (sv : Int) (hm : List Int), t + m = n → hm.length = N →
      ((t = 0 ∧ sv = 0) ∨ ∃ p r, t = p + 1 ∧ tbl[p]? = some r ∧ r.state = sv) →
      (∀ s : Int, 0 ≤ s → s < (N : Int) → IndexUpTo tbl t hm s) →
      ∃ hm2, sm_init_scan (tbl.drop t) (t : Int) sv hm = some hm2 ∧ hm2.length = N ∧
        ∀ s : Int, 0 ≤ s → s < (N : Int) → IndexUpTo tbl n hm2 s := by
  intro m
  induction m with
  | zero =>
    intro t sv hm htn hlen _ hinv
    have ht : t = n := by omega
    subst ht
    refine ⟨hm, ?_, hlen, hinv⟩
    rw [drop_of_getElem? tbl t z hz]
    simp [sm_init_scan, hz0]
  | succ m ih =>
    intro t sv hm htn hlen hsv hinv
    have htlt : t < n := by omega
    obtain ⟨e, he⟩ := getElem?_of_lt_sentinel hz htlt
    obtain ⟨he0, hge, hlt⟩ := hrange t e htlt he
    have hsv2 : (t + 1 = 0 ∧ e.state = 0) ∨
        ∃ p r, t + 1 = p + 1 ∧ tbl[p]? = some r ∧ r.state = e.state :=
      Or.inr ⟨t, e, rfl, he, rfl⟩
    have hcast : ((t + 1 : Nat) : Int) = (t : Int) + 1 := by push_cast; ring
    rw [drop_of_getElem? tbl t e he]
    by_cases hnew : sv = e.state
    · -- the row continues the group of the previous row
      have hprev : ∃ p r, t = p + 1 ∧ tbl[p]? = some r ∧ r.state = e.state := by
        rcases hsv with ⟨_, h0⟩ | ⟨p, r, hp, hr, hrs⟩
        · exact absurd (hnew ▸ h0 : e.state = 0) he0
        · exact ⟨p, r, hp, hr, hrs.trans hnew⟩
      obtain ⟨p, r, hp, hr, hrs⟩ := hprev
      have hinv2 : ∀ s : Int, 0 ≤ s → s < (N : Int) → IndexUpTo tbl (t + 1) hm s := by
        intro s hs0 hsN
        rcases hinv s hs0 hsN with ⟨hrd, hnone⟩ | ⟨i, hi, hrd, hst, hfirst⟩
        · refine Or.inl ⟨hrd, ?_⟩
          intro j rj hj hrj
          by_cases hjt : j = t
          · subst hjt
            have : rj = e := by rw [he] at hrj; exact (Option.some.inj hrj).symm
            subst this
            intro hes
            exact hnone p r (by omega) hr (hrs.trans hes)
          · exact hnone j rj (by omega) hrj
        · exact Or.inr ⟨i, by omega, hrd, hst, hfirst⟩
      obtain ⟨hm2, h1, h2, h3⟩ := ih (t + 1) e.state hm (by omega) hlen hsv2 hinv2
      refine ⟨hm2, ?_, h2, h3⟩
      rw [hcast] at h1
      simp only [sm_init_scan, he0, hnew, ne_eq, not_true_eq_false, if_false]
      exact h1
    · -- the row opens a group
      have hnat : e.state.toNat < hm.length := by
        rw [hlen]; exact (Int.toNat_lt hge).mpr hlt
      have hfresh : ∀ j rj, j < t → tbl[j]? = some rj → rj.state ≠ e.state := by
        intro j rj hj hrj hjs
        rcases hsv with ⟨ht0, _⟩ | ⟨p, r, hp, hr, hrs⟩
        · omega
        · have := hcontig j p t rj r e (by omega) (by omega) htlt hrj hr he hjs
          exact hnew (hrs.symm.trans (this.trans hjs))
      have hinv2 : ∀ s : Int, 0 ≤ s → s < (N : Int) →
          IndexUpTo tbl (t + 1) (hm.set e.state.toNat (t : Int)) s := by
        intro s hs0 hsN
        by_cases hse : s = e.state
        · subst hse
          exact Or.inr ⟨t, by omega, readAt_set_self hm _ _ hge hnat, ⟨e, he, rfl⟩, hfresh⟩
        · rw [IndexUpTo, readAt_set_ne hm s e.state t hs0 hge hse]
          rcases hinv s hs0 hsN with ⟨hrd, hnone⟩ | ⟨i, hi, hrd, hst, hfirst⟩
          · refine Or.inl ⟨hrd, ?_⟩
            intro j rj hj hrj
            by_cases hjt : j = t
            · subst hjt
              have : rj = e := by rw [he] at hrj; exact (Option.some.inj hrj).symm
              subst this
              exact fun h => hse h.symm
            · exact hnone j rj (by omega) hrj
          · exact Or.inr ⟨i, by omega, hrd, hst, hfirst⟩
      obtain ⟨hm2, h1, h2, h3⟩ := ih (t + 1) e.state (hm.set e.state.toNat (t : Int))
        (by omega) (by simpa using hlen) hsv2 hinv2
      refine ⟨hm2, ?_, h2, h3⟩
      rw [hcast] at h1
      simp only [sm_init_scan, he0, if_false, ne_eq, hnew, not_false_eq_true, if_true,
        writeAt, hge, hnat, and_self]
      exact h1

theorem Indexed.isRule_iff_lt {D A : Type} {sm : StateMachine D A} {hm : List Int} {n : Nat}
    (h : Indexed sm hm n) (i : Nat) (e : StateTableEntry D A) :
    IsRule sm.stateTable i e ↔ i < n ∧ sm.stateTable[i]? = some e := by
  obtain ⟨z, hz, hz0⟩ := h.sentinel
  exact SM.isRule_iff hz hz0 h.rules i e

theorem Indexed.setCurrent {D A : Type} {sm : StateMachine D A} {hm : List Int} {n : Nat}
    (h : Indexed sm hm n) (c : Int) : Indexed { sm with currentState := c } hm n :=
  ⟨h.hmap, h.len, h.sentinel, h.rules, h.inRange, h.contiguous, h.index⟩

theorem init_scan_of_wellFormed {D A : Type} (tbl : List (StateTableEntry D A)) (g : Int)
    (hwf : WellFormed tbl g) :
    ∃ (hm : List Int) (n : Nat),
      sm_init_scan tbl 0 0 (List.replicate (g + 1).toNat (-1)) = some hm ∧
      hm.length = (g + 1).toNat ∧
      (∃ z, tbl[n]? = some z ∧ z.state = 0) ∧
      (∀ j r, j < n → tbl[j]? = some r → r.state ≠ 0) ∧
      (∀ i j k ri rj rk, i ≤ j → j ≤ k → k < n → tbl[i]? = some ri →
        tbl[j]? = some rj → tbl[k]? = some rk → ri.state = rk.state → rj.state = ri.state) ∧
      ∀ s : Int, 0 ≤ s → s ≤ g → IndexUpTo tbl n hm s := by
  obtain ⟨n, z, hz, hz0, hmin⟩ := first_sentinel tbl hwf.terminated
  have hrule : ∀ i e, i < n → tbl[i]? = some e → IsRule tbl i e :=
    fun i e hi he => (SM.isRule_iff hz hz0 hmin i e).mpr ⟨hi, he⟩
  have hcontig : ∀ i j k ri rj rk, i ≤ j → j ≤ k → k < n → tbl[i]? = some ri →
      tbl[j]? = some rj → tbl[k]? = some rk → ri.state = rk.state → rj.state = ri.state :=
    fun i j k ri rj rk hij hjk hk hi hj hkk hs =>
      hwf.contiguous i j k ri rj rk (hrule i ri (by omega) hi) hj (hrule k rk hk hkk) hij hjk hs
  have hrange : ∀ j r, j < n → tbl[j]? = some r →
      r.state ≠ 0 ∧ 0 ≤ r.state ∧ r.state < ((g + 1).toNat : Int) := by
    intro j r hj hr
    obtain ⟨h1, h2⟩ := hwf.inRange j r (hrule j r hj hr)
    refine ⟨hmin j r hj hr, by omega, ?_⟩
    rw [Int.toNat_of_nonneg (by omega)]
    omega
  have hstart : ∀ s : Int, 0 ≤ s → s < ((g + 1).toNat : Int) →
      IndexUpTo tbl 0 (List.replicate (g + 1).toNat (-1)) s := by
    intro s hs0 hsN
    refine Or.inl ⟨?_, fun j r hj => absurd hj (Nat.not_lt_zero j)⟩
    have : s.toNat < (g + 1).toNat := by
      have := Int.toNat_of_nonneg hs0
      omega
    simp [readAt, hs0, List.getElem?_replicate, this]
  obtain ⟨hm, h1, h2, h3⟩ := sm_init_scan_index tbl n (g + 1).toNat z hz hz0 hrange hcontig n 0 0
    (List.replicate (g + 1).toNat (-1)) (by omega) (by simp) (Or.inl ⟨rfl, rfl⟩) hstart
  refine ⟨hm, n, by simpa using h1, h2, ⟨z, hz, hz0⟩, hmin, hcontig, ?_⟩
  intro s hs0 hsg
  apply h3 s hs0
  rw [Int.toNat_of_nonneg (by omega)]
  omega

theorem indexed_of_init {D A : Type} (sm0 sm : StateMachine D A) (r : Int)
    (hwf : WellFormed sm0.stateTable sm0.guardState)
    (hinit : sm_init true sm0 = some (r, sm)) :
    r = UI_STATE_MACHINE_OK ∧ ∃ hm n, sm = { sm0 with stateTable_hashMap := some hm } ∧
      Indexed sm hm n := by
  obtain ⟨hm, n, hscan, hlen, hsent, hrules, hcontig, hidx⟩ :=
    init_scan_of_wellFormed sm0.stateTable sm0.guardState hwf
  simp only [sm_init, if_true, hscan, Option.some.injEq, Prod.mk.injEq] at hinit
  obtain ⟨hr, hsm⟩ := hinit
  subst hsm
  obtain ⟨z, hz, hz0⟩ := hsent
  have hrange : ∀ j r, j < n → sm0.stateTable[j]? = some r →
      1 ≤ r.state ∧ r.state ≤ sm0.guardState :=
    fun j r hj hr => hwf.inRange j r ((SM.isRule_iff hz hz0 hrules j r).mpr ⟨hj, hr⟩)
  exact ⟨hr.symm, hm, n, rfl, ⟨rfl, hlen, ⟨z, hz, hz0⟩, hrules, hrange, hcontig, hidx⟩⟩

/-! ## Dispatch on an indexed machine -/

theorem scan_from_natCast {D A : Type} (sm : StateMachine D A) (scope ev : Int) (d : D)
    (i : Nat) : scan_from sm scope ev d (i : Int) =
      scan_group sm.guardState scope ev d (sm.stateTable.drop i) i sm.currentState := by
  simp [scan_from]

theorem Indexed.scan_fire {D A : Type} {sm : StateMachine D A} {hm : List Int} {n : Nat}
    (h : Indexed sm hm n) (ev : Int) (d : D) (k : Nat) (e : StateTableEntry D A)
    (hk : k < n) (he : sm.stateTable[k]? = some e) (hmatch : Matches e ev d)
    (hearly : ∀ j r, j < k → sm.stateTable[j]? = some r → r.state = e.state →
      ¬ Matches r ev d) :
    ∃ i : Nat, readAt hm e.state = some (i : Int) ∧ ∃ pre, Misses pre ∧
      (∀ r ∈ touched pre, r < k ∧ ∃ x, sm.stateTable[r]? = some x ∧ x.state = e.state) ∧
      scan_from sm e.state ev d (i : Int) =
        some (true, (if e.nextState ≠ sm.guardState then e.nextState else sm.currentState),
          pre ++ fire_steps sm.guardState k e ev d) := by
  obtain ⟨h1, hg⟩ := h.inRange k e hk he
  obtain ⟨z, hz, _⟩ := h.sentinel
  rcases h.index e.state (by omega) hg with ⟨_, hnone⟩ | ⟨i, hi, hrd, ⟨ei, hei, heis⟩, hfirst⟩
  · exact absurd rfl (hnone k e hk he)
  · have hik : i ≤ k := by
      by_contra hcon
      exact hfirst k e (by omega) he rfl
    refine ⟨i, hrd, ?_⟩
    have hstate : ∀ j r, i ≤ j → j < i + (k - i) → sm.stateTable[j]? = some r →
        r.state = e.state := fun j r hij hjk hr =>
      (h.contiguous i j k ei r e hij (by omega) hk hei hr he heis).trans heis
    have hall : ∀ j r, i ≤ j → j < i + (k - i) → sm.stateTable[j]? = some r →
        r.state = e.state ∧ ¬ Matches r ev d := fun j r hij hjk hr =>
      ⟨hstate j r hij hjk hr, hearly j r (by omega) hr (hstate j r hij hjk hr)⟩
    have hek : sm.stateTable[i + (k - i)]? = some e := by
      rw [← he]; congr 1; omega
    obtain ⟨pre, hmiss, htouch, hscan⟩ := scan_group_fire sm.guardState e.state ev d
      sm.stateTable sm.currentState (k - i) i e hek rfl hmatch hall
    refine ⟨pre, hmiss, ?_, ?_⟩
    · intro r hr
      obtain ⟨hr1, hr2⟩ := htouch r hr
      obtain ⟨x, hx⟩ := getElem?_of_lt_sentinel hz (show r < n by omega)
      exact ⟨by omega, x, hx, hstate r x hr1 hr2 hx⟩
    · rw [scan_from_natCast, hscan]
      have : i + (k - i) = k := by omega
      rw [this]

theorem Indexed.scan_miss {D A : Type} {sm : StateMachine D A} {hm : List Int} {n : Nat}
    (h : Indexed sm hm n) (ev : Int) (d : D) (s : Int) (hs0 : 0 ≤ s)
    (hsg : s ≤ sm.guardState)
    (hno : ∀ j r, j < n → sm.stateTable[j]? = some r → r.state = s → ¬ Matches r ev d) :
    readAt hm s = some (-1) ∨ ∃ i : Nat, readAt hm s = some (i : Int) ∧ ∃ log, Misses log ∧
      (∀ r ∈ touched log, ∃ x, sm.stateTable[r]? = some x ∧ x.state = s) ∧
      scan_from sm s ev d (i : Int) = some (false, sm.currentState, log) := by
  classical
  rcases h.index s hs0 hsg with ⟨hrd, _⟩ | ⟨i, hi, hrd, ⟨ei, hei, heis⟩, _⟩
  · exact Or.inl hrd
  · refine Or.inr ⟨i, hrd, ?_⟩
    obtain ⟨z, hz, hz0⟩ := h.sentinel
    have hs : s ≠ 0 := fun h0 => h.rules i ei hi hei (heis.trans h0)
    have hP : ∃ k, i ≤ k ∧ ∃ x, sm.stateTable[k]? = some x ∧ x.state ≠ s :=
      ⟨n, by omega, z, hz, fun hzs => hs (hzs.symm.trans hz0)⟩
    obtain ⟨hik, x, hx, hxs⟩ := Nat.find_spec hP
    have hkn : Nat.find hP ≤ n :=
      Nat.find_min' hP ⟨by omega, z, hz, fun hzs => hs (hzs.symm.trans hz0)⟩
    have hstate : ∀ j r, i ≤ j → j < Nat.find hP → sm.stateTable[j]? = some r →
        r.state = s := by
      intro j r hij hj hr
      by_contra hne
      exact Nat.find_min hP hj ⟨hij, r, hr, hne⟩
    have hall : ∀ j r, i ≤ j → j < i + (Nat.find hP - i) → sm.stateTable[j]? = some r →
        r.state = s ∧ ¬ Matches r ev d := by
      intro j r hij hj hr
      have hrs := hstate j r hij (by omega) hr
      exact ⟨hrs, hno j r (by omega) hr hrs⟩
    have hxk : sm.stateTable[i + (Nat.find hP - i)]? = some x := by
      rw [← hx]; congr 1; omega
    obtain ⟨log, hscan, hmiss, htouch⟩ := scan_group_miss sm.guardState s ev d
      sm.stateTable sm.currentState (Nat.find hP - i) i x hxk hxs hall
    refine ⟨log, hmiss, ?_, ?_⟩
    · intro r hr
      obtain ⟨hr1, hr2⟩ := htouch r hr
      obtain ⟨y, hy⟩ := getElem?_of_lt_sentinel hz (show r < n by omega)
      exact ⟨y, hy, hstate r y hr1 (by omega) hy⟩
    · rw [scan_from_natCast, hscan]

theorem natCast_ne_neg_one (i : Nat) : ((i : Int) = -1) = False := by
  apply eq_false
  omega

theorem setCurrent_self {D A : Type} (sm : StateMachine D A) :
    ({ sm with currentState := sm.currentState } : StateMachine D A) = sm := by
  cases sm
  rfl

theorem Indexed.guard_fire {D A : Type} {sm : StateMachine D A} {hm : List Int} {n : Nat}
    (h : Indexed sm hm n) (ev : Int) (d : D) (k : Nat) (e : StateTableEntry D A)
    (hk : k < n) (he : sm.stateTable[k]? = some e) (hs : e.state = sm.guardState)
    (hmatch : Matches e ev d)
    (hearly : ∀ j r, j < k → sm.stateTable[j]? = some r → r.state = sm.guardState →
      ¬ Matches r ev d) :
    ∃ pre, Misses pre ∧
      (∀ r ∈ touched pre, r < k ∧ ∃ x, sm.stateTable[r]? = some x ∧
        x.state = sm.guardState) ∧
      guard_transition sm hm ev d =
        some ({ sm with currentState :=
            (if e.nextState ≠ sm.guardState then e.nextState else sm.currentState) },
          pre ++ fire_steps sm.guardState k e ev d) := by
  obtain ⟨i, hrd, pre, hmiss, htouch, hscan⟩ :=
    h.scan_fire ev d k e hk he hmatch (fun j r hj hr hrs => hearly j r hj hr (hrs.trans hs))
  rw [hs] at hrd hscan htouch
  refine ⟨pre, hmiss, htouch, ?_⟩
  simp only [guard_transition, hrd, natCast_ne_neg_one, if_false, hscan]

theorem Indexed.guard_miss {D A : Type} {sm : StateMachine D A} {hm : List Int} {n : Nat}
    (h : Indexed sm hm n) (ev : Int) (d : D) (hg : 0 ≤ sm.guardState)
    (hno : ∀ j r, j < n → sm.stateTable[j]? = some r → r.state = sm.guardState →
      ¬ Matches r ev d) :
    ∃ log, Misses log ∧
      (∀ r ∈ touched log, ∃ x, sm.stateTable[r]? = some x ∧ x.state = sm.guardState) ∧
      guard_transition sm hm ev d = some (sm, log) := by
  rcases h.scan_miss ev d sm.guardState hg le_rfl hno with
    hrd | ⟨i, hrd, log, hmiss, htouch, hscan⟩
  · refine ⟨[], Misses.nil, by simp [touched], ?_⟩
    simp only [guard_transition, hrd, if_true]
  · refine ⟨log, hmiss, htouch, ?_⟩
    simp only [guard_transition, hrd, natCast_ne_neg_one, if_false, hscan, setCurrent_self]

theorem Indexed.primary_fire {D A : Type} {sm : StateMachine D A} {hm : List Int} {n : Nat}
    (h : Indexed sm hm n) (ev : Int) (d : D) (k : Nat) (e : StateTableEntry D A)
    (hk : k < n) (he : sm.stateTable[k]? = some e) (hs : e.state = sm.currentState)
    (hmatch : Matches e ev d)
    (hearly : ∀ j r, j < k → sm.stateTable[j]? = some r → r.state = sm.currentState →
      ¬ Matches r ev d) :
    ∃ pre, Misses pre ∧
      (∀ r ∈ touched pre, r < k ∧ ∃ x, sm.stateTable[r]? = some x ∧
        x.state = sm.currentState) ∧
      make_transition sm ev d =
        some ({ sm with currentState :=
            (if e.nextState ≠ sm.guardState then e.nextState else sm.currentState) },
          pre ++ fire_steps sm.guardState k e ev d) := by
  obtain ⟨i, hrd, pre, hmiss, htouch, hscan⟩ :=
    h.scan_fire ev d k e hk he hmatch (fun j r hj hr hrs => hearly j r hj hr (hrs.trans hs))
  rw [hs] at hrd hscan htouch
  refine ⟨pre, hmiss, htouch, ?_⟩
  simp only [make_transition, h.hmap, hrd, natCast_ne_neg_one, if_false, hscan]

theorem Indexed.primary_miss {D A : Type} {sm : StateMachine D A} {hm : List Int} {n : Nat}
    (h : Indexed sm hm n) (ev : Int) (d : D) (hs0 : 0 ≤ sm.currentState)
    (hsg : sm.currentState ≤ sm.guardState)
    (hno : ∀ j r, j < n → sm.stateTable[j]? = some r → r.state = sm.currentState →
      ¬ Matches r ev d) :
    ∃ pre, Misses pre ∧
      (∀ r ∈ touched pre, ∃ x, sm.stateTable[r]? = some x ∧ x.state = sm.currentState) ∧
      make_transition sm ev d =
        match guard_transition sm hm ev d with
        | none => none
        | some (sm2, log2) => some (sm2, pre ++ log2) := by
  rcases h.scan_miss ev d sm.currentState hs0 hsg hno with
    hrd | ⟨i, hrd, log, hmiss, htouch, hscan⟩
  · refine ⟨[], Misses.nil, by simp [touched], ?_⟩
    simp only [make_transition, h.hmap, hrd, if_true, List.nil_append]
    cases guard_transition sm hm ev d with
    | none => rfl
    | some r => rfl
  · refine ⟨log, hmiss, htouch, ?_⟩
    simp only [make_transition, h.hmap, hrd, natCast_ne_neg_one, if_false, hscan]

theorem actions_fire_steps {D A : Type} (g : Int) (k : Nat) (e : StateTableEntry D A)
    (ev : Int) (d : D) :
    actions (fire_steps g k e ev d) =
      (match e.action with
       | some a => [(k, a, d)]
       | none => []) := by
  unfold fire_steps
  cases e.action <;> by_cases hn : e.nextState = g <;> simp [actions, hn]

theorem assigns_fire_steps {D A : Type} (g : Int) (k : Nat) (e : StateTableEntry D A)
    (ev : Int) (d : D) :
    assigns (fire_steps g k e ev d) = (if e.nextState ≠ g then [e.nextState] else []) := by
  unfold fire_steps
  cases e.action <;> by_cases hn : e.nextState = g <;> simp [assigns, hn]

theorem evals_fire_steps {D A : Type} (g : Int) (k : Nat) (e : StateTableEntry D A)
    (ev : Int) (d : D) : evals (fire_steps g k e ev d) = [(k, ev, d, true)] := by
  unfold fire_steps
  cases e.action <;> by_cases hn : e.nextState = g <;> simp [evals, hn]

theorem touched_fire_steps {D A : Type} (g : Int) (k : Nat) (e : StateTableEntry D A)
    (ev : Int) (d : D) : ∀ r ∈ touched (fire_steps g k e ev d), r = k := by
  unfold fire_steps
  cases e.action <;> by_cases hn : e.nextState = g <;> simp [touched, hn]

/-! ## Checking a concrete table -/

theorem stateAt_eq {D A : Type} {tbl : List (StateTableEntry D A)} {i : Nat}
    {e : StateTableEntry D A} (h : tbl[i]? = some e) : stateAt tbl i = some e.state := by
  simp [stateAt, h]

theorem stateAt_some {D A : Type} {tbl : List (StateTableEntry D A)} {i : Nat} {s : Int}
    (h : stateAt tbl i = some s) : ∃ z, tbl[i]? = some z ∧ z.state = s := by
  unfold stateAt at h
  cases hz : tbl[i]? with
  | none => rw [hz] at h; cases h
  | some z =>
    rw [hz] at h
    exact ⟨z, rfl, Option.some.inj h⟩

theorem IsRule.lt_of_zero {D A : Type} {tbl : List (StateTableEntry D A)} {i n : Nat}
    {e : StateTableEntry D A} (h : IsRule tbl i e) (hn : stateAt tbl n = some 0) : i < n := by
  by_contra hcon
  obtain ⟨z, hz, hz0⟩ := stateAt_some hn
  exact h.2 n z (by omega) hz hz0

theorem IsRule.of_noZero {D A : Type} {tbl : List (StateTableEntry D A)} {i : Nat}
    {e : StateTableEntry D A} (h : tbl[i]? = some e)
    (hall : ∀ j, j < i + 1 → stateAt tbl j ≠ some 0) : IsRule tbl i e := by
  refine ⟨h, fun j r hj hr hr0 => hall j (by omega) ?_⟩
  rw [stateAt_eq hr, hr0]

theorem WellFormed.of_check {D A : Type} (tbl : List (StateTableEntry D A)) (g : Int)
    (n : Nat) (hn : stateAt tbl n = some 0)
    (hrange : ∀ j, j < n → 1 ≤ (stateAt tbl j).getD 0 ∧ (stateAt tbl j).getD 0 ≤ g)
    (hcontig : ∀ k, k < n → ∀ j, j < k + 1 → ∀ i, i < j + 1 →
      stateAt tbl i = stateAt tbl k → stateAt tbl j = stateAt tbl i) :
    WellFormed tbl g := by
  refine ⟨?_, ?_, ?_⟩
  · obtain ⟨z, hz, hz0⟩ := stateAt_some hn
    exact ⟨n, z, hz, hz0⟩
  · intro i e hi
    have := hrange i (hi.lt_of_zero hn)
    rw [stateAt_eq hi.1] at this
    simpa using this
  · intro i j k ei ej ek hi hj hk hij hjk hs
    have := hcontig k (hk.lt_of_zero hn) j (by omega) i (by omega)
      (by rw [stateAt_eq hi.1, stateAt_eq hk.1, hs])
    rw [stateAt_eq hi.1, stateAt_eq hj] at this
    exact Option.some.inj this

theorem wellFormed_tableA : WellFormed tableA STATE_GUARD :=
  WellFormed.of_check tableA STATE_GUARD 1 (by decide) (by decide) (by decide)

/-! ## The shape of every dispatch -/

theorem TouchedIn.empty {D A : Type} (tbl : List (StateTableEntry D A)) (scope : Int) :
    TouchedIn tbl scope ([] : List (Step D A)) := by
  intro r hr
  simp [touched] at hr

theorem TouchedIn.cons_eval {D A : Type} {tbl : List (StateTableEntry D A)} {scope : Int}
    {log : List (Step D A)} (h : TouchedIn tbl scope log) (i : Nat) (ev : Int) (d : D)
    (b : Bool) (x : StateTableEntry D A) (hx : tbl[i]? = some x) (hxs : x.state = scope)
    (hxf : x.event_func ≠ none) :
    TouchedIn tbl scope (Step.eval i ev d b :: log) := by
  intro r hr
  simp only [touched, List.mem_cons] at hr
  rcases hr with rfl | hr
  · exact ⟨x, hx, hxs, hxf⟩
  · exact h r hr

theorem TouchedIn.fire {D A : Type} {tbl : List (StateTableEntry D A)} {scope : Int}
    (g : Int) (k : Nat) (e : StateTableEntry D A) (ev : Int) (d : D)
    (he : tbl[k]? = some e) (hes : e.state = scope) (hef : e.event_func ≠ none) :
    TouchedIn tbl scope (fire_steps g k e ev d) := by
  intro r hr
  rw [touched_fire_steps g k e ev d r hr]
  exact ⟨e, he, hes, hef⟩

theorem TouchedIn.concat {D A : Type} {tbl : List (StateTableEntry D A)} {scope : Int}
    {l1 l2 : List (Step D A)} (h1 : TouchedIn tbl scope l1) (h2 : TouchedIn tbl scope l2) :
    TouchedIn tbl scope (l1 ++ l2) := by
  intro r hr
  rw [touched_append, List.mem_append] at hr
  rcases hr with hr | hr
  · exact h1 r hr
  · exact h2 r hr

theorem scan_group_shape {D A : Type} (g scope ev : Int) (d : D)
    (tbl : List (StateTableEntry D A)) (cur : Int) :
    ∀ (rest : List (StateTableEntry D A)) (i : Nat), tbl.drop i = rest →
      ∀ (fired : Bool) (cur2 : Int) (log : List (Step D A)),
      scan_group g scope ev d rest i cur = some (fired, cur2, log) →
      (fired = false ∧ cur2 = cur ∧ Misses log ∧ TouchedIn tbl scope log) ∨
      (fired = true ∧ ∃ k e pre, tbl[k]? = some e ∧ e.state = scope ∧ Matches e ev d ∧
        Misses pre ∧ TouchedIn tbl scope pre ∧ log = pre ++ fire_steps g k e ev d ∧
        cur2 = firedState g cur e) := by
  intro rest
  induction rest with
  | nil =>
    intro i _ fired cur2 log h
    simp [scan_group] at h
  | cons e rest ih =>
    intro i hdrop fired cur2 log h
    have hei : tbl[i]? = some e := by
      have := List.getElem?_drop tbl i 0
      rw [hdrop] at this
      simpa using this.symm
    have hrest : tbl.drop (i + 1) = rest := by
      have := drop_of_getElem? tbl i e hei
      rw [hdrop] at this
      exact (List.cons.inj this).2.symm
    by_cases hsc : scope = e.state
    · cases hf : e.event_func with
      | none =>
        simp only [scan_group, hsc, ne_eq, not_true_eq_false, if_false, hf] at h
        rw [← hsc] at h
        exact ih (i + 1) hrest fired cur2 log h
      | some f =>
        cases hfv : f ev d with
        | true =>
          simp only [scan_group, hsc, ne_eq, not_true_eq_false, if_false, hf, hfv, if_true,
            Option.some.injEq, Prod.mk.injEq] at h
          obtain ⟨h1, h2, h3⟩ := h
          refine Or.inr ⟨h1.symm, i, e, [], hei, hsc.symm, ⟨f, hf, hfv⟩, Misses.nil,
            TouchedIn.empty tbl scope, ?_, ?_⟩
          · rw [← h3]; rfl
          · rw [← h2]; rfl
        | false =>
          simp only [scan_group, hsc, ne_eq, not_true_eq_false, if_false, hf, hfv] at h
          rw [← hsc] at h
          cases hrec : scan_group g scope ev d rest (i + 1) cur with
          | none => simp [hrec] at h
          | some res =>
            obtain ⟨fired3, cur3, log3⟩ := res
            simp only [hrec, Option.some.injEq, Prod.mk.injEq] at h
            obtain ⟨rfl, rfl, rfl⟩ := h
            rcases ih (i + 1) hrest _ _ _ hrec with
              ⟨a1, a2, a3, a4⟩ | ⟨a1, k, e2, pre, b1, b2, b3, b4, b5, b6, b7⟩
            · exact Or.inl ⟨a1, a2, Misses.cons i ev d a3,
                a4.cons_eval i ev d false e hei hsc.symm (by rw [hf]; simp)⟩
            · refine Or.inr ⟨a1, k, e2, Step.eval i ev d false :: pre, b1, b2, b3,
                Misses.cons i ev d b4, b5.cons_eval i ev d false e hei hsc.symm (by rw [hf]; simp), ?_, b7⟩
              rw [b6]; rfl
    · simp only [scan_group, ne_eq, hsc, not_false_eq_true, if_true, Option.some.injEq,
        Prod.mk.injEq] at h
      obtain ⟨h1, h2, h3⟩ := h
      exact Or.inl ⟨h1.symm, h2.symm, by rw [← h3]; exact Misses.nil,
        by rw [← h3]; exact TouchedIn.empty tbl scope⟩

theorem scan_from_shape {D A : Type} (sm : StateMachine D A) (scope ev : Int) (d : D)
    (i : Int) (fired : Bool) (cur2 : Int) (log : List (Step D A))
    (h : scan_from sm scope ev d i = some (fired, cur2, log)) :
    (fired = false ∧ cur2 = sm.currentState ∧ Misses log ∧
        TouchedIn sm.stateTable scope log) ∨
      (fired = true ∧ ∃ k e pre, sm.stateTable[k]? = some e ∧ e.state = scope ∧
        Matches e ev d ∧ Misses pre ∧ TouchedIn sm.stateTable scope pre ∧
        log = pre ++ fire_steps sm.guardState k e ev d ∧
        cur2 = firedState sm.guardState sm.currentState e) := by
  unfold scan_from at h
  by_cases hi : 0 ≤ i
  · rw [if_pos hi] at h
    exact scan_group_shape sm.guardState scope ev d sm.stateTable sm.currentState _ _ rfl
      fired cur2 log h
  · rw [if_neg hi] at h
    cases h

theorem guard_transition_shape {D A : Type} (sm : StateMachine D A) (hm : List Int)
    (ev : Int) (d : D) (sm2 : StateMachine D A) (log : List (Step D A))
    (h : guard_transition sm hm ev d = some (sm2, log)) :
    (sm2 = sm ∧ Misses log ∧ TouchedIn sm.stateTable sm.guardState log) ∨
      (∃ k e pre, sm.stateTable[k]? = some e ∧ e.state = sm.guardState ∧
        Matches e ev d ∧ Misses pre ∧ TouchedIn sm.stateTable sm.guardState pre ∧
        log = pre ++ fire_steps sm.guardState k e ev d ∧
        sm2 = { sm with currentState := firedState sm.guardState sm.currentState e }) := by
  unfold guard_transition at h
  cases hrd : readAt hm sm.guardState with
  | none => simp [hrd] at h
  | some i =>
    simp only [hrd] at h
    by_cases hi : i = -1
    · simp only [hi, if_true, Option.some.injEq, Prod.mk.injEq] at h
      exact Or.inl ⟨h.1.symm, by rw [← h.2]; exact Misses.nil,
        by rw [← h.2]; exact TouchedIn.empty _ _⟩
    · simp only [hi, if_false] at h
      cases hsc : scan_from sm sm.guardState ev d i with
      | none => simp [hsc] at h
      | some res =>
        obtain ⟨fired, cur2, log2⟩ := res
        simp only [hsc, Option.some.injEq, Prod.mk.injEq] at h
        obtain ⟨h1, h2⟩ := h
        subst h1 h2
        rcases scan_from_shape sm sm.guardState ev d i fired cur2 log2 hsc with
          ⟨_, a2, a3, a4⟩ | ⟨_, k, e, pre, b1, b2, b3, b4, b5, b6, b7⟩
        · exact Or.inl ⟨by rw [a2], a3, a4⟩
        · exact Or.inr ⟨k, e, pre, b1, b2, b3, b4, b5, b6, by rw [b7]⟩

theorem make_transition_shape {D A : Type} (sm : StateMachine D A) (ev : Int) (d : D)
    (sm2 : StateMachine D A) (log : List (Step D A))
    (h : make_transition sm ev d = some (sm2, log)) :
    (sm2 = sm ∧ Misses log) ∨
      (∃ k e pre, sm.stateTable[k]? = some e ∧
        (e.state = sm.currentState ∨ e.state = sm.guardState) ∧
        Matches e ev d ∧ Misses pre ∧ log = pre ++ fire_steps sm.guardState k e ev d ∧
        sm2 = { sm with currentState := firedState sm.guardState sm.currentState e }) := by
  unfold make_transition at h
  cases hmap : sm.stateTable_hashMap with
  | none => simp [hmap] at h
  | some hm =>
    simp only [hmap] at h
    cases hrd : readAt hm sm.currentState with
    | none => simp [hrd] at h
    | some i =>
      simp only [hrd] at h
      by_cases hi : i = -1
      · simp only [hi, if_true] at h
        rcases guard_transition_shape sm hm ev d sm2 log h with
          ⟨a1, a2, _⟩ | ⟨k, e, pre, b1, b2, b3, b4, _, b6, b7⟩
        · exact Or.inl ⟨a1, a2⟩
        · rw [hmap] at b7
          exact Or.inr ⟨k, e, pre, b1, Or.inr b2, b3, b4, b6, b7⟩
      · simp only [hi, if_false] at h
        cases hsc : scan_from sm sm.currentState ev d i with
        | none => simp [hsc] at h
        | some res =>
          obtain ⟨fired, cur2, log1⟩ := res
          rcases scan_from_shape sm sm.currentState ev d i fired cur2 log1 hsc with
            ⟨a1, _, a3, _⟩ | ⟨a1, k, e, pre, b1, b2, b3, b4, _, b6, b7⟩
          · subst a1
            simp only [hsc] at h
            cases hgd : guard_transition sm hm ev d with
            | none => simp [hgd] at h
            | some res2 =>
              obtain ⟨sm3, log3⟩ := res2
              simp only [hgd, Option.some.injEq, Prod.mk.injEq] at h
              obtain ⟨h1, h2⟩ := h
              subst h1 h2
              rcases guard_transition_shape sm hm ev d sm3 log3 hgd with
                ⟨c1, c2, _⟩ | ⟨k, e, pre, b1, b2, b3, b4, _, b6, b7⟩
              · exact Or.inl ⟨c1, a3.append c2⟩
              · rw [hmap] at b7
                refine Or.inr ⟨k, e, log1 ++ pre, b1, Or.inr b2, b3, a3.append b4, ?_, b7⟩
                rw [b6, List.append_assoc]
          · subst a1
            simp only [hsc, Option.some.injEq, Prod.mk.injEq] at h
            obtain ⟨h1, h2⟩ := h
            subst h1 h2
            exact Or.inr ⟨k, e, pre, b1, Or.inl b2, b3, b4, b6, by rw [b7]⟩

/-! ## A dispatch in which a rule fires, or none does -/

theorem fired_log {D A : Type} (g : Int) (k : Nat) (e : StateTableEntry D A) (ev : Int)
    (d : D) (pre : List (Step D A)) (hmiss : Misses pre) :
    actions (pre ++ fire_steps g k e ev d) =
        (match e.action with
         | some a => [(k, a, d)]
         | none => []) ∧
      (∀ p ∈ evals (pre ++ fire_steps g k e ev d), p.2.2.2 = true → p = (k, ev, d, true)) ∧
      (k, ev, d, true) ∈ evals (pre ++ fire_steps g k e ev d) ∧
      assigns (pre ++ fire_steps g k e ev d) =
        (if e.nextState ≠ g then [e.nextState] else []) := by
  refine ⟨?_, ?_, ?_, ?_⟩
  · rw [actions_append, hmiss.no_actions, actions_fire_steps, List.nil_append]
  · intro p hp htrue
    rw [evals_append, evals_fire_steps, List.mem_append] at hp
    rcases hp with hp | hp
    · rw [hmiss.evals_false p hp] at htrue
      cases htrue
    · exact List.mem_singleton.mp hp
  · rw [evals_append, evals_fire_steps]
    exact List.mem_append_right _ (List.mem_singleton_self _)
  · rw [assigns_append, hmiss.no_assigns, assigns_fire_steps, List.nil_append]

theorem Indexed.no_match {D A : Type} {sm : StateMachine D A} {hm : List Int} {n : Nat}
    (h : Indexed sm hm n) (ev : Int) (d : D) (hs0 : 0 ≤ sm.currentState)
    (hsg : sm.currentState ≤ sm.guardState)
    (hno : ∀ j r, j < n → sm.stateTable[j]? = some r → r.state = sm.currentState →
      ¬ Matches r ev d)
    (hnog : ∀ j r, j < n → sm.stateTable[j]? = some r → r.state = sm.guardState →
      ¬ Matches r ev d) :
    ∃ log, Misses log ∧ make_transition sm ev d = some (sm, log) := by
  obtain ⟨pre, hpre, _, hmk⟩ := h.primary_miss ev d hs0 hsg hno
  obtain ⟨log, hlog, _, hgd⟩ := h.guard_miss ev d (by omega) hnog
  refine ⟨pre ++ log, hpre.append hlog, ?_⟩
  rw [hmk, hgd]

/-! ## The loop of `sm_stateTransition` -/

theorem is_trans_scan_total (s : Int) (ts : List Int) (h : (0 : Int) ∈ ts) :
    ∃ b, is_trans_scan s ts = some b := by
  induction ts with
  | nil => cases h
  | cons x xs ih =>
    by_cases hx : x = 0
    · exact ⟨false, by simp [is_trans_scan, hx]⟩
    · by_cases hxs : x = s
      · exact ⟨true, by rw [is_trans_scan, if_neg hx, if_pos hxs]⟩
      · rcases List.mem_cons.mp h with h0 | h0
        · exact absurd h0.symm hx
        · obtain ⟨b, hb⟩ := ih h0
          exact ⟨b, by simp [is_trans_scan, hx, hxs, hb]⟩

theorem is_trans_state_total {D A : Type} (sm : StateMachine D A) (h : TransTerminated sm)
    (s : Int) : ∃ b, is_trans_state sm s = some b := by
  unfold is_trans_state
  cases hts : sm.transStates with
  | none => exact ⟨false, rfl⟩
  | some ts => exact is_trans_scan_total s ts (h ts hts)

theorem trans_loop_returned {D A : Type} (ev : Int) (d : D) :
    ∀ (fuel : Nat) (sm : StateMachine D A) (log : List (Step D A)) (sm2 : StateMachine D A)
      (log2 : List (Step D A)),
      trans_loop ev d fuel sm log = Outcome.returned (sm2, log2) →
      is_trans_state sm2 sm2.currentState = some false := by
  intro fuel
  induction fuel with
  | zero =>
    intro sm log sm2 log2 h
    cases ht : is_trans_state sm sm.currentState with
    | none => simp [trans_loop, ht] at h
    | some b =>
      cases b with
      | false =>
        simp only [trans_loop, ht, Outcome.returned.injEq, Prod.mk.injEq] at h
        rw [← h.1]; exact ht
      | true => simp [trans_loop, ht] at h
  | succ fuel ih =>
    intro sm log sm2 log2 h
    cases ht : is_trans_state sm sm.currentState with
    | none => simp [trans_loop, ht] at h
    | some b =>
      cases b with
      | false =>
        simp only [trans_loop, ht, Outcome.returned.injEq, Prod.mk.injEq] at h
        rw [← h.1]; exact ht
      | true =>
        cases hmk : make_transition sm ev d with
        | none => simp [trans_loop, ht, hmk] at h
        | some r =>
          obtain ⟨sm3, log3⟩ := r
          simp only [trans_loop, ht, hmk] at h
          exact ih sm3 (log ++ log3) sm2 log2 h

theorem trans_loop_stay {D A : Type} (ev : Int) (d : D) (sm : StateMachine D A)
    (step : List (Step D A)) (hstep : Misses step)
    (hmk : make_transition sm ev d = some (sm, step))
    (htot : ∃ b, is_trans_state sm sm.currentState = some b) :
    ∀ (fuel : Nat) (log : List (Step D A)), Misses log →
      ∃ log2, Misses log2 ∧
        ((is_trans_state sm sm.currentState = some false ∧
            trans_loop ev d fuel sm log = Outcome.returned (sm, log2)) ∨
          (is_trans_state sm sm.currentState = some true ∧
            trans_loop ev d fuel sm log = Outcome.running (sm, log2))) := by
  obtain ⟨b, hb⟩ := htot
  intro fuel
  induction fuel with
  | zero =>
    intro log hlog
    cases b with
    | false => exact ⟨log, hlog, Or.inl ⟨hb, by simp [trans_loop, hb]⟩⟩
    | true => exact ⟨log, hlog, Or.inr ⟨hb, by simp [trans_loop, hb]⟩⟩
  | succ fuel ih =>
    intro log hlog
    cases b with
    | false => exact ⟨log, hlog, Or.inl ⟨hb, by simp [trans_loop, hb]⟩⟩
    | true =>
      obtain ⟨log2, hlog2, hres⟩ := ih (log ++ step) (hlog.append hstep)
      refine ⟨log2, hlog2, ?_⟩
      simpa only [trans_loop, hb, hmk] using hres

theorem wellFormed_tableC : WellFormed tableC STATE_GUARD :=
  WellFormed.of_check tableC STATE_GUARD 2 (by decide) (by decide) (by decide)

theorem wellFormed_tableD : WellFormed tableD STATE_GUARD :=
  WellFormed.of_check tableD STATE_GUARD 3 (by decide) (by decide) (by decide)

theorem no_match_of_check {D A : Type} (tbl : List (StateTableEntry D A)) (s ev : Int)
    (d : D) (k : Nat) (h : ∀ j, j < k → rowMatches tbl j s ev d = false) :
    ∀ j r, j < k → tbl[j]? = some r → r.state = s → ¬ Matches r ev d := by
  intro j r hj hr hrs hmatch
  obtain ⟨f, hf, hfv⟩ := hmatch
  have := h j hj
  simp [rowMatches, hr, hrs, hf, hfv] at this

theorem no_rule_of_check {D A : Type} (tbl : List (StateTableEntry D A)) (s ev : Int)
    (d : D) (n : Nat) (hn : stateAt tbl n = some 0)
    (h : ∀ j, j < n → rowMatches tbl j s ev d = false) :
    ∀ j r, IsRule tbl j r → r.state = s → ¬ Matches r ev d :=
  fun j r hj => no_match_of_check tbl s ev d n h j r (hj.lt_of_zero hn) hj.1

theorem no_earlier_of_check {D A : Type} (tbl : List (StateTableEntry D A)) (s ev : Int)
    (d : D) (k : Nat) (h : ∀ j, j < k → rowMatches tbl j s ev d = false) :
    ∀ j r, j < k → IsRule tbl j r → r.state = s → ¬ Matches r ev d :=
  fun j r hj hr => no_match_of_check tbl s ev d k h j r hj hr.1

theorem trans_loop_invariant {D A : Type} (ev : Int) (d : D) (P : StateMachine D A → Prop)
    (hstep : ∀ sm sm2 log, P sm → make_transition sm ev d = some (sm2, log) → P sm2) :
    ∀ (fuel : Nat) (sm : StateMachine D A) (log : List (Step D A)) (sm2 : StateMachine D A)
      (log2 : List (Step D A)), P sm →
      (trans_loop ev d fuel sm log = Outcome.returned (sm2, log2) ∨
        trans_loop ev d fuel sm log = Outcome.running (sm2, log2)) → P sm2 := by
  intro fuel
  induction fuel with
  | zero =>
    intro sm log sm2 log2 hP h
    cases ht : is_trans_state sm sm.currentState with
    | none => simp [trans_loop, ht] at h
    | some b =>
      cases b with
      | false =>
        simp only [trans_loop, ht, Outcome.returned.injEq, Prod.mk.injEq, reduceCtorEq,
          or_false] at h
        rw [← h.1]; exact hP
      | true =>
        simp only [trans_loop, ht, Outcome.running.injEq, Prod.mk.injEq, reduceCtorEq,
          false_or] at h
        rw [← h.1]; exact hP
  | succ fuel ih =>
    intro sm log sm2 log2 hP h
    cases ht : is_trans_state sm sm.currentState with
    | none => simp [trans_loop, ht] at h
    | some b =>
      cases b with
      | false =>
        simp only [trans_loop, ht, Outcome.returned.injEq, Prod.mk.injEq, reduceCtorEq,
          or_false] at h
        rw [← h.1]; exact hP
      | true =>
        cases hmk : make_transition sm ev d with
        | none => simp [trans_loop, ht, hmk] at h
        | some r =>
          obtain ⟨sm3, log3⟩ := r
          simp only [trans_loop, ht, hmk] at h
          exact ih sm3 (log ++ log3) sm2 log2 (hstep sm sm3 log3 hP hmk) h

/-! ## Any table: the index after `sm_init`, and dispatches that do not fault -/

theorem readAt_nonneg {α : Type} {xs : List α} {i : Int} {v : α}
    (h : readAt xs i = some v) : 0 ≤ i ∧ i.toNat < xs.length := by
  unfold readAt at h
  by_cases hi : 0 ≤ i
  · rw [if_pos hi] at h
    exact ⟨hi, (List.getElem?_eq_some.mp h).1⟩
  · rw [if_neg hi] at h
    cases h

theorem readAt_total {α : Type} (xs : List α) (i : Int) (h0 : 0 ≤ i)
    (hlt : i.toNat < xs.length) : ∃ v, readAt xs i = some v := by
  unfold readAt
  rw [if_pos h0]
  exact ⟨xs[i.toNat], List.getElem?_eq_getElem hlt⟩

theorem sm_init_scan_sound {D A : Type} (tbl : List (StateTableEntry D A)) :
    ∀ (rest : List (StateTableEntry D A)) (t : Nat) (sv : Int) (hm hm2 : List Int),
      tbl.drop t = rest → sm_init_scan rest (t : Int) sv hm = some hm2 →
      hm2.length = hm.length ∧
      (∃ (n : Nat) (z : StateTableEntry D A), t ≤ n ∧ tbl[n]? = some z ∧ z.state = 0) ∧
      ∀ s v, readAt hm2 s = some v → readAt hm s = some v ∨
        ∃ i : Nat, v = (i : Int) ∧ s ≠ 0 ∧ (∃ e, tbl[i]? = some e ∧ e.state = s) ∧
          ∃ (n : Nat) (z : StateTableEntry D A), i < n ∧ tbl[n]? = some z ∧ z.state = 0 := by
  intro rest
  induction rest with
  | nil =>
    intro t sv hm hm2 _ h
    simp [sm_init_scan] at h
  | cons e rest ih =>
    intro t sv hm hm2 hdrop h
    have het : tbl[t]? = some e := by
      have := List.getElem?_drop tbl t 0
      rw [hdrop] at this
      simpa using this.symm
    have hrest : tbl.drop (t + 1) = rest := by
      have := drop_of_getElem? tbl t e het
      rw [hdrop] at this
      exact (List.cons.inj this).2.symm
    have hcast : ((t + 1 : Nat) : Int) = (t : Int) + 1 := by push_cast; ring
    by_cases he0 : e.state = 0
    · simp only [sm_init_scan, he0, if_true, Option.some.injEq] at h
      subst h
      exact ⟨rfl, ⟨t, e, le_rfl, het, he0⟩, fun s v hv => Or.inl hv⟩
    · by_cases hnew : sv = e.state
      · simp only [sm_init_scan, he0, if_false, hnew, ne_eq, not_true_eq_false] at h
        rw [← hcast] at h
        obtain ⟨h1, ⟨n, z, hn, hz, hz0⟩, h3⟩ := ih (t + 1) e.state hm hm2 hrest h
        exact ⟨h1, ⟨n, z, by omega, hz, hz0⟩, h3⟩
      · simp only [sm_init_scan, he0, if_false, ne_eq, hnew, not_false_eq_true, if_true] at h
        cases hw : writeAt hm e.state (t : Int) with
        | none => simp [hw] at h
        | some hm1 =>
          simp only [hw] at h
          rw [← hcast] at h
          obtain ⟨h1, ⟨n, z, hn, hz, hz0⟩, h3⟩ := ih (t + 1) e.state hm1 hm2 hrest h
          unfold writeAt at hw
          by_cases hin : 0 ≤ e.state ∧ e.state.toNat < hm.length
          · rw [if_pos hin, Option.some.injEq] at hw
            subst hw
            refine ⟨by rw [h1, List.length_set], ⟨n, z, by omega, hz, hz0⟩, ?_⟩
            intro s v hv
            rcases h3 s v hv with hold | hnewer
            · by_cases hse : s = e.state
              · subst hse
                rw [readAt_set_self hm _ _ hin.1 hin.2, Option.some.injEq] at hold
                exact Or.inr ⟨t, hold.symm, he0, ⟨e, het, rfl⟩, n, z, by omega, hz, hz0⟩
              · have hs0 : 0 ≤ s := (readAt_nonneg hold).1
                rw [readAt_set_ne hm s e.state _ hs0 hin.1 hse] at hold
                exact Or.inl hold
            · exact Or.inr hnewer
          · rw [if_neg hin] at hw
            cases hw

theorem sm_init_sound {D A : Type} (sm0 sm : StateMachine D A) (r : Int)
    (hinit : sm_init true sm0 = some (r, sm)) :
    ∃ hm, sm = { sm0 with stateTable_hashMap := some hm } ∧
      hm.length = (sm0.guardState + 1).toNat ∧ IndexSound sm0.stateTable hm := by
  unfold sm_init at hinit
  rw [if_pos rfl] at hinit
  cases hscan : sm_init_scan sm0.stateTable 0 0
      (List.replicate (sm0.guardState + 1).toNat (-1)) with
  | none => simp [hscan] at hinit
  | some hm =>
    simp only [hscan, Option.some.injEq, Prod.mk.injEq] at hinit
    obtain ⟨h1, _, h3⟩ := sm_init_scan_sound sm0.stateTable sm0.stateTable 0 0 _ hm rfl
      (by simpa using hscan)
    refine ⟨hm, hinit.2.symm, by simpa using h1, ?_⟩
    intro s v hv
    rcases h3 s v hv with hold | hnewer
    · left
      unfold readAt at hold
      by_cases hs : 0 ≤ s
      · rw [if_pos hs, List.getElem?_replicate] at hold
        by_cases hlt : s.toNat < (sm0.guardState + 1).toNat
        · rw [if_pos hlt, Option.some.injEq] at hold
          exact hold.symm
        · rw [if_neg hlt] at hold
          cases hold
      · rw [if_neg hs] at hold
        cases hold
    · exact Or.inr hnewer

theorem scan_group_total {D A : Type} (g scope ev : Int) (d : D)
    (tbl : List (StateTableEntry D A)) (cur : Int) :
    ∀ (m i : Nat) (x : StateTableEntry D A), tbl[i + m]? = some x → x.state ≠ scope →
      ∃ r, scan_group g scope ev d (tbl.drop i) i cur = some r := by
  intro m
  induction m with
  | zero =>
    intro i x hx hne
    rw [drop_of_getElem? tbl i x (by simpa using hx)]
    simp [scan_group, Ne.symm hne]
  | succ m ih =>
    intro i x hx hne
    have hlt : i < tbl.length := by
      have := (List.getElem?_eq_some.mp hx).1
      omega
    have hx2 : tbl[i + 1 + m]? = some x := by
      rw [← hx]; congr 1; omega
    obtain ⟨r, hr⟩ := ih (i + 1) x hx2 hne
    rw [drop_of_getElem? tbl i tbl[i] (List.getElem?_eq_getElem hlt)]
    by_cases hsc : scope = tbl[i].state
    · cases hf : tbl[i].event_func with
      | none => (simp only [scan_group, ← hsc, ne_eq, not_true_eq_false,
          if_false, hf, hr]; exact ⟨_, rfl⟩)
      | some f =>
        cases hfv : f ev d with
        | true => (simp only [scan_group, ← hsc, ne_eq, not_true_eq_false,
            if_false, hf, hfv, if_true]; exact ⟨_, rfl⟩)
        | false =>
          obtain ⟨fired, cur2, log⟩ := r
          (simp only [scan_group, ← hsc, ne_eq, not_true_eq_false, if_false,
            hf, hfv, hr, Bool.false_eq_true]; exact ⟨_, rfl⟩)
    · (simp only [scan_group, ne_eq, hsc, not_false_eq_true, if_true]; exact ⟨_, rfl⟩)

theorem scan_from_total {D A : Type} (sm : StateMachine D A) (hm : List Int)
    (hsound : IndexSound sm.stateTable hm) (s ev : Int) (d : D) (i : Int)
    (hrd : readAt hm s = some i) (hi : i ≠ -1) :
    ∃ r, scan_from sm s ev d i = some r := by
  rcases hsound s i hrd with h | ⟨k, hk, hs0, _, n, z, hkn, hz, hz0⟩
  · exact absurd h hi
  · subst hk
    rw [scan_from_natCast]
    have hzk : sm.stateTable[k + (n - k)]? = some z := by
      rw [← hz]; congr 1; omega
    exact scan_group_total sm.guardState s ev d sm.stateTable sm.currentState (n - k) k z hzk
      (fun h => hs0 (h.symm.trans hz0))

theorem guard_transition_total {D A : Type} (sm : StateMachine D A) (hm : List Int)
    (hlen : hm.length = (sm.guardState + 1).toNat) (hsound : IndexSound sm.stateTable hm)
    (hg : 0 ≤ sm.guardState) (ev : Int) (d : D) :
    ∃ r, guard_transition sm hm ev d = some r := by
  obtain ⟨i, hrd⟩ := readAt_total hm sm.guardState hg (by
    rw [hlen]
    have a := Int.toNat_of_nonneg hg
    have b := Int.toNat_of_nonneg (show 0 ≤ sm.guardState + 1 by omega)
    omega)
  unfold guard_transition
  rw [hrd]
  by_cases hi : i = -1
  · (simp only [hi, if_true]; exact ⟨_, rfl⟩)
  · obtain ⟨⟨fired, cur2, log⟩, hr⟩ := scan_from_total sm hm hsound sm.guardState ev d i hrd hi
    (simp only [hi, if_false, hr]; exact ⟨_, rfl⟩)

theorem make_transition_total {D A : Type} (sm : StateMachine D A) (hm : List Int)
    (hmap : sm.stateTable_hashMap = some hm)
    (hlen : hm.length = (sm.guardState + 1).toNat) (hsound : IndexSound sm.stateTable hm)
    (hs0 : 0 ≤ sm.currentState) (hsg : sm.currentState ≤ sm.guardState) (ev : Int) (d : D) :
    ∃ r, make_transition sm ev d = some r := by
  obtain ⟨⟨sm3, log3⟩, hgd⟩ := guard_transition_total sm hm hlen hsound (by omega) ev d
  obtain ⟨i, hrd⟩ := readAt_total hm sm.currentState hs0 (by
    rw [hlen]
    have a := Int.toNat_of_nonneg hs0
    have b := Int.toNat_of_nonneg (show 0 ≤ sm.guardState + 1 by omega)
    omega)
  unfold make_transition
  rw [hmap]
  simp only [hrd]
  by_cases hi : i = -1
  · (simp only [hi, if_true, hgd]; exact ⟨_, rfl⟩)
  · obtain ⟨⟨fired, cur2, log⟩, hr⟩ :=
      scan_from_total sm hm hsound sm.currentState ev d i hrd hi
    cases fired with
    | true => (simp only [hi, if_false, hr]; exact ⟨_, rfl⟩)
    | false => (simp only [hi, if_false, hr, hgd]; exact ⟨_, rfl⟩)

theorem Misses.eq_nil {D A : Type} {log : List (Step D A)} (h : Misses log)
    (hnone : ∀ r ∈ touched log, False) : log = [] := by
  cases log with
  | nil => rfl
  | cons st l =>
    obtain ⟨i, ev, d, rfl⟩ := h st (List.mem_cons_self _ _)
    exact (hnone i (by simp [touched])).elim

theorem trans_loop_done {D A : Type} (ev : Int) (d : D) (fuel : Nat) (sm : StateMachine D A)
    (log : List (Step D A)) (h : is_trans_state sm sm.currentState = some false) :
    trans_loop ev d fuel sm log = Outcome.returned (sm, log) := by
  cases fuel <;> simp [trans_loop, h]

theorem no_state_before_of_check {D A : Type} (tbl : List (StateTableEntry D A)) (s : Int)
    (k : Nat) (h : ∀ j, j < k → stateAt tbl j ≠ some s) :
    ∀ j r, j < k → IsRule tbl j r → r.state ≠ s := by
  intro j r hj hr hrs
  apply h j hj
  rw [stateAt_eq hr.1, hrs]

/-! ## Replacing a `NULL` predicate by a predicate that always returns `FALSE` -/

theorem dropEvals_append {D A : Type} (k : Nat) (l1 l2 : List (Step D A)) :
    dropEvals k (l1 ++ l2) = dropEvals k l1 ++ dropEvals k l2 := by
  induction l1 with
  | nil => rfl
  | cons st l ih =>
    cases st with
    | eval i ev d r =>
      show dropEvals k (Step.eval i ev d r :: (l ++ l2)) = _
      by_cases hi : i = k
      · simp only [dropEvals, hi, if_true, ih]
      · simp only [dropEvals, hi, if_false, ih, List.cons_append]
    | act i a d =>
      show dropEvals k (Step.act i a d :: (l ++ l2)) = _
      simp only [dropEvals, ih, List.cons_append]
    | assign v =>
      show dropEvals k (Step.assign v :: (l ++ l2)) = _
      simp only [dropEvals, ih, List.cons_append]

theorem dropEvals_of_not_touched {D A : Type} (k : Nat) (log : List (Step D A))
    (h : ∀ r ∈ touched log, r ≠ k) : dropEvals k log = log := by
  induction log with
  | nil => rfl
  | cons st l ih =>
    cases st with
    | eval i ev d r =>
      have hi : i ≠ k := h i (by simp [touched])
      have hl : ∀ r ∈ touched l, r ≠ k := fun r hr => h r (by simp [touched, hr])
      simp only [dropEvals, hi, if_false, ih hl]
    | act i a d =>
      have hl : ∀ r ∈ touched l, r ≠ k := fun r hr => h r (by simp [touched, hr])
      simp only [dropEvals, ih hl]
    | assign v =>
      have hl : ∀ r ∈ touched l, r ≠ k := fun r hr => h r (by simpa [touched] using hr)
      simp only [dropEvals, ih hl]

theorem scan_group_lower {D A : Type} (g scope ev : Int) (d : D) (cur : Int) :
    ∀ (rest : List (StateTableEntry D A)) (i : Nat) (fired : Bool) (cur2 : Int)
      (log : List (Step D A)),
      scan_group g scope ev d rest i cur = some (fired, cur2, log) →
      ∀ r ∈ touched log, i ≤ r := by
  intro rest
  induction rest with
  | nil =>
    intro i fired cur2 log h
    simp [scan_group] at h
  | cons e rest ih =>
    intro i fired cur2 log h
    by_cases hsc : scope = e.state
    · cases hf : e.event_func with
      | none =>
        simp only [scan_group, hsc, ne_eq, not_true_eq_false, if_false, hf] at h
        rw [← hsc] at h
        intro r hr
        have := ih (i + 1) fired cur2 log h r hr
        omega
      | some f =>
        cases hfv : f ev d with
        | true =>
          simp only [scan_group, hsc, ne_eq, not_true_eq_false, if_false, hf, hfv, if_true,
            Option.some.injEq, Prod.mk.injEq] at h
          intro r hr
          rw [← h.2.2] at hr
          have := touched_fire_steps g i e ev d r hr
          omega
        | false =>
          simp only [scan_group, hsc, ne_eq, not_true_eq_false, if_false, hf, hfv] at h
          rw [← hsc] at h
          cases hrec : scan_group g scope ev d rest (i + 1) cur with
          | none => simp [hrec] at h
          | some res =>
            obtain ⟨fired3, cur3, log3⟩ := res
            simp only [hrec, Bool.false_eq_true, if_false, Option.some.injEq,
              Prod.mk.injEq] at h
            intro r hr
            rw [← h.2.2] at hr
            simp only [touched, List.mem_cons] at hr
            rcases hr with rfl | hr
            · exact le_rfl
            · have := ih (i + 1) fired3 cur3 log3 hrec r hr
              omega
    · simp only [scan_group, ne_eq, hsc, not_false_eq_true, if_true, Option.some.injEq,
        Prod.mk.injEq] at h
      intro r hr
      rw [← h.2.2] at hr
      simp [touched] at hr

theorem scan_group_patch {D A : Type} (g scope ev : Int) (d : D) (cur : Int)
    (e : StateTableEntry D A) (hnull : e.event_func = none) :
    ∀ (rest : List (StateTableEntry D A)) (i m : Nat), rest[m]? = some e →
      (scan_group g scope ev d (rest.set m (withFalsePredicate e)) i cur).map
          (fun r => (r.1, r.2.1, dropEvals (i + m) r.2.2)) =
        scan_group g scope ev d rest i cur := by
  intro rest
  induction rest with
  | nil =>
    intro i m h
    simp at h
  | cons x tl ih =>
    intro i m h
    cases m with
    | zero =>
      simp only [List.getElem?_cons_zero, Option.some.injEq] at h
      subst h
      simp only [List.set_cons_zero, Nat.add_zero]
      by_cases hsc : scope = x.state
      · simp only [scan_group, withFalsePredicate, hsc, ne_eq, not_true_eq_false, if_false,
          hnull, Bool.false_eq_true]
        rw [← hsc]
        cases hrec : scan_group g scope ev d tl (i + 1) cur with
        | none => rfl
        | some res =>
          obtain ⟨fired, cur2, log⟩ := res
          have hlow := scan_group_lower g scope ev d cur tl (i + 1) fired cur2 log hrec
          have hdrop : dropEvals i log = log :=
            dropEvals_of_not_touched i log (fun r hr => by have := hlow r hr; omega)
          simp only [Option.map_some', dropEvals, if_true, hdrop]
      · simp only [scan_group, withFalsePredicate, ne_eq, hsc, not_false_eq_true, if_true,
          Option.map_some', dropEvals]
    | succ m =>
      simp only [List.getElem?_cons_succ] at h
      have hih := ih (i + 1) m h
      have hidx : i + 1 + m = i + (m + 1) := by omega
      rw [hidx] at hih
      simp only [List.set_cons_succ]
      by_cases hsc : scope = x.state
      · cases hf : x.event_func with
        | none =>
          simp only [scan_group, hsc, ne_eq, not_true_eq_false, if_false, hf]
          rw [← hsc]
          exact hih
        | some f =>
          cases hfv : f ev d with
          | true =>
            simp only [scan_group, hsc, ne_eq, not_true_eq_false, if_false, hf, hfv,
              if_true, Option.map_some']
            rw [dropEvals_of_not_touched (i + (m + 1)) _ (fun r hr => by
              have := touched_fire_steps g i x ev d r hr
              omega)]
          | false =>
            simp only [scan_group, hsc, ne_eq, not_true_eq_false, if_false, hf, hfv,
              Bool.false_eq_true]
            rw [← hsc, ← hih]
            cases hrec : scan_group g scope ev d (tl.set m (withFalsePredicate e)) (i + 1)
                cur with
            | none => rfl
            | some res =>
              obtain ⟨fired, cur2, log⟩ := res
              have hne : ¬ i = i + (m + 1) := by omega
              simp only [Option.map_some', dropEvals, hne, if_false]
      · simp only [scan_group, ne_eq, hsc, not_false_eq_true, if_true, Option.map_some',
          dropEvals]

theorem scan_from_patch {D A : Type} (sm : StateMachine D A) (k : Nat)
    (e : StateTableEntry D A) (he : sm.stateTable[k]? = some e) (hnull : e.event_func = none)
    (scope ev : Int) (d : D) (i : Int) :
    (scan_from { sm with stateTable := sm.stateTable.set k (withFalsePredicate e) }
        scope ev d i).map (fun r => (r.1, r.2.1, dropEvals k r.2.2)) =
      scan_from sm scope ev d i := by
  unfold scan_from
  by_cases hi : 0 ≤ i
  · simp only [hi, if_true]
    rw [List.drop_set]
    by_cases hlt : k < i.toNat
    · rw [if_pos hlt]
      cases hrec : scan_group sm.guardState scope ev d (List.drop i.toNat sm.stateTable)
          i.toNat sm.currentState with
      | none => rfl
      | some res =>
        obtain ⟨fired, cur2, log⟩ := res
        have hlow := scan_group_lower sm.guardState scope ev d sm.currentState _ i.toNat
          fired cur2 log hrec
        have hdrop : dropEvals k log = log :=
          dropEvals_of_not_touched k log (fun r hr => by have := hlow r hr; omega)
        simp only [Option.map_some', hdrop]
    · rw [if_neg hlt]
      have hrest : (List.drop i.toNat sm.stateTable)[k - i.toNat]? = some e := by
        rw [List.getElem?_drop, ← he]
        congr 1
        omega
      have := scan_group_patch sm.guardState scope ev d sm.currentState e hnull
        (List.drop i.toNat sm.stateTable) i.toNat (k - i.toNat) hrest
      have hk : i.toNat + (k - i.toNat) = k := by omega
      rw [hk] at this
      exact this
  · simp only [hi, if_false]
    rfl

theorem guard_transition_patch {D A : Type} (sm : StateMachine D A) (hm : List Int)
    (k : Nat) (e : StateTableEntry D A) (he : sm.stateTable[k]? = some e)
    (hnull : e.event_func = none) (ev : Int) (d : D) :
    (guard_transition { sm with stateTable := sm.stateTable.set k (withFalsePredicate e) }
        hm ev d).map
        (fun r => (({ r.1 with stateTable := sm.stateTable } : StateMachine D A),
          dropEvals k r.2)) =
      guard_transition sm hm ev d := by
  unfold guard_transition
  cases hrd : readAt hm sm.guardState with
  | none => simp only [hrd]; rfl
  | some i =>
    simp only [hrd]
    by_cases hi : i = -1
    · simp only [hi, if_true, Option.map_some', dropEvals]
    · simp only [hi, if_false]
      rw [← scan_from_patch sm k e he hnull sm.guardState ev d i]
      cases scan_from { sm with stateTable := sm.stateTable.set k (withFalsePredicate e) }
          sm.guardState ev d i with
      | none => rfl
      | some res =>
        obtain ⟨fired, cur2, log⟩ := res
        rfl

theorem make_transition_patch {D A : Type} (sm : StateMachine D A) (k : Nat)
    (e : StateTableEntry D A) (he : sm.stateTable[k]? = some e) (hnull : e.event_func = none)
    (ev : Int) (d : D) :
    (make_transition { sm with stateTable := sm.stateTable.set k (withFalsePredicate e) }
        ev d).map
        (fun r => (({ r.1 with stateTable := sm.stateTable } : StateMachine D A),
          dropEvals k r.2)) =
      make_transition sm ev d := by
  obtain ⟨cur, g, tbl, hmo, ts⟩ := sm
  cases hmo with
  | none => rfl
  | some hm =>
    have hgd := guard_transition_patch ⟨cur, g, tbl, some hm, ts⟩ hm k e he hnull ev d
    dsimp only at hgd he ⊢
    unfold make_transition
    dsimp only
    cases hrd : readAt hm cur with
    | none => rfl
    | some i =>
      dsimp only
      by_cases hi : i = -1
      · rw [if_pos hi, if_pos hi]
        exact hgd
      · rw [if_neg hi, if_neg hi]
        have hsc := scan_from_patch ⟨cur, g, tbl, some hm, ts⟩ k e he hnull cur ev d i
        dsimp only at hsc
        rw [← hsc, ← hgd]
        cases scan_from ⟨cur, g, tbl.set k (withFalsePredicate e), some hm, ts⟩ cur ev d i with
        | none => rfl
        | some res =>
          obtain ⟨fired, cur2, log⟩ := res
          cases fired with
          | true => rfl
          | false =>
            dsimp only [Option.map_some']
            cases guard_transition ⟨cur, g, tbl.set k (withFalsePredicate e), some hm, ts⟩
                hm ev d with
            | none => rfl
            | some res2 =>
              obtain ⟨sm3, log3⟩ := res2
              simp only [Option.map_some', dropEvals_append]

theorem sm_init_scan_patch {D A : Type} (e : StateTableEntry D A) :
    ∀ (rest : List (StateTableEntry D A)) (m : Nat) (ti sv : Int) (hm : List Int),
      rest[m]? = some e →
      sm_init_scan (rest.set m (withFalsePredicate e)) ti sv hm =
        sm_init_scan rest ti sv hm := by
  intro rest
  induction rest with
  | nil =>
    intro m ti sv hm h
    simp at h
  | cons x tl ih =>
    intro m ti sv hm h
    cases m with
    | zero =>
      simp only [List.getElem?_cons_zero, Option.some.injEq] at h
      subst h
      simp only [List.set_cons_zero, sm_init_scan, withFalsePredicate]
    | succ m =>
      simp only [List.getElem?_cons_succ] at h
      simp only [List.set_cons_succ, sm_init_scan]
      by_cases hx : x.state = 0
      · simp only [hx, if_true]
      · simp only [hx, if_false]
        by_cases hsv : sv = x.state
        · simp only [hsv, ne_eq, not_true_eq_false, if_false]
          exact ih m _ _ _ h
        · simp only [ne_eq, hsv, not_false_eq_true, if_true]
          cases writeAt hm x.state ti with
          | none => rfl
          | some hm2 => exact ih m _ _ _ h

theorem make_transition_touched {D A : Type} (sm : StateMachine D A) (ev : Int) (d : D)
    (sm2 : StateMachine D A) (log : List (Step D A))
    (h : make_transition sm ev d = some (sm2, log)) :
    ∀ r ∈ touched log, ∃ x, sm.stateTable[r]? = some x ∧
      (x.state = sm.currentState ∨ x.state = sm.guardState) ∧ x.event_func ≠ none := by
  have hweak : ∀ (scope : Int) (l : List (Step D A)),
      (scope = sm.currentState ∨ scope = sm.guardState) → TouchedIn sm.stateTable scope l →
      ∀ r ∈ touched l, ∃ x, sm.stateTable[r]? = some x ∧
        (x.state = sm.currentState ∨ x.state = sm.guardState) ∧ x.event_func ≠ none := by
    intro scope l hscope hl r hr
    obtain ⟨x, hx, hxs, hxf⟩ := hl r hr
    refine ⟨x, hx, ?_, hxf⟩
    rcases hscope with hsc | hsc
    · exact Or.inl (hxs.trans hsc)
    · exact Or.inr (hxs.trans hsc)
  have hguard : ∀ (hm : List Int) (sm3 : StateMachine D A) (l : List (Step D A)),
      guard_transition sm hm ev d = some (sm3, l) →
      TouchedIn sm.stateTable sm.guardState l := by
    intro hm sm3 l hgd
    rcases guard_transition_shape sm hm ev d sm3 l hgd with
      ⟨_, _, a3⟩ | ⟨k, e, pre, b1, b2, b3, _, b5, b6, _⟩
    · exact a3
    · rw [b6]
      obtain ⟨f, hf, _⟩ := b3
      exact TouchedIn.concat b5 (TouchedIn.fire _ k e ev d b1 b2 (by rw [hf]; simp))
  unfold make_transition at h
  cases hmap : sm.stateTable_hashMap with
  | none => simp [hmap] at h
  | some hm =>
    simp only [hmap] at h
    cases hrd : readAt hm sm.currentState with
    | none => simp [hrd] at h
    | some i =>
      simp only [hrd] at h
      by_cases hi : i = -1
      · simp only [hi, if_true] at h
        exact hweak sm.guardState log (Or.inr rfl) (hguard hm sm2 log h)
      · simp only [hi, if_false] at h
        cases hsc : scan_from sm sm.currentState ev d i with
        | none => simp [hsc] at h
        | some res =>
          obtain ⟨fired, cur2, log1⟩ := res
          have hprim : TouchedIn sm.stateTable sm.currentState log1 := by
            rcases scan_from_shape sm sm.currentState ev d i fired cur2 log1 hsc with
              ⟨_, _, _, a4⟩ | ⟨_, k, e, pre, b1, b2, b3, _, b5, b6, _⟩
            · exact a4
            · rw [b6]
              obtain ⟨f, hf, _⟩ := b3
              exact TouchedIn.concat b5 (TouchedIn.fire _ k e ev d b1 b2 (by rw [hf]; simp))
          cases fired with
          | true =>
            simp only [hsc, Option.some.injEq, Prod.mk.injEq] at h
            rw [← h.2]
            exact hweak sm.currentState log1 (Or.inl rfl) hprim
          | false =>
            simp only [hsc] at h
            cases hgd : guard_transition sm hm ev d with
            | none => simp [hgd] at h
            | some res2 =>
              obtain ⟨sm3, log3⟩ := res2
              simp only [hgd, Option.some.injEq, Prod.mk.injEq] at h
              rw [← h.2]
              intro r hr
              rw [touched_append, List.mem_append] at hr
              rcases hr with hr | hr
              · exact hweak sm.currentState log1 (Or.inl rfl) hprim r hr
              · exact hweak sm.guardState log3 (Or.inr rfl) (hguard hm sm3 log3 hgd) r hr

/-! ## The result of `sm_init` -/

theorem sm_init_scan_returns {D A : Type} (tbl : List (StateTableEntry D A)) (N : Nat) :
    ∀ (m t : Nat) (sv : Int) (hm : List Int) (z : StateTableEntry D A),
      tbl[t + m]? = some z → z.state = 0 → hm.length = N →
      (∀ j r, t ≤ j → j < t + m → tbl[j]? = some r → 0 ≤ r.state ∧ r.state < (N : Int)) →
      ∃ hm2, sm_init_scan (tbl.drop t) (t : Int) sv hm = some hm2 := by
  intro m
  induction m with
  | zero =>
    intro t sv hm z hz hz0 _ _
    rw [drop_of_getElem? tbl t z (by simpa using hz)]
    exact ⟨hm, by simp [sm_init_scan, hz0]⟩
  | succ m ih =>
    intro t sv hm z hz hz0 hlen hrange
    have hlt : t < tbl.length := by
      have := (List.getElem?_eq_some.mp hz).1
      omega
    have he : tbl[t]? = some tbl[t] := List.getElem?_eq_getElem hlt
    obtain ⟨hge, hltN⟩ := hrange t tbl[t] le_rfl (by omega) he
    have hz2 : tbl[t + 1 + m]? = some z := by
      rw [← hz]; congr 1; omega
    have hcast : ((t + 1 : Nat) : Int) = (t : Int) + 1 := by push_cast; ring
    have hrange2 : ∀ j r, t + 1 ≤ j → j < t + 1 + m → tbl[j]? = some r →
        0 ≤ r.state ∧ r.state < (N : Int) :=
      fun j r h1 h2 => hrange j r (by omega) (by omega)
    rw [drop_of_getElem? tbl t tbl[t] he]
    by_cases he0 : tbl[t].state = 0
    · exact ⟨hm, by simp [sm_init_scan, he0]⟩
    · by_cases hnew : sv = tbl[t].state
      · obtain ⟨hm2, h2⟩ := ih (t + 1) tbl[t].state hm z hz2 hz0 hlen hrange2
        rw [hcast] at h2
        refine ⟨hm2, ?_⟩
        simp only [sm_init_scan, he0, if_false, hnew, ne_eq, not_true_eq_false]
        exact h2
      · have hnat : tbl[t].state.toNat < hm.length := by
          rw [hlen]; exact (Int.toNat_lt hge).mpr hltN
        obtain ⟨hm2, h2⟩ := ih (t + 1) tbl[t].state (hm.set tbl[t].state.toNat (t : Int)) z
          hz2 hz0 (by simpa using hlen) hrange2
        rw [hcast] at h2
        refine ⟨hm2, ?_⟩
        simp only [sm_init_scan, he0, if_false, ne_eq, hnew, not_false_eq_true, if_true,
          writeAt, hge, hnat, and_self]
        exact h2

/-! ## `is_trans_state` on a 0-terminated array -/

theorem is_trans_scan_eq (x : Int) (post : List Int) :
    ∀ pre : List Int, (∀ y ∈ pre, y ≠ 0) →
      is_trans_scan x (pre ++ 0 :: post) = some (decide (x ∈ pre)) := by
  intro pre
  induction pre with
  | nil =>
    intro _
    simp [is_trans_scan]
  | cons y ys ih =>
    intro hpre
    have hy : y ≠ 0 := hpre y (List.mem_cons_self _ _)
    have hys : ∀ w ∈ ys, w ≠ 0 := fun w hw => hpre w (List.mem_cons_of_mem _ hw)
    by_cases hyx : y = x
    · subst hyx
      simp [is_trans_scan, hy]
    · have hxy : ¬ x = y := fun h => hyx h.symm
      simp [is_trans_scan, hy, hyx, hxy, ih hys]

/-! ## Frame of a dispatch and stuck machines -/

theorem make_transition_frame {D A : Type} (sm : StateMachine D A) (ev : Int) (d : D)
    (sm2 : StateMachine D A) (log : List (Step D A))
    (h : make_transition sm ev d = some (sm2, log)) :
    sm2 = { sm with currentState := sm2.currentState } := by
  rcases make_transition_shape sm ev d sm2 log h with ⟨h1, _⟩ | ⟨k, e, pre, _, _, _, _, _, b7⟩
  · rw [h1]
  · rw [b7]

theorem trans_loop_stuck {D A : Type} (ev : Int) (d : D) (sm : StateMachine D A)
    (step : List (Step D A)) (hmk : make_transition sm ev d = some (sm, step))
    (htrans : is_trans_state sm sm.currentState = some true) :
    ∀ (fuel : Nat) (log : List (Step D A)),
      ∃ log2, trans_loop ev d fuel sm log = Outcome.running (sm, log2) := by
  intro fuel
  induction fuel with
  | zero =>
    intro log
    exact ⟨log, by simp [trans_loop, htrans]⟩
  | succ fuel ih =>
    intro log
    obtain ⟨log2, h2⟩ := ih (log ++ step)
    exact ⟨log2, by simp only [trans_loop, htrans, hmk, h2]⟩

theorem resolves_stuck {D A : Type} (ev : Int) (d : D) (sm : StateMachine D A)
    (step : List (Step D A)) (hmk : make_transition sm ev d = some (sm, step)) :
    ∀ n : Nat, ∃ logn, resolves ev d n sm = some (sm, logn) := by
  intro n
  induction n with
  | zero => exact ⟨[], rfl⟩
  | succ n ih =>
    obtain ⟨logn, hn⟩ := ih
    exact ⟨step ++ logn, by simp only [resolves, hmk, hn]⟩

/-! ## Successive dispatches and the loop of `sm_stateTransition` -/

theorem resolves_succ {D A : Type} (ev : Int) (d : D) (n : Nat) (sm sm2 : StateMachine D A)
    (l : List (Step D A)) :
    resolves ev d (n + 1) sm = some (sm2, l) ↔
      ∃ sm1 l1 l2, make_transition sm ev d = some (sm1, l1) ∧
        resolves ev d n sm1 = some (sm2, l2) ∧ l = l1 ++ l2 := by
  constructor
  · intro h
    simp only [resolves] at h
    cases hmk : make_transition sm ev d with
    | none => simp [hmk] at h
    | some r1 =>
      obtain ⟨sm1, l1⟩ := r1
      simp only [hmk] at h
      cases hrec : resolves ev d n sm1 with
      | none => simp [hrec] at h
      | some r2 =>
        obtain ⟨sm3, l2⟩ := r2
        simp only [hrec, Option.some.injEq, Prod.mk.injEq] at h
        exact ⟨sm1, l1, l2, rfl, by rw [← h.1]; exact hrec, h.2.symm⟩
  · rintro ⟨sm1, l1, l2, hmk, hrec, hl⟩
    simp only [resolves, hmk, hrec, hl]

theorem resolves_frame {D A : Type} (ev : Int) (d : D) :
    ∀ (n : Nat) (sm sm2 : StateMachine D A) (l : List (Step D A)),
      resolves ev d n sm = some (sm2, l) →
      sm2 = { sm with currentState := sm2.currentState } := by
  intro n
  induction n with
  | zero =>
    intro sm sm2 l h
    simp only [resolves, Option.some.injEq, Prod.mk.injEq] at h
    rw [← h.1]
  | succ n ih =>
    intro sm sm2 l h
    obtain ⟨sm1, l1, l2, hmk, hrec, _⟩ := (resolves_succ ev d n sm sm2 l).mp h
    have h1 := make_transition_frame sm ev d sm1 l1 hmk
    have h2 := ih sm1 sm2 l2 hrec
    rw [h2, h1]

theorem resolves_initial {D A : Type} (ev : Int) (d : D) :
    ∀ (n : Nat) (sm : StateMachine D A) (r : StateMachine D A × List (Step D A)),
      resolves ev d n sm = some r → ∀ m, m ≤ n → ∃ r2, resolves ev d m sm = some r2 := by
  intro n
  induction n with
  | zero =>
    intro sm r h m hm
    have : m = 0 := by omega
    subst this
    exact ⟨r, h⟩
  | succ n ih =>
    intro sm r h m hm
    obtain ⟨sm2, l⟩ := r
    obtain ⟨sm1, l1, l2, hmk, hrec, _⟩ := (resolves_succ ev d n sm sm2 l).mp h
    cases m with
    | zero => exact ⟨(sm, []), rfl⟩
    | succ m =>
      obtain ⟨⟨sm3, l3⟩, h3⟩ := ih sm1 (sm2, l2) hrec m (by omega)
      exact ⟨(sm3, l1 ++ l3), (resolves_succ ev d m sm sm3 (l1 ++ l3)).mpr
        ⟨sm1, l1, l3, hmk, h3, rfl⟩⟩

theorem trans_loop_returned_iff {D A : Type} (ev : Int) (d : D) :
    ∀ (fuel : Nat) (sm1 : StateMachine D A) (log1 : List (Step D A))
      (sm2 : StateMachine D A) (log : List (Step D A)),
      trans_loop ev d fuel sm1 log1 = Outcome.returned (sm2, log) ↔
        ∃ n l, n ≤ fuel ∧ resolves ev d n sm1 = some (sm2, l) ∧ log = log1 ++ l ∧
          is_trans_state sm2 sm2.currentState = some false ∧
          ∀ m, m < n → ∃ smm lm, resolves ev d m sm1 = some (smm, lm) ∧
            is_trans_state smm smm.currentState = some true := by
  intro fuel
  induction fuel with
  | zero =>
    intro sm1 log1 sm2 log
    constructor
    · intro h
      cases ht : is_trans_state sm1 sm1.currentState with
      | none => simp [trans_loop, ht] at h
      | some b =>
        cases b with
        | true => simp [trans_loop, ht] at h
        | false =>
          simp only [trans_loop, ht, Outcome.returned.injEq, Prod.mk.injEq] at h
          obtain ⟨h1, h2⟩ := h
          subst h1 h2
          exact ⟨0, [], le_rfl, rfl, by simp, ht, fun m hm => absurd hm (Nat.not_lt_zero m)⟩
    · rintro ⟨n, l, hn, hres, hlog, htf, _⟩
      have hn0 : n = 0 := by omega
      subst hn0
      simp only [resolves, Option.some.injEq, Prod.mk.injEq] at hres
      obtain ⟨h1, h2⟩ := hres
      subst h1 h2
      simp [trans_loop, htf, hlog]
  | succ fuel ih =>
    intro sm1 log1 sm2 log
    constructor
    · intro h
      cases ht : is_trans_state sm1 sm1.currentState with
      | none => simp [trans_loop, ht] at h
      | some b =>
        cases b with
        | false =>
          simp only [trans_loop, ht, Outcome.returned.injEq, Prod.mk.injEq] at h
          obtain ⟨h1, h2⟩ := h
          subst h1 h2
          exact ⟨0, [], Nat.zero_le _, rfl, by simp, ht,
            fun m hm => absurd hm (Nat.not_lt_zero m)⟩
        | true =>
          cases hmk : make_transition sm1 ev d with
          | none => simp [trans_loop, ht, hmk] at h
          | some r =>
            obtain ⟨sm3, l3⟩ := r
            simp only [trans_loop, ht, hmk] at h
            obtain ⟨n, l, hn, hres, hlog, htf, hbefore⟩ := (ih sm3 (log1 ++ l3) sm2 log).mp h
            refine ⟨n + 1, l3 ++ l, by omega,
              (resolves_succ ev d n sm1 sm2 (l3 ++ l)).mpr ⟨sm3, l3, l, hmk, hres, rfl⟩,
              by rw [hlog, List.append_assoc], htf, ?_⟩
            intro m hm
            cases m with
            | zero => exact ⟨sm1, [], rfl, ht⟩
            | succ m =>
              obtain ⟨smm, lm, hm1, hm2⟩ := hbefore m (by omega)
              exact ⟨smm, l3 ++ lm,
                (resolves_succ ev d m sm1 smm (l3 ++ lm)).mpr ⟨sm3, l3, lm, hmk, hm1, rfl⟩,
                hm2⟩
    · rintro ⟨n, l, hn, hres, hlog, htf, hbefore⟩
      cases n with
      | zero =>
        simp only [resolves, Option.some.injEq, Prod.mk.injEq] at hres
        obtain ⟨h1, h2⟩ := hres
        subst h1 h2
        simp [trans_loop, htf, hlog]
      | succ n =>
        obtain ⟨sm0, l0, h0, ht⟩ := hbefore 0 (by omega)
        simp only [resolves, Option.some.injEq, Prod.mk.injEq] at h0
        rw [← h0.1] at ht
        obtain ⟨sm3, l3, l4, hmk, hrec, hl⟩ := (resolves_succ ev d n sm1 sm2 l).mp hres
        simp only [trans_loop, ht, hmk]
        refine (ih sm3 (log1 ++ l3) sm2 log).mpr ⟨n, l4, by omega, hrec,
          by rw [hlog, hl, List.append_assoc], htf, ?_⟩
        intro m hm
        obtain ⟨smm, lm, hm1, hm2⟩ := hbefore (m + 1) (by omega)
        obtain ⟨sm5, l5, l6, hmk5, hrec5, _⟩ := (resolves_succ ev d m sm1 smm lm).mp hm1
        rw [hmk, Option.some.injEq, Prod.mk.injEq] at hmk5
        rw [← hmk5.1] at hrec5
        exact ⟨smm, l6, hrec5, hm2⟩

/-! ## Order of the steps of a dispatch -/

theorem actionStates_misses {D A : Type} (cur : Int) (l : List (Step D A)) :
    ∀ pre : List (Step D A), Misses pre →
      actionStates cur (pre ++ l) = actionStates cur l := by
  intro pre
  induction pre with
  | nil => intro _; rfl
  | cons st pre ih =>
    intro h
    obtain ⟨i, ev, d, rfl⟩ := h st (List.mem_cons_self _ _)
    exact ih (fun s hs => h s (List.mem_cons_of_mem _ hs))

theorem stateAfter_misses {D A : Type} (cur : Int) (l : List (Step D A)) :
    ∀ pre : List (Step D A), Misses pre → stateAfter cur (pre ++ l) = stateAfter cur l := by
  intro pre
  induction pre with
  | nil => intro _; rfl
  | cons st pre ih =>
    intro h
    obtain ⟨i, ev, d, rfl⟩ := h st (List.mem_cons_self _ _)
    exact ih (fun s hs => h s (List.mem_cons_of_mem _ hs))

theorem actionStates_fire_steps {D A : Type} (g cur : Int) (k : Nat)
    (e : StateTableEntry D A) (ev : Int) (d : D) :
    actionStates cur (fire_steps g k e ev d) =
      (actions (fire_steps g k e ev d)).map (fun p => (p.1, p.2.1, p.2.2, cur)) := by
  unfold fire_steps
  cases e.action <;> by_cases hn : e.nextState = g <;> simp [actionStates, actions, hn]

theorem stateAfter_fire_steps {D A : Type} (g cur : Int) (k : Nat)
    (e : StateTableEntry D A) (ev : Int) (d : D) :
    stateAfter cur (fire_steps g k e ev d) = firedState g cur e := by
  unfold fire_steps firedState
  cases e.action <;> by_cases hn : e.nextState = g <;> simp [stateAfter, hn]

theorem touched_of_evals {D A : Type} (k : Nat) (ev : Int) (d : D) (b : Bool) :
    ∀ l : List (Step D A), (k, ev, d, b) ∈ evals l → k ∈ touched l := by
  intro l
  induction l with
  | nil => intro h; simp [evals] at h
  | cons st l ih =>
    intro h
    cases st with
    | eval i ev2 d2 r =>
      simp only [evals, List.mem_cons, Prod.mk.injEq] at h
      simp only [touched, List.mem_cons]
      rcases h with h | h
      · exact Or.inl h.1
      · exact Or.inr (ih h)
    | act i a d2 =>
      simp only [evals] at h
      simp only [touched, List.mem_cons]
      exact Or.inr (ih h)
    | assign v =>
      simp only [evals] at h
      simp only [touched]
      exact ih h

theorem make_transition_scopes {D A : Type} (sm : StateMachine D A) (ev : Int) (d : D)
    (sm2 : StateMachine D A) (log : List (Step D A))
    (h : make_transition sm ev d = some (sm2, log)) :
    TouchedIn sm.stateTable sm.currentState log ∨
      ∃ l1 l2, log = l1 ++ l2 ∧ Misses l1 ∧ TouchedIn sm.stateTable sm.currentState l1 ∧
        TouchedIn sm.stateTable sm.guardState l2 := by
  have hguard : ∀ (hm : List Int) (sm3 : StateMachine D A) (l : List (Step D A)),
      guard_transition sm hm ev d = some (sm3, l) →
      TouchedIn sm.stateTable sm.guardState l := by
    intro hm sm3 l hgd
    rcases guard_transition_shape sm hm ev d sm3 l hgd with
      ⟨_, _, a3⟩ | ⟨k, e, pre, b1, b2, b3, _, b5, b6, _⟩
    · exact a3
    · rw [b6]
      obtain ⟨f, hf, _⟩ := b3
      exact TouchedIn.concat b5 (TouchedIn.fire _ k e ev d b1 b2 (by rw [hf]; simp))
  unfold make_transition at h
  cases hmap : sm.stateTable_hashMap with
  | none => simp [hmap] at h
  | some hm =>
    simp only [hmap] at h
    cases hrd : readAt hm sm.currentState with
    | none => simp [hrd] at h
    | some i =>
      simp only [hrd] at h
      by_cases hi : i = -1
      · simp only [hi, if_true] at h
        exact Or.inr ⟨[], log, rfl, Misses.nil, TouchedIn.empty _ _, hguard hm sm2 log h⟩
      · simp only [hi, if_false] at h
        cases hsc : scan_from sm sm.currentState ev d i with
        | none => simp [hsc] at h
        | some res =>
          obtain ⟨fired, cur2, log1⟩ := res
          rcases scan_from_shape sm sm.currentState ev d i fired cur2 log1 hsc with
            ⟨a1, _, a3, a4⟩ | ⟨a1, k, e, pre, b1, b2, b3, _, b5, b6, _⟩
          · subst a1
            simp only [hsc] at h
            cases hgd : guard_transition sm hm ev d with
            | none => simp [hgd] at h
            | some res2 =>
              obtain ⟨sm3, log3⟩ := res2
              simp only [hgd, Option.some.injEq, Prod.mk.injEq] at h
              exact Or.inr ⟨log1, log3, h.2.symm, a3, a4, hguard hm sm3 log3 hgd⟩
          · subst a1
            simp only [hsc, Option.some.injEq, Prod.mk.injEq] at h
            left
            rw [← h.2, b6]
            obtain ⟨f, hf, _⟩ := b3
            exact TouchedIn.concat b5 (TouchedIn.fire _ k e ev d b1 b2 (by rw [hf]; simp))

/-! ## The index on any table: starts of last runs -/

theorem sm_init_scan_runs {D A : Type} (tbl : List (StateTableEntry D A)) (n N : Nat)
    (z : StateTableEntry D A) (hz : tbl[n]? = some z) (hz0 : z.state = 0)
    (hrange : ∀ j r, j < n → tbl[j]? = some r → r.state ≠ 0 ∧ 0 ≤ r.state ∧ r.state < N) :
    ∀ (m t : Nat) (sv : Int) (hm : List Int), t + m = n → hm.length = N →
      ((t = 0 ∧ sv = 0) ∨ ∃ p r, t = p + 1 ∧ tbl[p]? = some r ∧ r.state = sv) →
      (∀ s : Int, 0 ≤ s → s < (N : Int) → RunsUpTo tbl t hm s) →
      ∃ hm2, sm_init_scan (tbl.drop t) (t : Int) sv hm = some hm2 ∧ hm2.length = N ∧
        ∀ s : Int, 0 ≤ s → s < (N : Int) → RunsUpTo tbl n hm2 s := by
  intro m
  induction m with
  | zero =>
    intro t sv hm htn hlen _ hinv
    have ht : t = n := by omega
    subst ht
    refine ⟨hm, ?_, hlen, hinv⟩
    rw [drop_of_getElem? tbl t z hz]
    simp [sm_init_scan, hz0]
  | succ m ih =>
    intro t sv hm htn hlen hsv hinv
    have htlt : t < n := by omega
    obtain ⟨e, he⟩ := getElem?_of_lt_sentinel hz htlt
    obtain ⟨he0, hge, hlt⟩ := hrange t e htlt he
    have hsv2 : (t + 1 = 0 ∧ e.state = 0) ∨
        ∃ p r, t + 1 = p + 1 ∧ tbl[p]? = some r ∧ r.state = e.state :=
      Or.inr ⟨t, e, rfl, he, rfl⟩
    have hcast : ((t + 1 : Nat) : Int) = (t : Int) + 1 := by push_cast; ring
    have hrow : ∀ rj, tbl[t]? = some rj → rj = e := fun rj hrj => by
      rw [he] at hrj
      exact (Option.some.inj hrj).symm
    rw [drop_of_getElem? tbl t e he]
    by_cases hnew : sv = e.state
    · -- the row continues the run of the previous row: it starts no run
      have hprev : ∃ p r, t = p + 1 ∧ tbl[p]? = some r ∧ r.state = e.state := by
        rcases hsv with ⟨_, h0⟩ | ⟨p, r, hp, hr, hrs⟩
        · exact absurd (hnew ▸ h0 : e.state = 0) he0
        · exact ⟨p, r, hp, hr, hrs.trans hnew⟩
      obtain ⟨p, r, hp, hr, hrs⟩ := hprev
      have hnostart : ∀ s, ¬ RawStart tbl s t := by
        rintro s ⟨⟨x, hx, hxs⟩, hbefore⟩
        have hxe := hrow x hx
        subst hxe
        exact hbefore p r hp hr (hrs.trans hxs)
      have hinv2 : ∀ s : Int, 0 ≤ s → s < (N : Int) → RunsUpTo tbl (t + 1) hm s := by
        intro s hs0 hsN
        rcases hinv s hs0 hsN with ⟨hrd, hnone⟩ | ⟨i, hi, hrd, hst, hlast⟩
        · refine Or.inl ⟨hrd, ?_⟩
          intro j rj hj hrj
          by_cases hjt : j = t
          · subst hjt
            have := hrow rj hrj
            subst this
            intro hes
            exact hnone p r (by omega) hr (hrs.trans hes)
          · exact hnone j rj (by omega) hrj
        · refine Or.inr ⟨i, by omega, hrd, hst, ?_⟩
          intro j hij hjt
          by_cases hjt2 : j = t
          · subst hjt2
            exact hnostart s
          · exact hlast j hij (by omega)
      obtain ⟨hm2, h1, h2, h3⟩ := ih (t + 1) e.state hm (by omega) hlen hsv2 hinv2
      refine ⟨hm2, ?_, h2, h3⟩
      rw [hcast] at h1
      simp only [sm_init_scan, he0, hnew, ne_eq, not_true_eq_false, if_false]
      exact h1
    · -- the row starts a run of its state
      have hnat : e.state.toNat < hm.length := by
        rw [hlen]; exact (Int.toNat_lt hge).mpr hlt
      have hstart : RawStart tbl e.state t := by
        refine ⟨⟨e, he, rfl⟩, ?_⟩
        intro p x hp hx hxs
        rcases hsv with ⟨ht0, _⟩ | ⟨p2, r, hp2, hr, hrs⟩
        · omega
        · have hpp : p2 = p := by omega
          subst hpp
          rw [hr] at hx
          have := Option.some.inj hx
          subst this
          exact hnew (hrs.symm.trans hxs)
      have hinv2 : ∀ s : Int, 0 ≤ s → s < (N : Int) →
          RunsUpTo tbl (t + 1) (hm.set e.state.toNat (t : Int)) s := by
        intro s hs0 hsN
        by_cases hse : s = e.state
        · subst hse
          exact Or.inr ⟨t, by omega, readAt_set_self hm _ _ hge hnat, hstart,
            fun j h1 h2 => by omega⟩
        · have hnot : ¬ RawStart tbl s t := by
            rintro ⟨⟨x, hx, hxs⟩, _⟩
            have := hrow x hx
            subst this
            exact hse hxs.symm
          rw [RunsUpTo, readAt_set_ne hm s e.state t hs0 hge hse]
          rcases hinv s hs0 hsN with ⟨hrd, hnone⟩ | ⟨i, hi, hrd, hst, hlast⟩
          · refine Or.inl ⟨hrd, ?_⟩
            intro j rj hj hrj
            by_cases hjt : j = t
            · subst hjt
              have := hrow rj hrj
              subst this
              exact fun h => hse h.symm
            · exact hnone j rj (by omega) hrj
          · refine Or.inr ⟨i, by omega, hrd, hst, ?_⟩
            intro j hij hjt
            by_cases hjt2 : j = t
            · subst hjt2
              exact hnot
            · exact hlast j hij (by omega)
      obtain ⟨hm2, h1, h2, h3⟩ := ih (t + 1) e.state (hm.set e.state.toNat (t : Int))
        (by omega) (by simpa using hlen) hsv2 hinv2
      refine ⟨hm2, ?_, h2, h3⟩
      rw [hcast] at h1
      simp only [sm_init_scan, he0, if_false, ne_eq, hnew, not_false_eq_true, if_true,
        writeAt, hge, hnat, and_self]
      exact h1

theorem sm_init_runs {D A : Type} (sm : StateMachine D A)
    (hterm : ∃ (n : Nat) (z : StateTableEntry D A), sm.stateTable[n]? = some z ∧ z.state = 0)
    (hstate : ∀ i e, IsRule sm.stateTable i e → 1 ≤ e.state ∧ e.state ≤ sm.guardState) :
    ∃ (hm : List Int) (n : Nat) (z : StateTableEntry D A),
      sm_init true sm = some (UI_STATE_MACHINE_OK, { sm with stateTable_hashMap := some hm }) ∧
      hm.length = (sm.guardState + 1).toNat ∧
      sm.stateTable[n]? = some z ∧ z.state = 0 ∧
      (∀ j r, j < n → sm.stateTable[j]? = some r → r.state ≠ 0) ∧
      ∀ s : Int, 0 ≤ s → s ≤ sm.guardState → RunsUpTo sm.stateTable n hm s := by
  obtain ⟨n, z, hz, hz0, hmin⟩ := first_sentinel sm.stateTable hterm
  have hrule : ∀ i e, i < n → sm.stateTable[i]? = some e → IsRule sm.stateTable i e :=
    fun i e hi he => (SM.isRule_iff hz hz0 hmin i e).mpr ⟨hi, he⟩
  have hrange : ∀ j r, j < n → sm.stateTable[j]? = some r →
      r.state ≠ 0 ∧ 0 ≤ r.state ∧ r.state < ((sm.guardState + 1).toNat : Int) := by
    intro j r hj hr
    obtain ⟨h1, h2⟩ := hstate j r (hrule j r hj hr)
    refine ⟨hmin j r hj hr, by omega, ?_⟩
    rw [Int.toNat_of_nonneg (by omega)]
    omega
  have hstart : ∀ s : Int, 0 ≤ s → s < ((sm.guardState + 1).toNat : Int) →
      RunsUpTo sm.stateTable 0 (List.replicate (sm.guardState + 1).toNat (-1)) s := by
    intro s hs0 hsN
    refine Or.inl ⟨?_, fun j r hj => absurd hj (Nat.not_lt_zero j)⟩
    have : s.toNat < (sm.guardState + 1).toNat := by
      have := Int.toNat_of_nonneg hs0
      omega
    simp [readAt, hs0, List.getElem?_replicate, this]
  obtain ⟨hm, h1, h2, h3⟩ := sm_init_scan_runs sm.stateTable n (sm.guardState + 1).toNat z hz
    hz0 hrange n 0 0 (List.replicate (sm.guardState + 1).toNat (-1)) (by omega) (by simp)
    (Or.inl ⟨rfl, rfl⟩) hstart
  refine ⟨hm, n, z, ?_, h2, hz, hz0, hmin, ?_⟩
  · have h1b : sm_init_scan sm.stateTable 0 0
        (List.replicate (sm.guardState + 1).toNat (-1)) = some hm := by simpa using h1
    simp [sm_init, h1b]
  · intro s hs0 hsg
    apply h3 s hs0
    rw [Int.toNat_of_nonneg (by omega)]
    omega

theorem indexRules_of_runs {D A : Type} (tbl : List (StateTableEntry D A)) (hm : List Int)
    (g : Int) (n : Nat) (z : StateTableEntry D A) (hlen : hm.length = (g + 1).toNat)
    (hz : tbl[n]? = some z) (hz0 : z.state = 0)
    (hmin : ∀ j r, j < n → tbl[j]? = some r → r.state ≠ 0)
    (hruns : ∀ s : Int, 0 ≤ s → s ≤ g → RunsUpTo tbl n hm s) : IndexRules tbl hm := by
  intro s v hv
  obtain ⟨hs0, hslt⟩ := readAt_nonneg hv
  have hsg : s ≤ g := by
    rw [hlen] at hslt
    have a := Int.toNat_of_nonneg hs0
    by_contra hcon
    by_cases hg : 0 ≤ g + 1
    · have b := Int.toNat_of_nonneg hg
      omega
    · have : (g + 1).toNat = 0 := Int.toNat_eq_zero.mpr (by omega)
      omega
  rcases hruns s hs0 hsg with ⟨hrd, _⟩ | ⟨i, hi, hrd, ⟨⟨e, he, hes⟩, _⟩, _⟩
  · rw [hrd] at hv
    exact Or.inl (Option.some.inj hv).symm
  · rw [hrd] at hv
    exact Or.inr ⟨i, e, (Option.some.inj hv).symm,
      (SM.isRule_iff hz hz0 hmin i e).mpr ⟨hi, he⟩, hes⟩

/-! ## The rows a scan touches form a run -/

theorem InRun.refl {D A : Type} {tbl : List (StateTableEntry D A)} {s : Int} {i : Nat}
    {e : StateTableEntry D A} (he : tbl[i]? = some e) (hes : e.state = s) :
    InRun tbl s i i := by
  refine ⟨le_rfl, fun j h1 h2 => ?_⟩
  have : j = i := by omega
  subst this
  exact ⟨e, he, hes⟩

theorem InRun.extend {D A : Type} {tbl : List (StateTableEntry D A)} {s : Int} {i r : Nat}
    {e : StateTableEntry D A} (he : tbl[i]? = some e) (hes : e.state = s)
    (h : InRun tbl s (i + 1) r) : InRun tbl s i r := by
  refine ⟨by have := h.1; omega, fun j h1 h2 => ?_⟩
  by_cases hji : j = i
  · subst hji
    exact ⟨e, he, hes⟩
  · exact h.2 j (by omega) h2

theorem InRun.isRule {D A : Type} {tbl : List (StateTableEntry D A)} {s : Int} {i r : Nat}
    {e : StateTableEntry D A} (h : InRun tbl s i r) (hi : IsRule tbl i e) (hes : e.state = s) :
    ∃ x, IsRule tbl r x ∧ x.state = s := by
  obtain ⟨x, hx, hxs⟩ := h.2 r h.1 le_rfl
  have hs0 : s ≠ 0 := fun h0 => hi.2 i e le_rfl hi.1 (hes.trans h0)
  refine ⟨x, ⟨hx, ?_⟩, hxs⟩
  intro j y hj hy hy0
  by_cases hji : j ≤ i
  · exact hi.2 j y hji hy hy0
  · obtain ⟨w, hw, hws⟩ := h.2 j (by omega) hj
    rw [hy, Option.some.injEq] at hw
    rw [← hw] at hws
    exact hs0 (hws.symm.trans hy0)

theorem scan_group_run {D A : Type} (g scope ev : Int) (d : D)
    (tbl : List (StateTableEntry D A)) (cur : Int) :
    ∀ (rest : List (StateTableEntry D A)) (i : Nat), tbl.drop i = rest →
      ∀ (fired : Bool) (cur2 : Int) (log : List (Step D A)),
      scan_group g scope ev d rest i cur = some (fired, cur2, log) →
      ∀ r ∈ touched log, InRun tbl scope i r := by
  intro rest
  induction rest with
  | nil =>
    intro i _ fired cur2 log h
    simp [scan_group] at h
  | cons e rest ih =>
    intro i hdrop fired cur2 log h
    have hei : tbl[i]? = some e := by
      have := List.getElem?_drop tbl i 0
      rw [hdrop] at this
      simpa using this.symm
    have hrest : tbl.drop (i + 1) = rest := by
      have := drop_of_getElem? tbl i e hei
      rw [hdrop] at this
      exact (List.cons.inj this).2.symm
    by_cases hsc : scope = e.state
    · cases hf : e.event_func with
      | none =>
        simp only [scan_group, hsc, ne_eq, not_true_eq_false, if_false, hf] at h
        rw [← hsc] at h
        intro r hr
        exact (ih (i + 1) hrest fired cur2 log h r hr).extend hei hsc.symm
      | some f =>
        cases hfv : f ev d with
        | true =>
          simp only [scan_group, hsc, ne_eq, not_true_eq_false, if_false, hf, hfv, if_true,
            Option.some.injEq, Prod.mk.injEq] at h
          intro r hr
          rw [← h.2.2] at hr
          rw [touched_fire_steps g i e ev d r hr]
          exact InRun.refl hei hsc.symm
        | false =>
          simp only [scan_group, hsc, ne_eq, not_true_eq_false, if_false, hf, hfv] at h
          rw [← hsc] at h
          cases hrec : scan_group g scope ev d rest (i + 1) cur with
          | none => simp [hrec] at h
          | some res =>
            obtain ⟨fired3, cur3, log3⟩ := res
            simp only [hrec, Bool.false_eq_true, if_false, Option.some.injEq,
              Prod.mk.injEq] at h
            intro r hr
            rw [← h.2.2] at hr
            simp only [touched, List.mem_cons] at hr
            rcases hr with rfl | hr
            · exact InRun.refl hei hsc.symm
            · exact (ih (i + 1) hrest fired3 cur3 log3 hrec r hr).extend hei hsc.symm
    · simp only [scan_group, ne_eq, hsc, not_false_eq_true, if_true, Option.some.injEq,
        Prod.mk.injEq] at h
      intro r hr
      rw [← h.2.2] at hr
      simp [touched] at hr

theorem scan_from_run {D A : Type} (sm : StateMachine D A) (scope ev : Int) (d : D)
    (i : Int) (fired : Bool) (cur2 : Int) (log : List (Step D A))
    (h : scan_from sm scope ev d i = some (fired, cur2, log)) :
    ∀ r ∈ touched log, ∃ k : Nat, i = (k : Int) ∧ InRun sm.stateTable scope k r := by
  unfold scan_from at h
  by_cases hi : 0 ≤ i
  · rw [if_pos hi] at h
    intro r hr
    exact ⟨i.toNat, (Int.toNat_of_nonneg hi).symm,
      scan_group_run sm.guardState scope ev d sm.stateTable sm.currentState _ _ rfl
        fired cur2 log h r hr⟩
  · rw [if_neg hi] at h
    cases h

theorem guard_transition_run {D A : Type} (sm : StateMachine D A) (hm : List Int)
    (ev : Int) (d : D) (sm2 : StateMachine D A) (log : List (Step D A))
    (h : guard_transition sm hm ev d = some (sm2, log)) :
    ∀ r ∈ touched log, ∃ k : Nat, readAt hm sm.guardState = some (k : Int) ∧
      InRun sm.stateTable sm.guardState k r := by
  unfold guard_transition at h
  cases hrd : readAt hm sm.guardState with
  | none => simp [hrd] at h
  | some i =>
    simp only [hrd] at h
    by_cases hi : i = -1
    · simp only [hi, if_true, Option.some.injEq, Prod.mk.injEq] at h
      intro r hr
      rw [← h.2] at hr
      simp [touched] at hr
    · simp only [hi, if_false] at h
      cases hsc : scan_from sm sm.guardState ev d i with
      | none => simp [hsc] at h
      | some res =>
        obtain ⟨fired, cur2, log2⟩ := res
        simp only [hsc, Option.some.injEq, Prod.mk.injEq] at h
        intro r hr
        rw [← h.2] at hr
        obtain ⟨k, hk, hrun⟩ := scan_from_run sm sm.guardState ev d i fired cur2 log2 hsc r hr
        exact ⟨k, by rw [hk], hrun⟩

theorem make_transition_run {D A : Type} (sm : StateMachine D A) (hm : List Int)
    (hmap : sm.stateTable_hashMap = some hm) (ev : Int) (d : D)
    (sm2 : StateMachine D A) (log : List (Step D A))
    (h : make_transition sm ev d = some (sm2, log)) :
    ∀ r ∈ touched log,
      (∃ k : Nat, readAt hm sm.currentState = some (k : Int) ∧
        InRun sm.stateTable sm.currentState k r) ∨
      (∃ k : Nat, readAt hm sm.guardState = some (k : Int) ∧
        InRun sm.stateTable sm.guardState k r) := by
  unfold make_transition at h
  rw [hmap] at h
  simp only [] at h
  cases hrd : readAt hm sm.currentState with
  | none => simp [hrd] at h
  | some i =>
    simp only [hrd] at h
    by_cases hi : i = -1
    · simp only [hi, if_true] at h
      intro r hr
      exact Or.inr (guard_transition_run sm hm ev d sm2 log h r hr)
    · simp only [hi, if_false] at h
      cases hsc : scan_from sm sm.currentState ev d i with
      | none => simp [hsc] at h
      | some res =>
        obtain ⟨fired, cur2, log1⟩ := res
        have hprim := scan_from_run sm sm.currentState ev d i fired cur2 log1 hsc
        cases fired with
        | true =>
          simp only [hsc, Option.some.injEq, Prod.mk.injEq] at h
          intro r hr
          rw [← h.2] at hr
          obtain ⟨k, hk, hrun⟩ := hprim r hr
          exact Or.inl ⟨k, by rw [hk], hrun⟩
        | false =>
          simp only [hsc] at h
          cases hgd : guard_transition sm hm ev d with
          | none => simp [hgd] at h
          | some res2 =>
            obtain ⟨sm3, log3⟩ := res2
            simp only [hgd, Option.some.injEq, Prod.mk.injEq] at h
            intro r hr
            rw [← h.2, touched_append, List.mem_append] at hr
            rcases hr with hr | hr
            · obtain ⟨k, hk, hrun⟩ := hprim r hr
              exact Or.inl ⟨k, by rw [hk], hrun⟩
            · exact Or.inr (guard_transition_run sm hm ev d sm3 log3 hgd r hr)

theorem trans_loop_no_fault {D A : Type} (ev : Int) (d : D) (P : StateMachine D A → Prop)
    (hstep : ∀ m, P m → ∃ m2 l, make_transition m ev d = some (m2, l) ∧ P m2)
    (htot : ∀ m, P m → ∃ b, is_trans_state m m.currentState = some b) :
    ∀ (fuel : Nat) (m : StateMachine D A) (log : List (Step D A)), P m →
      trans_loop ev d fuel m log ≠ Outcome.fault := by
  intro fuel
  induction fuel with
  | zero =>
    intro m log hP
    obtain ⟨b, hb⟩ := htot m hP
    cases b <;> simp [trans_loop, hb]
  | succ fuel ih =>
    intro m log hP
    obtain ⟨b, hb⟩ := htot m hP
    cases b with
    | false => simp [trans_loop, hb]
    | true =>
      obtain ⟨m2, l, hmk, hP2⟩ := hstep m hP
      simp only [trans_loop, hb, hmk]
      exact ih m2 (log ++ l) hP2

theorem indexSound_of_rules {D A : Type} (tbl : List (StateTableEntry D A)) (hm : List Int)
    (n : Nat) (z : StateTableEntry D A) (hz : tbl[n]? = some z) (hz0 : z.state = 0)
    (hrules : IndexRules tbl hm) : IndexSound tbl hm := by
  intro s v hv
  rcases hrules s v hv with h | ⟨i, e, hi, hrule, hes⟩
  · exact Or.inl h
  · refine Or.inr ⟨i, hi, fun h0 => hrule.2 i e le_rfl hrule.1 (hes.trans h0),
      ⟨e, hrule.1, hes⟩, n, z, ?_, hz, hz0⟩
    exact hrule.lt_of_zero (by rw [stateAt_eq hz, hz0])

theorem touched_rules {D A : Type} (sm : StateMachine D A) (hm : List Int)
    (hmap : sm.stateTable_hashMap = some hm) (hrules : IndexRules sm.stateTable hm)
    (ev : Int) (d : D) (sm2 : StateMachine D A) (log : List (Step D A))
    (h : make_transition sm ev d = some (sm2, log)) :
    ∀ r ∈ touched log, ∃ x, IsRule sm.stateTable r x := by
  intro r hr
  have hone : ∀ (s : Int) (k : Nat), readAt hm s = some (k : Int) →
      InRun sm.stateTable s k r → ∃ x, IsRule sm.stateTable r x := by
    intro s k hrd hrun
    rcases hrules s k hrd with hneg | ⟨i, e, hi, hrule, hes⟩
    · omega
    · have hki : k = i := by omega
      subst hki
      obtain ⟨x, hx, _⟩ := hrun.isRule hrule hes
      exact ⟨x, hx⟩
  rcases make_transition_run sm hm hmap ev d sm2 log h r hr with
    ⟨k, hrd, hrun⟩ | ⟨k, hrd, hrun⟩
  · exact hone _ k hrd hrun
  · exact hone _ k hrd hrun

theorem mem_touched_fire_steps {D A : Type} (g : Int) (k : Nat) (e : StateTableEntry D A)
    (ev : Int) (d : D) : k ∈ touched (fire_steps g k e ev d) := by
  unfold fire_steps
  simp [touched]

theorem rule_states_of_check {D A : Type} (tbl : List (StateTableEntry D A)) (g : Int)
    (n : Nat) (hn : stateAt tbl n = some 0)
    (hrange : ∀ j, j < n → 1 ≤ (stateAt tbl j).getD 0 ∧ (stateAt tbl j).getD 0 ≤ g) :
    ∀ i e, IsRule tbl i e → 1 ≤ e.state ∧ e.state ≤ g := by
  intro i e hi
  have := hrange i (hi.lt_of_zero hn)
  rw [stateAt_eq hi.1] at this
  simpa using this

theorem rule_next_of_check {D A : Type} (tbl : List (StateTableEntry D A)) (g : Int)
    (n : Nat) (hn : stateAt tbl n = some 0)
    (hrange : ∀ j, j < n → 0 ≤ ((tbl[j]?).map (fun e => e.nextState)).getD (-1) ∧
      ((tbl[j]?).map (fun e => e.nextState)).getD (-1) ≤ g) :
    ∀ i e, IsRule tbl i e → 0 ≤ e.nextState ∧ e.nextState ≤ g := by
  intro i e hi
  have := hrange i (hi.lt_of_zero hn)
  rw [hi.1] at this
  simpa using this

theorem terminated_of_check {D A : Type} (tbl : List (StateTableEntry D A)) (n : Nat)
    (hn : stateAt tbl n = some 0) :
    ∃ (k : Nat) (z : StateTableEntry D A), tbl[k]? = some z ∧ z.state = 0 := by
  obtain ⟨z, hz, hz0⟩ := stateAt_some hn
  exact ⟨n, z, hz, hz0⟩

/-! ## The claims -/

/-- C1 (primary dispatch, first match wins).  On a well-formed table, after `sm_init`,
for every current state `s` and every `(event, payload)`: when row `k` is the earliest rule
with state `s` whose predicate is present and returns `TRUE`, one `make_transition` fires
row `k` and nothing else: the only action call is the call of row `k`'s action with the
payload (no call when the pointer is `NULL`), the only predicate call that returned `TRUE`
is the one of row `k`, and `currentState` becomes the row's `nextState` when that is not
`guardState` (and keeps its value otherwise). -/
theorem primary_first_match {D A : Type} (sm0 sm : StateMachine D A)
    (hwf : WellFormed sm0.stateTable sm0.guardState)
    (hinit : sm_init true sm0 = some (UI_STATE_MACHINE_OK, sm))
    (s ev : Int) (d : D) (k : Nat) (e : StateTableEntry D A)
    (hk : IsRule sm.stateTable k e) (hs : e.state = s) (hmatch : Matches e ev d)
    (hearly : ∀ j r, j < k → IsRule sm.stateTable j r → r.state = s → ¬ Matches r ev d) :
    ∃ log, make_transition { sm with currentState := s } ev d =
        some ({ sm with currentState :=
          (if e.nextState ≠ sm.guardState then e.nextState else s) }, log) ∧
      actions log =
        (match e.action with
         | some a => [(k, a, d)]
         | none => []) ∧
      (∀ p ∈ evals log, p.2.2.2 = true → p = (k, ev, d, true)) ∧
      (k, ev, d, true) ∈ evals log ∧
      assigns log = (if e.nextState ≠ sm.guardState then [e.nextState] else []) := by
  obtain ⟨_, hm, n, _, hidx⟩ := indexed_of_init sm0 sm _ hwf hinit
  have hidx2 := hidx.setCurrent s
  obtain ⟨hkn, hke⟩ := (hidx.isRule_iff_lt k e).mp hk
  obtain ⟨pre, hmiss, _, hmk⟩ := hidx2.primary_fire ev d k e hkn hke hs hmatch
    (fun j r hj hr hrs => hearly j r hj ((hidx.isRule_iff_lt j r).mpr ⟨by omega, hr⟩) hrs)
  exact ⟨_, hmk, fired_log sm.guardState k e ev d pre hmiss⟩

/-- Witness of C1, Scenario A: from `STATE_IDLE`, `EVENT_START` runs `action_log` once and
ends in `STATE_RUNNING`. -/
theorem primary_first_match_witness :
    sm_init true machineA = some (UI_STATE_MACHINE_OK, readyA) ∧
    ∃ log, make_transition readyA EVENT_START () =
        some ({ readyA with currentState := STATE_RUNNING }, log) ∧
      actions log = [(0, Act.action_log, ())] := by
  refine ⟨rfl, ?_⟩
  obtain ⟨log, h1, h2, _⟩ := primary_first_match machineA readyA wellFormed_tableA rfl
    STATE_IDLE EVENT_START () 0 _ (IsRule.of_noZero rfl (by decide)) rfl ⟨_, rfl, rfl⟩
    (fun j r hj => absurd hj (Nat.not_lt_zero j))
  exact ⟨log, h1, h2⟩

/-- C2 (guard fallback).  On a well-formed table, after `sm_init`, for every current state
`s` in `0..guardState` and every `(event, payload)`: when no rule with state `s` has a
predicate that is present and returns `TRUE` (in particular when `s` has no rule), and row
`k` is the earliest rule of the `guardState` group whose predicate is present and returns
`TRUE`, `make_transition` fires row `k`: its action is called once with the payload (no
call when the pointer is `NULL`), no other action is called, and `currentState` becomes
the row's `nextState` when that is not `guardState`. -/
theorem guard_fallback {D A : Type} (sm0 sm : StateMachine D A)
    (hwf : WellFormed sm0.stateTable sm0.guardState)
    (hinit : sm_init true sm0 = some (UI_STATE_MACHINE_OK, sm))
    (s ev : Int) (d : D) (hs0 : 0 ≤ s) (hsg : s ≤ sm.guardState)
    (hno : ∀ j r, IsRule sm.stateTable j r → r.state = s → ¬ Matches r ev d)
    (k : Nat) (e : StateTableEntry D A)
    (hk : IsRule sm.stateTable k e) (hg : e.state = sm.guardState) (hmatch : Matches e ev d)
    (hearly : ∀ j r, j < k → IsRule sm.stateTable j r → r.state = sm.guardState →
      ¬ Matches r ev d) :
    ∃ log, make_transition { sm with currentState := s } ev d =
        some ({ sm with currentState :=
          (if e.nextState ≠ sm.guardState then e.nextState else s) }, log) ∧
      actions log =
        (match e.action with
         | some a => [(k, a, d)]
         | none => []) ∧
      (∀ p ∈ evals log, p.2.2.2 = true → p = (k, ev, d, true)) ∧
      (k, ev, d, true) ∈ evals log ∧
      assigns log = (if e.nextState ≠ sm.guardState then [e.nextState] else []) := by
  obtain ⟨_, hm, n, _, hidx⟩ := indexed_of_init sm0 sm _ hwf hinit
  have hidx2 := hidx.setCurrent s
  obtain ⟨hkn, hke⟩ := (hidx.isRule_iff_lt k e).mp hk
  obtain ⟨pre, hpre, _, hmk⟩ := hidx2.primary_miss ev d hs0 hsg
    (fun j r hj hr hrs => hno j r ((hidx.isRule_iff_lt j r).mpr ⟨hj, hr⟩) hrs)
  obtain ⟨pre2, hpre2, _, hgd⟩ := hidx2.guard_fire ev d k e hkn hke hg hmatch
    (fun j r hj hr hrs => hearly j r hj ((hidx.isRule_iff_lt j r).mpr ⟨by omega, hr⟩) hrs)
  refine ⟨pre ++ (pre2 ++ fire_steps sm.guardState k e ev d), ?_, ?_⟩
  · rw [hmk, hgd]
  · rw [← List.append_assoc]
    exact fired_log sm.guardState k e ev d (pre ++ pre2) (hpre.append hpre2)

/-- Witness of C2, Scenario C: from `STATE_RUNNING`, which has no rule, `EVENT_STOP` falls
through to the guard rule, runs `action_reset` and ends in `STATE_IDLE`. -/
theorem guard_fallback_witness :
    sm_init true machineC = some (UI_STATE_MACHINE_OK, readyC) ∧
    ∃ log, make_transition readyC EVENT_STOP () =
        some ({ readyC with currentState := STATE_IDLE }, log) ∧
      actions log = [(1, Act.action_reset, ())] := by
  refine ⟨rfl, ?_⟩
  obtain ⟨log, h1, h2, _⟩ := guard_fallback machineC readyC wellFormed_tableC rfl
    STATE_RUNNING EVENT_STOP () (by decide) (by decide)
    (no_rule_of_check tableC STATE_RUNNING EVENT_STOP () 2 (by decide) (by decide))
    1 _ (IsRule.of_noZero rfl (by decide)) rfl ⟨_, rfl, rfl⟩
    (no_earlier_of_check tableC STATE_GUARD EVENT_STOP () 1 (by decide))
  exact ⟨log, h1, h2⟩

/-- C3 (no match is a no-op).  On a well-formed table, after `sm_init`, with a
`transStates` array that is `NULL` or 0-terminated, for every current state `s` in
`0..guardState` and every `(event, payload)` on which no rule of state `s` and no rule of
the `guardState` group has a predicate that is present and returns `TRUE`:
`sm_stateTransition` never changes the machine, calls no action and stores nothing to
`currentState`, whatever bound is put on its loop; the call returns when `s` is not
transitory, and is still running at every bound when `s` is transitory. -/
theorem no_match_noop {D A : Type} (sm0 sm : StateMachine D A)
    (hwf : WellFormed sm0.stateTable sm0.guardState)
    (hinit : sm_init true sm0 = some (UI_STATE_MACHINE_OK, sm))
    (htr : TransTerminated sm)
    (s ev : Int) (d : D) (hs0 : 0 ≤ s) (hsg : s ≤ sm.guardState)
    (hno : ∀ j r, IsRule sm.stateTable j r → r.state = s → ¬ Matches r ev d)
    (hnog : ∀ j r, IsRule sm.stateTable j r → r.state = sm.guardState → ¬ Matches r ev d)
    (fuel : Nat) :
    ∃ log, actions log = [] ∧ assigns log = [] ∧
      ((is_trans_state sm s = some false ∧
          sm_stateTransition fuel { sm with currentState := s } ev d =
            Outcome.returned ({ sm with currentState := s }, log)) ∨
        (is_trans_state sm s = some true ∧
          sm_stateTransition fuel { sm with currentState := s } ev d =
            Outcome.running ({ sm with currentState := s }, log))) := by
  obtain ⟨_, hm, n, _, hidx⟩ := indexed_of_init sm0 sm _ hwf hinit
  have hidx2 := hidx.setCurrent s
  obtain ⟨step, hstep, hmk⟩ := hidx2.no_match ev d hs0 hsg
    (fun j r hj hr hrs => hno j r ((hidx.isRule_iff_lt j r).mpr ⟨hj, hr⟩) hrs)
    (fun j r hj hr hrs => hnog j r ((hidx.isRule_iff_lt j r).mpr ⟨hj, hr⟩) hrs)
  obtain ⟨log, hlog, hres⟩ := trans_loop_stay ev d { sm with currentState := s } step hstep
    hmk (is_trans_state_total _ htr s) fuel step hstep
  refine ⟨log, hlog.no_actions, hlog.no_assigns, ?_⟩
  simpa only [sm_stateTransition, hmk] using hres

/-- Witness of C3, Scenario B: from `STATE_IDLE`, `EVENT_STOP` matches no rule; the call
returns in `STATE_IDLE` and no action has run. -/
theorem no_match_noop_witness :
    sm_init true machineA = some (UI_STATE_MACHINE_OK, readyA) ∧
    ∃ log, sm_stateTransition 3 readyA EVENT_STOP () = Outcome.returned (readyA, log) ∧
      actions log = [] := by
  refine ⟨rfl, ?_⟩
  obtain ⟨log, h1, _, h3⟩ := no_match_noop machineA readyA wellFormed_tableA rfl
    (fun ts hts => by cases hts) STATE_IDLE EVENT_STOP () (by decide) (by decide)
    (no_rule_of_check tableA STATE_IDLE EVENT_STOP () 1 (by decide) (by decide))
    (no_rule_of_check tableA STATE_GUARD EVENT_STOP () 1 (by decide) (by decide)) 3
  rcases h3 with ⟨_, h⟩ | ⟨h, _⟩
  · exact ⟨log, h, h1⟩
  · cases h

/-- C4 (transitory-state closure).  Whenever a call of `sm_stateTransition` returns, the
resulting `currentState` is not transitory: `is_trans_state` returns `FALSE` on it. -/
theorem transitory_closure {D A : Type} (fuel : Nat) (sm : StateMachine D A) (ev : Int)
    (d : D) (sm2 : StateMachine D A) (log : List (Step D A))
    (h : sm_stateTransition fuel sm ev d = Outcome.returned (sm2, log)) :
    is_trans_state sm2 sm2.currentState = some false := by
  unfold sm_stateTransition at h
  cases hmk : make_transition sm ev d with
  | none => simp [hmk] at h
  | some r =>
    obtain ⟨sm1, log1⟩ := r
    simp only [hmk] at h
    exact trans_loop_returned ev d fuel sm1 log1 sm2 log h

/-- Witness of C4, Scenario D: the call from `STATE_RUNNING` on `EVENT_STOP` passes through
the transitory `STATE_CLEANUP` and returns in `STATE_IDLE`, which is not transitory. -/
theorem transitory_closure_witness :
    sm_stateTransition 1 readyD EVENT_STOP () =
      Outcome.returned ({ readyD with currentState := STATE_IDLE },
        [Step.eval 1 EVENT_STOP () true, Step.act 1 Act.action_reset (),
         Step.assign STATE_CLEANUP, Step.eval 2 EVENT_STOP () true,
         Step.act 2 Act.action_cleanup (), Step.assign STATE_IDLE]) ∧
    is_trans_state readyD STATE_IDLE = some false :=
  ⟨rfl, transitory_closure 1 readyD EVENT_STOP () _ _ rfl⟩

/-- C5 (transitory fall-through in one call).  On a well-formed table, after `sm_init`,
let `T` be a transitory state whose first rule, row `iT`, has a predicate that returns
`TRUE` on every `(event, payload)` and a `nextState` `S` that is not transitory and is not
`guardState`.  When the first `make_transition` of a call of `sm_stateTransition` leaves
`currentState` equal to `T`, a rule `j` with `nextState = T` fired in it, and the call
returns (as soon as the bound on the loop allows one execution of its body) with
`currentState = S`; the action calls of the whole call are the action of row `j` and then
the action of row `iT`, once each and with the payload, and row `iT`'s predicate was called
with the same event and payload. -/
theorem transitory_fall_through {D A : Type} (sm0 sm : StateMachine D A)
    (hwf : WellFormed sm0.stateTable sm0.guardState)
    (hinit : sm_init true sm0 = some (UI_STATE_MACHINE_OK, sm))
    (T S : Int) (iT : Nat) (eT : StateTableEntry D A)
    (hT : IsRule sm.stateTable iT eT) (hTs : eT.state = T)
    (hTfirst : ∀ j r, j < iT → IsRule sm.stateTable j r → r.state ≠ T)
    (hTalways : ∃ f, eT.event_func = some f ∧ ∀ ev d, f ev d = true)
    (hTS : eT.nextState = S) (hSg : S ≠ sm.guardState)
    (hTtrans : is_trans_state sm T = some true) (hStrans : is_trans_state sm S = some false)
    (s0 ev : Int) (d : D) (sm1 : StateMachine D A) (log1 : List (Step D A))
    (hfirst : make_transition { sm with currentState := s0 } ev d = some (sm1, log1))
    (hland : sm1.currentState = T) :
    ∃ j e pre, sm.stateTable[j]? = some e ∧ e.nextState = T ∧ Matches e ev d ∧ Misses pre ∧
      log1 = pre ++ fire_steps sm.guardState j e ev d ∧
      ∀ fuel, 1 ≤ fuel → ∃ log,
        sm_stateTransition fuel { sm with currentState := s0 } ev d =
          Outcome.returned ({ sm with currentState := S }, log) ∧
        log = log1 ++ fire_steps sm.guardState iT eT ev d ∧
        actions log =
          (match e.action with
           | some a => [(j, a, d)]
           | none => []) ++
          (match eT.action with
           | some a => [(iT, a, d)]
           | none => []) ∧
        evals log = evals pre ++ [(j, ev, d, true), (iT, ev, d, true)] := by
  obtain ⟨_, hm, n, _, hidx⟩ := indexed_of_init sm0 sm _ hwf hinit
  obtain ⟨hTn, hTe⟩ := (hidx.isRule_iff_lt iT eT).mp hT
  obtain ⟨f, hf, hfall⟩ := hTalways
  have hnoEarlier : ∀ j r, j < iT → sm.stateTable[j]? = some r → r.state ≠ T :=
    fun j r hj hr => hTfirst j r hj ((hidx.isRule_iff_lt j r).mpr ⟨by omega, hr⟩)
  -- the dispatch from `T`
  have hfromT : make_transition { sm with currentState := T } ev d =
      some ({ sm with currentState := S }, fire_steps sm.guardState iT eT ev d) := by
    obtain ⟨pre, hmiss, htouch, hmk⟩ := (hidx.setCurrent T).primary_fire ev d iT eT hTn hTe
      hTs ⟨f, hf, hfall ev d⟩ (fun j r hj hr hrs => absurd hrs (hnoEarlier j r hj hr))
    have hpre : pre = [] := hmiss.eq_nil (fun r hr => by
      obtain ⟨hlt, x, hx, hxs⟩ := htouch r hr
      exact hnoEarlier r x hlt hx hxs)
    rw [hmk, hpre, hTS, if_pos hSg]
    rfl
  have hST : S ≠ T := by
    intro h
    rw [h, hTtrans] at hStrans
    cases hStrans
  have hs0 : s0 ≠ T := by
    intro h
    rw [h, hfromT] at hfirst
    simp only [Option.some.injEq, Prod.mk.injEq] at hfirst
    rw [← hfirst.1] at hland
    exact hST hland
  rcases make_transition_shape _ ev d sm1 log1 hfirst with
    ⟨h1, _⟩ | ⟨j, e, pre, b1, _, b3, b4, b6, b7⟩
  · rw [h1] at hland
    exact absurd hland hs0
  · have hland2 : (if e.nextState ≠ sm.guardState then e.nextState else s0) = T := by
      rw [b7] at hland
      exact hland
    have hboth : e.nextState ≠ sm.guardState ∧ e.nextState = T := by
      by_cases hn : e.nextState = sm.guardState
      · rw [if_neg (not_not.mpr hn)] at hland2
        exact absurd hland2 hs0
      · rw [if_pos hn] at hland2
        exact ⟨hn, hland2⟩
    obtain ⟨hng, hnext⟩ := hboth
    have hsm1 : sm1 = { sm with currentState := T } := by
      rw [b7]
      show ({ sm with currentState :=
        (if e.nextState ≠ sm.guardState then e.nextState else s0) } : StateMachine D A) = _
      rw [if_pos hng, hnext]
    refine ⟨j, e, pre, b1, hnext, b3, b4, b6, ?_⟩
    intro fuel hfuel
    obtain ⟨fuel, rfl⟩ : ∃ k, fuel = k + 1 := ⟨fuel - 1, by omega⟩
    refine ⟨log1 ++ fire_steps sm.guardState iT eT ev d, ?_, rfl, ?_, ?_⟩
    · simp only [sm_stateTransition, hfirst, hsm1, trans_loop]
      rw [show is_trans_state ({ sm with currentState := T } : StateMachine D A) T =
        some true from hTtrans]
      simp only [hfromT]
      exact trans_loop_done ev d fuel _ _ hStrans
    · rw [actions_append, b6, (fired_log sm.guardState j e ev d pre b4).1, actions_fire_steps]
    · rw [evals_append, b6, evals_append, evals_fire_steps, evals_fire_steps,
        List.append_assoc]
      rfl

/-- Witness of C5, Scenario D: the call from `STATE_RUNNING` on `EVENT_STOP` lands on the
transitory `STATE_CLEANUP` and returns in `STATE_IDLE`, `action_reset` and then
`action_cleanup` having run once each. -/
theorem transitory_fall_through_witness :
    sm_init true machineD = some (UI_STATE_MACHINE_OK, readyD) ∧
    is_trans_state readyD STATE_CLEANUP = some true ∧
    ∃ log, sm_stateTransition 1 readyD EVENT_STOP () =
        Outcome.returned ({ readyD with currentState := STATE_IDLE }, log) ∧
      actions log = [(1, Act.action_reset, ()), (2, Act.action_cleanup, ())] := by
  refine ⟨rfl, rfl, ?_⟩
  obtain ⟨j, e, pre, _, _, _, _, _, hall⟩ := transitory_fall_through machineD readyD
    wellFormed_tableD rfl STATE_CLEANUP STATE_IDLE 2 _ (IsRule.of_noZero rfl (by decide)) rfl
    (no_state_before_of_check tableD STATE_CLEANUP 2 (by decide))
    ⟨event_true, rfl, fun _ _ => rfl⟩ rfl (by decide) rfl rfl
    STATE_RUNNING EVENT_STOP () { readyD with currentState := STATE_CLEANUP }
    [Step.eval 1 EVENT_STOP () true, Step.act 1 Act.action_reset (),
      Step.assign STATE_CLEANUP] rfl rfl
  obtain ⟨log, h1, h2, _⟩ := hall 1 le_rfl
  refine ⟨log, h1, ?_⟩
  rw [h2]
  rfl

/-- C6 (a rule into the guard state does not move the machine).  For every table and every
`make_transition` in which the row that fires, in either phase, has `nextState` equal to
`guardState`: the machine after the call is the machine before it, nothing is stored to
`currentState`, and the row's action is still called once with the payload (no call when
the pointer is `NULL`). -/
theorem rule_into_guard {D A : Type} (sm : StateMachine D A) (ev : Int) (d : D)
    (sm2 : StateMachine D A) (log : List (Step D A))
    (h : make_transition sm ev d = some (sm2, log))
    (k : Nat) (ev2 : Int) (d2 : D) (hfired : (k, ev2, d2, true) ∈ evals log)
    (e : StateTableEntry D A) (he : sm.stateTable[k]? = some e)
    (hnext : e.nextState = sm.guardState) :
    sm2.currentState = sm.currentState ∧ sm2 = sm ∧ assigns log = [] ∧
      actions log =
        (match e.action with
         | some a => [(k, a, d)]
         | none => []) := by
  rcases make_transition_shape sm ev d sm2 log h with
    ⟨_, hmiss⟩ | ⟨k2, e2, pre, b1, _, _, b4, b6, b7⟩
  · have := hmiss.evals_false _ hfired
    cases this
  · obtain ⟨hact, honly, _, hasg⟩ := fired_log sm.guardState k2 e2 ev d pre b4
    rw [b6] at hfired
    have hk : k = k2 := by
      have := honly _ hfired rfl
      exact congrArg Prod.fst this
    subst hk
    have hee : e2 = e := by
      rw [b1] at he
      exact Option.some.inj he
    subst hee
    have hsm : sm2 = sm := by
      rw [b7, firedState, hnext]
      simp only [ne_eq, not_true_eq_false, if_false]
    refine ⟨by rw [hsm], hsm, ?_, ?_⟩
    · rw [b6, hasg, hnext]
      simp
    · rw [b6, hact]

/-- Witness of C6: the only rule of `tableG` leads into `STATE_GUARD`; `EVENT_START` from
`STATE_IDLE` runs `action_log` once and the machine stays in `STATE_IDLE`. -/
theorem rule_into_guard_witness :
    make_transition readyG EVENT_START () =
      some (readyG, [Step.eval 0 EVENT_START () true, Step.act 0 Act.action_log ()]) ∧
    readyG.currentState = STATE_IDLE ∧
    actions [Step.eval 0 EVENT_START () true, Step.act 0 Act.action_log ()] =
      [(0, Act.action_log, ())] := by
  have h := rule_into_guard readyG EVENT_START () readyG
    [Step.eval 0 EVENT_START () true, Step.act 0 Act.action_log ()] rfl 0 EVENT_START ()
    (by simp [evals]) _ rfl rfl
  exact ⟨rfl, rfl, h.2.2.2⟩

/-- C7 (states absent from the index are resolved by the guard group only).  For every
machine initialised by `sm_init` (on any table) whose index entry for the current state `s`
is `-1`, and every `(event, payload)`: `make_transition` returns what the scan of the
`guardState` group alone returns (same machine, same steps), and every row whose predicate
or action it calls is a row with state `guardState`. -/
theorem absent_state_guard_only {D A : Type} (sm0 sm : StateMachine D A)
    (hinit : sm_init true sm0 = some (UI_STATE_MACHINE_OK, sm))
    (s ev : Int) (d : D) (hm : List Int) (hmap : sm.stateTable_hashMap = some hm)
    (habs : readAt hm s = some (-1)) :
    ∃ sm2 log, make_transition { sm with currentState := s } ev d = some (sm2, log) ∧
      guard_transition { sm with currentState := s } hm ev d = some (sm2, log) ∧
      TouchedIn sm.stateTable sm.guardState log := by
  obtain ⟨hm2, hsm, hlen, hsound⟩ := sm_init_sound sm0 sm _ hinit
  have hhm : hm2 = hm := by
    rw [hsm] at hmap
    exact Option.some.inj hmap
  subst hhm
  have hsm_g : sm.guardState = sm0.guardState := by rw [hsm]
  have hsm_t : sm.stateTable = sm0.stateTable := by rw [hsm]
  obtain ⟨hs0, hslt⟩ := readAt_nonneg habs
  have hg : 0 ≤ sm.guardState := by
    rw [hlen] at hslt
    by_contra hneg
    have : (sm0.guardState + 1).toNat = 0 := Int.toNat_eq_zero.mpr (by omega)
    omega
  obtain ⟨⟨sm2, log⟩, hgd⟩ := guard_transition_total { sm with currentState := s } hm2
    (by rw [hlen, hsm_g]) (by rw [hsm_t]; exact hsound) hg ev d
  refine ⟨sm2, log, ?_, hgd, ?_⟩
  · have hmk : make_transition { sm with currentState := s } ev d =
        guard_transition { sm with currentState := s } hm2 ev d := by
      unfold make_transition
      rw [show ({ sm with currentState := s } : StateMachine D A).stateTable_hashMap =
        some hm2 from hmap]
      simp only [habs, if_true]
    rw [hmk, hgd]
  · rcases guard_transition_shape _ hm2 ev d sm2 log hgd with
      ⟨_, _, a3⟩ | ⟨k, e, pre, b1, b2, b3, _, b5, b6, _⟩
    · exact a3
    · rw [b6]
      obtain ⟨f, hf, _⟩ := b3
      exact TouchedIn.concat b5 (TouchedIn.fire _ k e ev d b1 b2 (by rw [hf]; simp))

/-- Witness of C7, Scenario C: `STATE_RUNNING` has no rule, its index entry is `-1`, and
`EVENT_STOP` is resolved by the guard rule, row 1. -/
theorem absent_state_guard_only_witness :
    sm_init true machineC = some (UI_STATE_MACHINE_OK, readyC) ∧
    readAt [-1, 0, -1, -1, 1] STATE_RUNNING = some (-1) ∧
    ∃ sm2 log, make_transition readyC EVENT_STOP () = some (sm2, log) ∧
      guard_transition readyC [-1, 0, -1, -1, 1] EVENT_STOP () = some (sm2, log) ∧
      TouchedIn tableC STATE_GUARD log :=
  ⟨rfl, rfl, absent_state_guard_only machineC readyC rfl STATE_RUNNING EVENT_STOP ()
    [-1, 0, -1, -1, 1] rfl rfl⟩

/-- C8 (index construction).  On a table that has a terminating row, whose rules have
their states in `1..guardState` and are grouped contiguously by state, `sm_init` with a
successful allocation returns `UI_STATE_MACHINE_OK` and leaves an index of
`guardState + 1` entries in which, for every `s` in `0..guardState`, entry `s` is the
offset of the first rule with state `s` when there is one and `-1` when there is none; in
particular entry 0 is `-1`. -/
theorem sm_init_index {D A : Type} (sm : StateMachine D A)
    (hwf : WellFormed sm.stateTable sm.guardState) :
    ∃ hm, sm_init true sm = some (UI_STATE_MACHINE_OK, { sm with stateTable_hashMap := some hm }) ∧
      hm.length = (sm.guardState + 1).toNat ∧
      (0 ≤ sm.guardState → (hm.length : Int) = sm.guardState + 1) ∧
      (0 ≤ sm.guardState → readAt hm 0 = some (-1)) ∧
      ∀ s : Int, 0 ≤ s → s ≤ sm.guardState →
        (∀ i e, IsRule sm.stateTable i e → e.state = s →
          (∀ j r, j < i → IsRule sm.stateTable j r → r.state ≠ s) →
          readAt hm s = some (i : Int)) ∧
        ((∀ i e, IsRule sm.stateTable i e → e.state ≠ s) → readAt hm s = some (-1)) := by
  obtain ⟨hm, n, hscan, hlen, ⟨z, hz, hz0⟩, hrules, _, hidx⟩ :=
    init_scan_of_wellFormed sm.stateTable sm.guardState hwf
  have hrule : ∀ i e, IsRule sm.stateTable i e ↔ i < n ∧ sm.stateTable[i]? = some e :=
    SM.isRule_iff hz hz0 hrules
  have hmain : ∀ s : Int, 0 ≤ s → s ≤ sm.guardState →
      (∀ i e, IsRule sm.stateTable i e → e.state = s →
        (∀ j r, j < i → IsRule sm.stateTable j r → r.state ≠ s) →
        readAt hm s = some (i : Int)) ∧
      ((∀ i e, IsRule sm.stateTable i e → e.state ≠ s) → readAt hm s = some (-1)) := by
    intro s hs0 hsg
    constructor
    · intro i e hi hes hfirst
      obtain ⟨hin, hie⟩ := (hrule i e).mp hi
      rcases hidx s hs0 hsg with ⟨_, hnone⟩ | ⟨i2, hi2, hrd, ⟨e2, he2, he2s⟩, hfirst2⟩
      · exact absurd hes (hnone i e hin hie)
      · have h1 : ¬ i2 < i := fun hlt =>
          hfirst i2 e2 hlt ((hrule i2 e2).mpr ⟨hi2, he2⟩) he2s
        have h2 : ¬ i < i2 := fun hlt => hfirst2 i e hlt hie hes
        have : i2 = i := by omega
        rw [← this]
        exact hrd
    · intro hnone
      rcases hidx s hs0 hsg with ⟨hrd, _⟩ | ⟨i2, hi2, _, ⟨e2, he2, he2s⟩, _⟩
      · exact hrd
      · exact absurd he2s (hnone i2 e2 ((hrule i2 e2).mpr ⟨hi2, he2⟩))
  refine ⟨hm, ?_, hlen, ?_, ?_, hmain⟩
  · simp [sm_init, hscan]
  · intro hg
    rw [hlen, Int.toNat_of_nonneg (by omega)]
  · intro hg
    exact (hmain 0 le_rfl hg).2 (fun i e hi => hi.2 i e le_rfl hi.1)

/-- Witness of C8 on the table of Scenario A: the entry of `STATE_IDLE` is offset 0. -/
theorem sm_init_index_witness :
    WellFormed machineA.stateTable machineA.guardState ∧
    ∃ hm, sm_init true machineA =
        some (UI_STATE_MACHINE_OK, { machineA with stateTable_hashMap := some hm }) ∧
      (hm.length : Int) = STATE_GUARD + 1 ∧ readAt hm STATE_IDLE = some 0 ∧
      readAt hm STATE_RUNNING = some (-1) := by
  refine ⟨wellFormed_tableA, ?_⟩
  obtain ⟨hm, h1, _, h3, _, h5⟩ := sm_init_index machineA wellFormed_tableA
  refine ⟨hm, h1, h3 (by decide), ?_, ?_⟩
  · exact (h5 STATE_IDLE (by decide) (by decide)).1 0 _
      (IsRule.of_noZero rfl (by decide)) rfl (fun j r hj => absurd hj (Nat.not_lt_zero j))
  · refine (h5 STATE_RUNNING (by decide) (by decide)).2 ?_
    intro i e hi
    have hlt : i < 1 := hi.lt_of_zero (n := 1) (by decide)
    have hi0 : i = 0 := by omega
    subst hi0
    have he := hi.1
    simp only [machineA, tableA, List.getElem?_cons_zero, Option.some.injEq] at he
    subst he
    decide

/-- C9 (the guard state is never a resident state).  For every table, every
`(event, payload)` and every machine whose `currentState` is not `guardState`: after
`make_transition`, `currentState` is still not `guardState`, and the same holds for the
machine in which a call of `sm_stateTransition` returns, or is still running when the bound
on its loop is reached. -/
theorem guard_never_resident {D A : Type} (sm : StateMachine D A) (ev : Int) (d : D)
    (hcur : sm.currentState ≠ sm.guardState) :
    (∀ sm2 log, make_transition sm ev d = some (sm2, log) →
      sm2.guardState = sm.guardState ∧ sm2.currentState ≠ sm.guardState) ∧
    (∀ fuel sm2 log,
      (sm_stateTransition fuel sm ev d = Outcome.returned (sm2, log) ∨
        sm_stateTransition fuel sm ev d = Outcome.running (sm2, log)) →
      sm2.guardState = sm.guardState ∧ sm2.currentState ≠ sm.guardState) := by
  have hstep : ∀ (m m2 : StateMachine D A) (log : List (Step D A)),
      (m.guardState = sm.guardState ∧ m.currentState ≠ sm.guardState) →
      make_transition m ev d = some (m2, log) →
      (m2.guardState = sm.guardState ∧ m2.currentState ≠ sm.guardState) := by
    intro m m2 log hP hmk
    rcases make_transition_shape m ev d m2 log hmk with
      ⟨h1, _⟩ | ⟨k, e, pre, _, _, _, _, _, b7⟩
    · rw [h1]; exact hP
    · rw [b7]
      refine ⟨hP.1, ?_⟩
      show firedState m.guardState m.currentState e ≠ sm.guardState
      unfold firedState
      by_cases hn : e.nextState = m.guardState
      · simp only [hn, ne_eq, not_true_eq_false, if_false]
        exact hP.2
      · simp only [ne_eq, hn, not_false_eq_true, if_true]
        rw [← hP.1]
        exact hn
  refine ⟨fun sm2 log h => hstep sm sm2 log ⟨rfl, hcur⟩ h, ?_⟩
  intro fuel sm2 log h
  unfold sm_stateTransition at h
  cases hmk : make_transition sm ev d with
  | none => simp [hmk] at h
  | some r =>
    obtain ⟨sm1, log1⟩ := r
    simp only [hmk] at h
    exact trans_loop_invariant ev d _ hstep fuel sm1 log1 sm2 log
      (hstep sm sm1 log1 ⟨rfl, hcur⟩ hmk) h

/-- Witness of C9: on `tableG`, whose rule names `STATE_GUARD` as its next state, the
machine is in `STATE_IDLE` after `make_transition` and after `sm_stateTransition`. -/
theorem guard_never_resident_witness :
    readyG.currentState ≠ readyG.guardState ∧
    make_transition readyG EVENT_START () =
      some (readyG, [Step.eval 0 EVENT_START () true, Step.act 0 Act.action_log ()]) ∧
    sm_stateTransition 0 readyG EVENT_START () =
      Outcome.returned (readyG, [Step.eval 0 EVENT_START () true,
        Step.act 0 Act.action_log ()]) ∧
    readyG.currentState ≠ STATE_GUARD := by
  have h := guard_never_resident readyG EVENT_START () (by decide)
  exact ⟨by decide, rfl, rfl, (h.2 0 readyG _ (Or.inl rfl)).2⟩

/-- C10 (a rule without a predicate never fires and does not stop the scan).  For every
table, every row `k` whose `event_func` is `NULL` and every `(event, payload)`:
`make_transition` never calls the predicate or the action of row `k`; on the table in which
row `k`'s `event_func` is replaced by a predicate that always returns `FALSE`,
`make_transition` gives the same outcome (the same fault, or the same `currentState` and
the same steps apart from the calls of the replaced predicate); and `sm_init` builds the
same index on both tables. -/
theorem null_predicate_as_false {D A : Type} (sm : StateMachine D A) (k : Nat)
    (e : StateTableEntry D A) (he : sm.stateTable[k]? = some e) (hnull : e.event_func = none)
    (ev : Int) (d : D) :
    (∀ sm2 log, make_transition sm ev d = some (sm2, log) → k ∉ touched log) ∧
    (make_transition { sm with stateTable := sm.stateTable.set k (withFalsePredicate e) }
        ev d).map
        (fun r => (({ r.1 with stateTable := sm.stateTable } : StateMachine D A),
          dropEvals k r.2)) =
      make_transition sm ev d ∧
    ∀ allocOk,
      (sm_init allocOk
          { sm with stateTable := sm.stateTable.set k (withFalsePredicate e) }).map
          (fun r => (r.1, ({ r.2 with stateTable := sm.stateTable } : StateMachine D A))) =
        sm_init allocOk sm := by
  refine ⟨?_, make_transition_patch sm k e he hnull ev d, ?_⟩
  · intro sm2 log h hk
    obtain ⟨x, hx, _, hxf⟩ := make_transition_touched sm ev d sm2 log h k hk
    rw [he] at hx
    rw [← Option.some.inj hx] at hxf
    exact hxf hnull
  · intro allocOk
    unfold sm_init
    cases allocOk with
    | false => rfl
    | true =>
      simp only [if_true]
      rw [sm_init_scan_patch e sm.stateTable k 0 0 _ he]
      cases sm_init_scan sm.stateTable 0 0 (List.replicate (sm.guardState + 1).toNat (-1)) with
      | none => rfl
      | some hm => rfl

/-- Witness of C10: row 0 of `tableN` has no predicate; `EVENT_START` from `STATE_IDLE`
skips it and fires row 1, as it does when row 0 has a predicate that always returns
`FALSE`. -/
theorem null_predicate_as_false_witness :
    readyN.stateTable[0]? = some rowN ∧ rowN.event_func = none ∧
    make_transition readyN EVENT_START () =
      some ({ readyN with currentState := STATE_RUNNING },
        [Step.eval 1 EVENT_START () true, Step.act 1 Act.action_reset (),
         Step.assign STATE_RUNNING]) ∧
    (make_transition
        { readyN with stateTable := (readyN.stateTable.set 0 (withFalsePredicate rowN)) }
        EVENT_START ()).map
        (fun r => (({ r.1 with stateTable := readyN.stateTable } : StateMachine Unit Act),
          dropEvals 0 r.2)) =
      make_transition readyN EVENT_START () :=
  ⟨rfl, rfl, rfl, (null_predicate_as_false readyN 0 rowN rfl rfl EVENT_START ()).2.1⟩

/-- C11 (teardown).  What `sm_remove` does on each state of the index: with a `NULL`
pointer (before `sm_init`) it calls `free` zero times and changes nothing; on a built
index it calls `free` once and leaves the pointer field as it was, not `NULL`; called again,
it therefore calls `free` on the block that is already released, instead of doing nothing.
The machine record is never modified. -/
theorem sm_remove_second_call {D A : Type} (sm : StateMachine D A) (hm : List Int) :
    sm_remove { sm with stateTable_hashMap := none } false =
      some ({ sm with stateTable_hashMap := none }, false, 0) ∧
    sm_remove { sm with stateTable_hashMap := some hm } false =
      some ({ sm with stateTable_hashMap := some hm }, true, 1) ∧
    sm_remove { sm with stateTable_hashMap := some hm } true = none ∧
    ∀ (m m2 : StateMachine D A) (rel rel2 : Bool) (n : Nat),
      sm_remove m rel = some (m2, rel2, n) → m2 = m :=
  ⟨rfl, rfl, rfl, by
    intro m m2 rel rel2 n h
    unfold sm_remove at h
    cases hp : m.stateTable_hashMap with
    | none =>
      rw [hp] at h
      simp only [Option.some.injEq, Prod.mk.injEq] at h
      exact h.1.symm
    | some hm2 =>
      rw [hp] at h
      cases rel with
      | true => simp at h
      | false =>
        simp only [Bool.false_eq_true, if_false, Option.some.injEq, Prod.mk.injEq] at h
        exact h.1.symm⟩

/-- C12 (result of `sm_init`).  When the allocation fails, `sm_init` returns
`UI_STATE_MACHINE_ERROR` with the index pointer `NULL`, whatever the table holds (the table
is not read).  Whenever `sm_init` returns, it returns `UI_STATE_MACHINE_ERROR` exactly when
the allocation failed and `UI_STATE_MACHINE_OK` exactly when it succeeded, and
`currentState`, `guardState`, the table and `transStates` are unchanged.  With a successful
allocation it returns `UI_STATE_MACHINE_OK` on every table that has a terminating row
before which the states lie in `0..guardState`, whatever else the rows hold. -/
theorem sm_init_result {D A : Type} (sm : StateMachine D A) :
    sm_init false sm =
      some (UI_STATE_MACHINE_ERROR, { sm with stateTable_hashMap := none }) ∧
    (∀ (allocOk : Bool) (r : Int) (sm2 : StateMachine D A),
      sm_init allocOk sm = some (r, sm2) →
      (r = UI_STATE_MACHINE_ERROR ↔ allocOk = false) ∧
      (r = UI_STATE_MACHINE_OK ↔ allocOk = true) ∧
      (allocOk = false → sm2.stateTable_hashMap = none) ∧
      sm2.currentState = sm.currentState ∧ sm2.guardState = sm.guardState ∧
      sm2.stateTable = sm.stateTable ∧ sm2.transStates = sm.transStates) ∧
    (∀ (n : Nat) (z : StateTableEntry D A), sm.stateTable[n]? = some z → z.state = 0 →
      (∀ j r, j < n → sm.stateTable[j]? = some r → 0 ≤ r.state ∧ r.state ≤ sm.guardState) →
      ∃ hm, sm_init true sm =
        some (UI_STATE_MACHINE_OK, { sm with stateTable_hashMap := some hm })) := by
  refine ⟨rfl, ?_, ?_⟩
  · intro allocOk r sm2 h
    cases allocOk with
    | false =>
      simp only [sm_init, Bool.false_eq_true, if_false, Option.some.injEq,
        Prod.mk.injEq] at h
      obtain ⟨h1, h2⟩ := h
      subst h1 h2
      exact ⟨by simp, by simp [UI_STATE_MACHINE_ERROR, UI_STATE_MACHINE_OK], fun _ => rfl,
        rfl, rfl, rfl, rfl⟩
    | true =>
      simp only [sm_init, if_true] at h
      cases hscan : sm_init_scan sm.stateTable 0 0
          (List.replicate (sm.guardState + 1).toNat (-1)) with
      | none => simp [hscan] at h
      | some hm =>
        simp only [hscan, Option.some.injEq, Prod.mk.injEq] at h
        obtain ⟨h1, h2⟩ := h
        subst h1 h2
        exact ⟨by simp [UI_STATE_MACHINE_ERROR, UI_STATE_MACHINE_OK], by simp,
          (fun h => by cases h), rfl, rfl, rfl, rfl⟩
  · intro n z hz hz0 hrange
    have hrange2 : ∀ j r, 0 ≤ j → j < 0 + n → sm.stateTable[j]? = some r →
        0 ≤ r.state ∧ r.state < (((sm.guardState + 1).toNat : Nat) : Int) := by
      intro j r _ hj hr
      obtain ⟨h1, h2⟩ := hrange j r (by omega) hr
      refine ⟨h1, ?_⟩
      rw [Int.toNat_of_nonneg (by omega)]
      omega
    obtain ⟨hm, hscan⟩ := sm_init_scan_returns sm.stateTable (sm.guardState + 1).toNat n 0 0
      (List.replicate (sm.guardState + 1).toNat (-1)) z (by simpa using hz) hz0 (by simp)
      hrange2
    refine ⟨hm, ?_⟩
    simp only [sm_init, if_true]
    rw [show sm_init_scan sm.stateTable 0 0 (List.replicate (sm.guardState + 1).toNat (-1)) =
      some hm by simpa using hscan]

/-- Witness of C12 on Scenario A: with a failed allocation `sm_init` returns
`UI_STATE_MACHINE_ERROR` and a `NULL` index, with a successful one it returns
`UI_STATE_MACHINE_OK`. -/
theorem sm_init_result_witness :
    sm_init false machineA =
      some (UI_STATE_MACHINE_ERROR, { machineA with stateTable_hashMap := none }) ∧
    ∃ hm, sm_init true machineA =
      some (UI_STATE_MACHINE_OK, { machineA with stateTable_hashMap := some hm }) := by
  refine ⟨(sm_init_result machineA).1, (sm_init_result machineA).2.2 1 lastRow rfl rfl ?_⟩
  intro j r hj hr
  have hj0 : j = 0 := by omega
  subst hj0
  simp only [machineA, tableA, List.getElem?_cons_zero, Option.some.injEq] at hr
  rw [← hr]
  decide

/-- C13 (no transitory states: a transition is one resolve).  For every machine
initialised by `sm_init` whose `transStates` pointer is `NULL` or whose first `transStates`
entry is 0, every current state in `0..guardState` and every `(event, payload)`:
`make_transition` returns, and `sm_stateTransition` returns, whatever the bound on its
loop, with the machine and the steps of that single `make_transition`. -/
theorem no_transitory_single_resolve {D A : Type} (sm0 sm : StateMachine D A)
    (hinit : sm_init true sm0 = some (UI_STATE_MACHINE_OK, sm))
    (hnt : sm.transStates = none ∨ ∃ ts, sm.transStates = some (0 :: ts))
    (s ev : Int) (d : D) (hs0 : 0 ≤ s) (hsg : s ≤ sm.guardState) (fuel : Nat) :
    ∃ sm2 log, make_transition { sm with currentState := s } ev d = some (sm2, log) ∧
      sm_stateTransition fuel { sm with currentState := s } ev d =
        Outcome.returned (sm2, log) := by
  obtain ⟨hm, hsm, hlen, hsound⟩ := sm_init_sound sm0 sm _ hinit
  have hmap : sm.stateTable_hashMap = some hm := by rw [hsm]
  have hg : sm.guardState = sm0.guardState := by rw [hsm]
  have ht : sm.stateTable = sm0.stateTable := by rw [hsm]
  obtain ⟨⟨sm2, log⟩, hmk⟩ := make_transition_total { sm with currentState := s } hm hmap
    (by rw [hlen, hg]) (by rw [ht]; exact hsound) hs0 hsg ev d
  refine ⟨sm2, log, hmk, ?_⟩
  have hframe := make_transition_frame _ ev d sm2 log hmk
  have htrans : is_trans_state sm2 sm2.currentState = some false := by
    rw [hframe]
    unfold is_trans_state
    rcases hnt with hnone | ⟨ts, hts⟩
    · simp only [hnone]
    · simp only [hts, is_trans_scan, if_true]
  simp only [sm_stateTransition, hmk]
  exact trans_loop_done ev d fuel sm2 log htrans

/-- Witness of C13, Scenario A (its `transStates` pointer is `NULL`): the call on
`EVENT_START` is the single dispatch into `STATE_RUNNING`. -/
theorem no_transitory_single_resolve_witness :
    sm_init true machineA = some (UI_STATE_MACHINE_OK, readyA) ∧
    readyA.transStates = none ∧
    sm_stateTransition 7 readyA EVENT_START () =
      Outcome.returned ({ readyA with currentState := STATE_RUNNING },
        [Step.eval 0 EVENT_START () true, Step.act 0 Act.action_log (),
         Step.assign STATE_RUNNING]) := by
  obtain ⟨sm2, log, h1, h2⟩ := no_transitory_single_resolve machineA readyA rfl (Or.inl rfl)
    STATE_IDLE EVENT_START () (by decide) (by decide) 7
  have hmk : make_transition { readyA with currentState := STATE_IDLE } EVENT_START () =
      some ({ readyA with currentState := STATE_RUNNING },
        [Step.eval 0 EVENT_START () true, Step.act 0 Act.action_log (),
         Step.assign STATE_RUNNING]) := rfl
  rw [hmk, Option.some.injEq] at h1
  rw [← h1] at h2
  exact ⟨rfl, rfl, h2⟩

/-- C14 (the re-dispatch loop as iteration).  Write `resolves n` for `n` successive
`make_transition` calls on the same `(event, payload)`.  A call of `sm_stateTransition`
returns machine `sm2` with steps `log` exactly when, for some `n ≥ 1` within the bound of
the loop, `resolves n` gives `sm2` and `log`, `sm2.currentState` is not transitory, and
after each smaller number `m ≥ 1` of resolves the current state is transitory: the call
performs the resolves one after the other, the first one always, and stops at the least
such `n`.  With a `transStates` array that is `NULL` or 0-terminated, the call returns for
some bound if and only if some `n ≥ 1` resolves end in a state that is not transitory. -/
theorem redispatch_iteration {D A : Type} (sm : StateMachine D A) (ev : Int) (d : D)
    (htr : TransTerminated sm) :
    (∀ (fuel : Nat) (sm2 : StateMachine D A) (log : List (Step D A)),
      sm_stateTransition fuel sm ev d = Outcome.returned (sm2, log) ↔
        ∃ n, 1 ≤ n ∧ n ≤ fuel + 1 ∧ resolves ev d n sm = some (sm2, log) ∧
          is_trans_state sm2 sm2.currentState = some false ∧
          ∀ m, 1 ≤ m → m < n → ∃ smm lm, resolves ev d m sm = some (smm, lm) ∧
            is_trans_state smm smm.currentState = some true) ∧
    ((∃ fuel sm2 log, sm_stateTransition fuel sm ev d = Outcome.returned (sm2, log)) ↔
      ∃ n smn ln, 1 ≤ n ∧ resolves ev d n sm = some (smn, ln) ∧
        is_trans_state smn smn.currentState = some false) := by
  have hA : ∀ (fuel : Nat) (sm2 : StateMachine D A) (log : List (Step D A)),
      sm_stateTransition fuel sm ev d = Outcome.returned (sm2, log) ↔
        ∃ n, 1 ≤ n ∧ n ≤ fuel + 1 ∧ resolves ev d n sm = some (sm2, log) ∧
          is_trans_state sm2 sm2.currentState = some false ∧
          ∀ m, 1 ≤ m → m < n → ∃ smm lm, resolves ev d m sm = some (smm, lm) ∧
            is_trans_state smm smm.currentState = some true := by
    intro fuel sm2 log
    constructor
    · intro h
      unfold sm_stateTransition at h
      cases hmk : make_transition sm ev d with
      | none => simp [hmk] at h
      | some r =>
        obtain ⟨sm1, l1⟩ := r
        simp only [hmk] at h
        obtain ⟨n, l, hn, hres, hlog, htf, hbefore⟩ :=
          (trans_loop_returned_iff ev d fuel sm1 l1 sm2 log).mp h
        refine ⟨n + 1, by omega, by omega, ?_, htf, ?_⟩
        · rw [hlog]
          exact (resolves_succ ev d n sm sm2 (l1 ++ l)).mpr ⟨sm1, l1, l, hmk, hres, rfl⟩
        · intro m hm1 hmn
          obtain ⟨m, rfl⟩ : ∃ k, m = k + 1 := ⟨m - 1, by omega⟩
          obtain ⟨smm, lm, h1, h2⟩ := hbefore m (by omega)
          exact ⟨smm, l1 ++ lm,
            (resolves_succ ev d m sm smm (l1 ++ lm)).mpr ⟨sm1, l1, lm, hmk, h1, rfl⟩, h2⟩
    · rintro ⟨n, hn1, hn, hres, htf, hbefore⟩
      obtain ⟨n, rfl⟩ : ∃ k, n = k + 1 := ⟨n - 1, by omega⟩
      obtain ⟨sm1, l1, l2, hmk, hrec, hl⟩ := (resolves_succ ev d n sm sm2 log).mp hres
      simp only [sm_stateTransition, hmk]
      refine (trans_loop_returned_iff ev d fuel sm1 l1 sm2 log).mpr
        ⟨n, l2, by omega, hrec, hl, htf, ?_⟩
      intro m hm
      obtain ⟨smm, lm, h1, h2⟩ := hbefore (m + 1) (by omega) (by omega)
      obtain ⟨sm5, l5, l6, hmk5, hrec5, _⟩ := (resolves_succ ev d m sm smm lm).mp h1
      rw [hmk, Option.some.injEq, Prod.mk.injEq] at hmk5
      rw [← hmk5.1] at hrec5
      exact ⟨smm, l6, hrec5, h2⟩
  refine ⟨hA, ?_⟩
  constructor
  · rintro ⟨fuel, sm2, log, h⟩
    obtain ⟨n, hn1, _, hres, htf, _⟩ := (hA fuel sm2 log).mp h
    exact ⟨n, sm2, log, hn1, hres, htf⟩
  · intro hex
    classical
    have hP : ∃ n, 1 ≤ n ∧ ∃ smn ln, resolves ev d n sm = some (smn, ln) ∧
        is_trans_state smn smn.currentState = some false := by
      obtain ⟨n, smn, ln, h1, h2, h3⟩ := hex
      exact ⟨n, h1, smn, ln, h2, h3⟩
    obtain ⟨hn1, smn, ln, hres, htf⟩ := Nat.find_spec hP
    refine ⟨Nat.find hP - 1, smn, ln, (hA _ smn ln).mpr
      ⟨Nat.find hP, hn1, by omega, hres, htf, ?_⟩⟩
    intro m hm1 hmn
    obtain ⟨⟨smm, lm⟩, hm⟩ := resolves_initial ev d _ sm _ hres m (by omega)
    have hframe := resolves_frame ev d m sm smm lm hm
    have htr2 : TransTerminated smm := by
      intro ts hts
      rw [hframe] at hts
      exact htr ts hts
    obtain ⟨b, hb⟩ := is_trans_state_total smm htr2 smm.currentState
    cases b with
    | true => exact ⟨smm, lm, hm, hb⟩
    | false => exact absurd ⟨hm1, smm, lm, hm, hb⟩ (Nat.find_min hP hmn)

/-- Witness of C14, Scenario D: the call from `STATE_RUNNING` on `EVENT_STOP` returns
after exactly two resolves, the first ending in the transitory `STATE_CLEANUP`. -/
theorem redispatch_iteration_witness :
    TransTerminated readyD ∧
    sm_stateTransition 4 readyD EVENT_STOP () =
      Outcome.returned ({ readyD with currentState := STATE_IDLE },
        [Step.eval 1 EVENT_STOP () true, Step.act 1 Act.action_reset (),
         Step.assign STATE_CLEANUP, Step.eval 2 EVENT_STOP () true,
         Step.act 2 Act.action_cleanup (), Step.assign STATE_IDLE]) ∧
    ∃ n, 1 ≤ n ∧ n ≤ 4 + 1 ∧
      resolves EVENT_STOP () n readyD = some ({ readyD with currentState := STATE_IDLE },
        [Step.eval 1 EVENT_STOP () true, Step.act 1 Act.action_reset (),
         Step.assign STATE_CLEANUP, Step.eval 2 EVENT_STOP () true,
         Step.act 2 Act.action_cleanup (), Step.assign STATE_IDLE]) := by
  have htr : TransTerminated readyD := by
    intro ts hts
    simp only [readyD, Option.some.injEq] at hts
    rw [← hts]
    decide
  obtain ⟨n, h1, h2, h3, _⟩ :=
    ((redispatch_iteration readyD EVENT_STOP () htr).1 4 _ _).mp rfl
  exact ⟨htr, rfl, n, h1, h2, h3⟩

/-- C15 (at most one rule per resolve, action before state change).  For every table and
every `make_transition` call: at most one action is called and at most one value is stored
to `currentState`; every action call is made while `currentState` still has the value it
had before the call of `make_transition`, and the machine ends in the state the steps lead
to; and when the row that fires has the state the machine was in, every row whose predicate
or action was called has that state, so that no row of the `guardState` group is touched
when the machine was not in `guardState`. -/
theorem one_rule_per_resolve {D A : Type} (sm : StateMachine D A) (ev : Int) (d : D)
    (sm2 : StateMachine D A) (log : List (Step D A))
    (h : make_transition sm ev d = some (sm2, log)) :
    (actions log).length ≤ 1 ∧ (assigns log).length ≤ 1 ∧
    actionStates sm.currentState log =
      (actions log).map (fun p => (p.1, p.2.1, p.2.2, sm.currentState)) ∧
    sm2.currentState = stateAfter sm.currentState log ∧
    ∀ (k : Nat) (e : StateTableEntry D A), (k, ev, d, true) ∈ evals log →
      sm.stateTable[k]? = some e → e.state = sm.currentState →
      TouchedIn sm.stateTable sm.currentState log ∧
      (sm.currentState ≠ sm.guardState →
        ∀ r ∈ touched log, ∀ x, sm.stateTable[r]? = some x → x.state ≠ sm.guardState) := by
  have hfirst : (actions log).length ≤ 1 ∧ (assigns log).length ≤ 1 ∧
      actionStates sm.currentState log =
        (actions log).map (fun p => (p.1, p.2.1, p.2.2, sm.currentState)) ∧
      sm2.currentState = stateAfter sm.currentState log := by
    rcases make_transition_shape sm ev d sm2 log h with
      ⟨h1, hmiss⟩ | ⟨k, e, pre, _, _, _, b4, b6, b7⟩
    · have e1 := actionStates_misses sm.currentState [] log hmiss
      have e2 := stateAfter_misses sm.currentState [] log hmiss
      rw [List.append_nil] at e1 e2
      rw [hmiss.no_actions, hmiss.no_assigns, e1, e2, h1]
      exact ⟨Nat.zero_le _, Nat.zero_le _, rfl, rfl⟩
    · obtain ⟨hact, _, _, hasg⟩ := fired_log sm.guardState k e ev d pre b4
      rw [b6, hact, hasg, actionStates_misses _ _ pre b4, stateAfter_misses _ _ pre b4,
        actionStates_fire_steps, stateAfter_fire_steps, actions_fire_steps, b7]
      refine ⟨?_, ?_, rfl, rfl⟩
      · cases e.action <;> simp
      · by_cases hn : e.nextState = sm.guardState <;> simp [hn]
  refine ⟨hfirst.1, hfirst.2.1, hfirst.2.2.1, hfirst.2.2.2, ?_⟩
  intro k e hk he hes
  have hall : TouchedIn sm.stateTable sm.currentState log := by
    rcases make_transition_scopes sm ev d sm2 log h with hp | ⟨l1, l2, hl, hm1, ht1, ht2⟩
    · exact hp
    · rw [hl, evals_append, List.mem_append] at hk
      rcases hk with hk | hk
      · have := hm1.evals_false _ hk
        cases this
      · obtain ⟨x, hx, hxs, _⟩ := ht2 k (touched_of_evals k ev d true l2 hk)
        rw [he, Option.some.injEq] at hx
        have hcg : sm.currentState = sm.guardState := by
          rw [← hes, hx, hxs]
        rw [hl]
        exact TouchedIn.concat ht1 (by rw [hcg]; exact ht2)
  refine ⟨hall, ?_⟩
  intro hne r hr x hx hxg
  obtain ⟨y, hy, hys, _⟩ := hall r hr
  rw [hx, Option.some.injEq] at hy
  rw [← hy] at hys
  exact hne (hys.symm.trans hxg)

/-- Witness of C15, Scenario D: the dispatch from `STATE_RUNNING` on `EVENT_STOP` calls
`action_reset` while the machine is still in `STATE_RUNNING`, then stores
`STATE_CLEANUP`. -/
theorem one_rule_per_resolve_witness :
    make_transition readyD EVENT_STOP () =
      some ({ readyD with currentState := STATE_CLEANUP },
        [Step.eval 1 EVENT_STOP () true, Step.act 1 Act.action_reset (),
         Step.assign STATE_CLEANUP]) ∧
    actionStates STATE_RUNNING [Step.eval 1 EVENT_STOP () true,
        Step.act 1 Act.action_reset (), Step.assign STATE_CLEANUP] =
      [(1, Act.action_reset, (), STATE_RUNNING)] ∧
    TouchedIn tableD STATE_RUNNING [Step.eval 1 EVENT_STOP () true,
        Step.act 1 Act.action_reset (), Step.assign STATE_CLEANUP] := by
  have h := one_rule_per_resolve readyD EVENT_STOP ()
    { readyD with currentState := STATE_CLEANUP }
    [Step.eval 1 EVENT_STOP () true, Step.act 1 Act.action_reset (),
      Step.assign STATE_CLEANUP] rfl
  exact ⟨rfl, h.2.2.1, (h.2.2.2.2 1 _ (by simp [evals]) rfl rfl).1⟩

/-- C16 (membership in the transitory set).  `is_trans_state` returns `FALSE` when
`transStates` is `NULL`.  When the array is `pre`, then an entry 0, then any entries
`post`, with no 0 in `pre`: it returns `TRUE` exactly when the state is not 0 and occurs in
`pre`, and `FALSE` otherwise; the entries `post` have no influence, and the state 0 is never
transitory. -/
theorem is_trans_state_membership {D A : Type} (sm : StateMachine D A) (x : Int) :
    (sm.transStates = none → is_trans_state sm x = some false) ∧
    (∀ pre post : List Int, sm.transStates = some (pre ++ 0 :: post) →
      (∀ y ∈ pre, y ≠ 0) →
      (is_trans_state sm x = some true ↔ (x ≠ 0 ∧ x ∈ pre)) ∧
      (is_trans_state sm x = some false ↔ ¬ (x ≠ 0 ∧ x ∈ pre)) ∧
      is_trans_state sm x =
        is_trans_state ({ sm with transStates := some (pre ++ [0]) } : StateMachine D A) x ∧
      is_trans_state sm 0 = some false) := by
  constructor
  · intro h
    simp only [is_trans_state, h]
  · intro pre post hts hpre
    have hx : is_trans_state sm x = some (decide (x ∈ pre)) := by
      simp only [is_trans_state, hts]
      exact is_trans_scan_eq x post pre hpre
    have h0 : is_trans_state sm 0 = some (decide ((0 : Int) ∈ pre)) := by
      simp only [is_trans_state, hts]
      exact is_trans_scan_eq 0 post pre hpre
    have hmem : x ∈ pre → x ≠ 0 := fun h => hpre x h
    refine ⟨?_, ?_, ?_, ?_⟩
    · rw [hx]
      simp only [Option.some.injEq, decide_eq_true_eq]
      exact ⟨fun h => ⟨hmem h, h⟩, fun h => h.2⟩
    · rw [hx]
      simp only [Option.some.injEq, decide_eq_false_iff_not]
      exact ⟨fun h hx2 => h hx2.2, fun h hx2 => h ⟨hmem hx2, hx2⟩⟩
    · rw [hx]
      simp only [is_trans_state]
      exact (is_trans_scan_eq x [] pre hpre).symm
    · rw [h0]
      simp only [Option.some.injEq, decide_eq_false_iff_not]
      exact fun h => hpre 0 h rfl

/-- Witness of C16 on Scenario D, whose array is `STATE_CLEANUP, 0`: `STATE_CLEANUP` is
transitory, `STATE_IDLE` is not. -/
theorem is_trans_state_membership_witness :
    readyD.transStates = some ([STATE_CLEANUP] ++ 0 :: []) ∧
    is_trans_state readyD STATE_CLEANUP = some true ∧
    is_trans_state readyD STATE_IDLE = some false :=
  ⟨rfl,
    ((is_trans_state_membership readyD STATE_CLEANUP).2 [STATE_CLEANUP] [] rfl
      (by decide)).1.mpr ⟨by decide, by decide⟩,
    ((is_trans_state_membership readyD STATE_IDLE).2 [STATE_CLEANUP] [] rfl
      (by decide)).2.1.mpr (by decide)⟩

/-- C17 (safety invariant).  On a table that has a terminating row, whose rules have their
states in `1..guardState` and their `nextState` in `0..guardState`: `sm_init` makes no
access outside the index and leaves in every entry `-1` or the offset of a rule whose state
is the indexed state; from every `currentState` in `0..guardState`, `make_transition` makes
no access outside the index or the table, calls predicates and actions of rules only (rows
before the terminating row), and ends with `currentState` in `0..guardState`, equal to the
old one or to the `nextState` of a rule; every state of the loop of `sm_stateTransition`
has `currentState` in `0..guardState`, and with a `transStates` array that is `NULL` or
0-terminated the call makes no access outside a block. -/
theorem safety_invariant {D A : Type} (sm0 : StateMachine D A)
    (hterm : ∃ (n : Nat) (z : StateTableEntry D A),
      sm0.stateTable[n]? = some z ∧ z.state = 0)
    (hstate : ∀ i e, IsRule sm0.stateTable i e → 1 ≤ e.state ∧ e.state ≤ sm0.guardState)
    (hnext : ∀ i e, IsRule sm0.stateTable i e →
      0 ≤ e.nextState ∧ e.nextState ≤ sm0.guardState) :
    ∃ hm, sm_init true sm0 =
        some (UI_STATE_MACHINE_OK, { sm0 with stateTable_hashMap := some hm }) ∧
      IndexRules sm0.stateTable hm ∧
      ∀ (s ev : Int) (d : D), 0 ≤ s → s ≤ sm0.guardState →
        (∃ sm2 log, make_transition (atState sm0 hm s) ev d = some (sm2, log) ∧
          0 ≤ sm2.currentState ∧ sm2.currentState ≤ sm0.guardState ∧
          (sm2.currentState = s ∨
            ∃ k e, IsRule sm0.stateTable k e ∧ sm2.currentState = e.nextState) ∧
          ∀ r ∈ touched log, ∃ x, IsRule sm0.stateTable r x) ∧
        (∀ fuel sm2 log,
          (sm_stateTransition fuel (atState sm0 hm s) ev d = Outcome.returned (sm2, log) ∨
            sm_stateTransition fuel (atState sm0 hm s) ev d = Outcome.running (sm2, log)) →
          0 ≤ sm2.currentState ∧ sm2.currentState ≤ sm0.guardState) ∧
        (TransTerminated sm0 → ∀ fuel,
          sm_stateTransition fuel (atState sm0 hm s) ev d ≠ Outcome.fault) := by
  obtain ⟨hm, n, z, hinit, hlen, hz, hz0, hmin, hruns⟩ := sm_init_runs sm0 hterm hstate
  have hrules : IndexRules sm0.stateTable hm :=
    indexRules_of_runs sm0.stateTable hm sm0.guardState n z hlen hz hz0 hmin hruns
  have hsound : IndexSound sm0.stateTable hm :=
    indexSound_of_rules sm0.stateTable hm n z hz hz0 hrules
  refine ⟨hm, hinit, hrules, ?_⟩
  -- one dispatch from a state in range
  have hone : ∀ (s ev : Int) (d : D), 0 ≤ s → s ≤ sm0.guardState →
      ∃ sm2 log, make_transition (atState sm0 hm s) ev d = some (sm2, log) ∧
        sm2 = atState sm0 hm sm2.currentState ∧
        0 ≤ sm2.currentState ∧ sm2.currentState ≤ sm0.guardState ∧
        (sm2.currentState = s ∨
          ∃ k e, IsRule sm0.stateTable k e ∧ sm2.currentState = e.nextState) ∧
        ∀ r ∈ touched log, ∃ x, IsRule sm0.stateTable r x := by
    intro s ev d hs0 hsg
    obtain ⟨⟨sm2, log⟩, hmk⟩ := make_transition_total (atState sm0 hm s) hm rfl hlen hsound
      hs0 hsg ev d
    have htouch : ∀ r ∈ touched log, ∃ x, IsRule sm0.stateTable r x :=
      touched_rules (atState sm0 hm s) hm rfl hrules ev d sm2 log hmk
    have hframe : sm2 = atState sm0 hm sm2.currentState :=
      make_transition_frame _ ev d sm2 log hmk
    have hcore : 0 ≤ sm2.currentState ∧ sm2.currentState ≤ sm0.guardState ∧
        (sm2.currentState = s ∨
          ∃ k e, IsRule sm0.stateTable k e ∧ sm2.currentState = e.nextState) := by
      rcases make_transition_shape _ ev d sm2 log hmk with
        ⟨h1, _⟩ | ⟨k, e, pre, b1, _, _, _, b6, b7⟩
      · rw [h1]
        exact ⟨hs0, hsg, Or.inl rfl⟩
      · have hk : k ∈ touched log := by
          rw [b6, touched_append]
          exact List.mem_append_right _ (mem_touched_fire_steps _ k e ev d)
        obtain ⟨x, hx⟩ := htouch k hk
        have hb1 : sm0.stateTable[k]? = some e := b1
        have hxe : x = e := by
          have := hx.1
          rw [hb1] at this
          exact (Option.some.inj this).symm
        subst hxe
        obtain ⟨hn0, hng⟩ := hnext k x hx
        have hcur : sm2.currentState =
            (if x.nextState ≠ sm0.guardState then x.nextState else s) := by
          rw [b7]
          rfl
        rw [hcur]
        by_cases hn : x.nextState = sm0.guardState
        · rw [if_neg (not_not.mpr hn)]
          exact ⟨hs0, hsg, Or.inl rfl⟩
        · rw [if_pos hn]
          exact ⟨hn0, hng, Or.inr ⟨k, x, hx, rfl⟩⟩
    exact ⟨sm2, log, hmk, hframe, hcore.1, hcore.2.1, hcore.2.2, htouch⟩
  intro s ev d hs0 hsg
  have hstep : ∀ (m m2 : StateMachine D A) (l : List (Step D A)),
      (m = atState sm0 hm m.currentState ∧
        0 ≤ m.currentState ∧ m.currentState ≤ sm0.guardState) →
      make_transition m ev d = some (m2, l) →
      (m2 = atState sm0 hm m2.currentState ∧
        0 ≤ m2.currentState ∧ m2.currentState ≤ sm0.guardState) := by
    intro m m2 l hP hmk
    obtain ⟨m3, l3, hmk3, hf3, h0, hg, _, _⟩ := hone m.currentState ev d hP.2.1 hP.2.2
    rw [← hP.1, hmk, Option.some.injEq, Prod.mk.injEq] at hmk3
    rw [← hmk3.1] at hf3 h0 hg
    exact ⟨hf3, h0, hg⟩
  obtain ⟨sm1, log1, hmk1, hf1, h10, h1g, hor, htouch⟩ := hone s ev d hs0 hsg
  refine ⟨⟨sm1, log1, hmk1, h10, h1g, hor, htouch⟩, ?_, ?_⟩
  · intro fuel sm2 log h
    simp only [sm_stateTransition, hmk1] at h
    exact (trans_loop_invariant ev d _ hstep fuel sm1 log1 sm2 log ⟨hf1, h10, h1g⟩ h).2
  · intro htr fuel
    simp only [sm_stateTransition, hmk1]
    refine trans_loop_no_fault ev d
      (fun m => m = atState sm0 hm m.currentState ∧
        0 ≤ m.currentState ∧ m.currentState ≤ sm0.guardState) ?_ ?_ fuel sm1 log1
      ⟨hf1, h10, h1g⟩
    · intro m hP
      obtain ⟨m3, l3, hmk3, hf3, h0, hg, _, _⟩ := hone m.currentState ev d hP.2.1 hP.2.2
      rw [← hP.1] at hmk3
      exact ⟨m3, l3, hmk3, hf3, h0, hg⟩
    · intro m hP
      refine is_trans_state_total m ?_ m.currentState
      intro ts hts
      rw [hP.1] at hts
      exact htr ts hts

/-- Witness of C17, Scenario D: `sm_init` and the dispatch from `STATE_RUNNING` on
`EVENT_STOP` make no access outside a block, and the machine ends in a state within
`0..STATE_GUARD`. -/
theorem safety_invariant_witness :
    ∃ hm, sm_init true machineD =
        some (UI_STATE_MACHINE_OK, { machineD with stateTable_hashMap := some hm }) ∧
      IndexRules tableD hm ∧
      ∃ sm2 log, make_transition (atState machineD hm STATE_RUNNING) EVENT_STOP () =
          some (sm2, log) ∧
        0 ≤ sm2.currentState ∧ sm2.currentState ≤ STATE_GUARD := by
  obtain ⟨hm, h1, h2, h3⟩ := safety_invariant machineD
    (terminated_of_check tableD 3 (by decide))
    (rule_states_of_check tableD STATE_GUARD 3 (by decide) (by decide))
    (rule_next_of_check tableD STATE_GUARD 3 (by decide) (by decide))
  obtain ⟨sm2, log, h4, h5, h6, _⟩ := (h3 STATE_RUNNING EVENT_STOP () (by decide) (by decide)).1
  exact ⟨hm, h1, h2, sm2, log, h4, h5, h6⟩

/-- C18 (a transitory state that does not move never lets the loop exit).  When
`currentState` is transitory and one `make_transition` on `(event, payload)` leaves
`currentState` as it was, that call left the whole machine as it was; any number of
successive calls with that event and payload leaves it so, still in the same transitory
state; and `sm_stateTransition` is still running at every bound put on its loop. -/
theorem stuck_transitory {D A : Type} (sm : StateMachine D A) (ev : Int) (d : D)
    (sm2 : StateMachine D A) (log : List (Step D A))
    (htrans : is_trans_state sm sm.currentState = some true)
    (hmk : make_transition sm ev d = some (sm2, log))
    (hstay : sm2.currentState = sm.currentState) :
    sm2 = sm ∧
    (∀ n : Nat, ∃ smn logn, resolves ev d n sm = some (smn, logn) ∧ smn = sm ∧
      is_trans_state smn smn.currentState = some true) ∧
    (∀ fuel : Nat, ∃ l, sm_stateTransition fuel sm ev d = Outcome.running (sm, l)) ∧
    (∀ (fuel : Nat) (r : StateMachine D A × List (Step D A)),
      sm_stateTransition fuel sm ev d ≠ Outcome.returned r) := by
  have hsm : sm2 = sm := by
    rw [make_transition_frame sm ev d sm2 log hmk, hstay]
  rw [hsm] at hmk
  have hrun : ∀ fuel : Nat, ∃ l, sm_stateTransition fuel sm ev d = Outcome.running (sm, l) := by
    intro fuel
    obtain ⟨l, hl⟩ := trans_loop_stuck ev d sm log hmk htrans fuel log
    exact ⟨l, by simp only [sm_stateTransition, hmk, hl]⟩
  refine ⟨hsm, ?_, hrun, ?_⟩
  · intro n
    obtain ⟨logn, hn⟩ := resolves_stuck ev d sm log hmk n
    exact ⟨sm, logn, hn, rfl, htrans⟩
  · intro fuel r h
    obtain ⟨l, hl⟩ := hrun fuel
    rw [hl] at h
    cases h

/-- Witness of C18: in Scenario A with `STATE_IDLE` declared transitory, `EVENT_STOP`
matches no rule, and the call is still running in `STATE_IDLE` after 5 executions of the
loop body. -/
theorem stuck_transitory_witness :
    is_trans_state stuckA stuckA.currentState = some true ∧
    make_transition stuckA EVENT_STOP () = some (stuckA, [Step.eval 0 EVENT_STOP () false]) ∧
    ∃ l, sm_stateTransition 5 stuckA EVENT_STOP () = Outcome.running (stuckA, l) :=
  ⟨rfl, rfl, (stuck_transitory stuckA EVENT_STOP () stuckA
    [Step.eval 0 EVENT_STOP () false] rfl rfl rfl).2.2.1 5⟩

/-- C19 (on a non-contiguous table only the last run of a state is reachable).  On every
table that has a terminating row and whose rules have their states in `1..guardState`
(contiguity not assumed): `sm_init` leaves in entry `s` of the index `-1` when no rule has
state `s`, and otherwise the offset at which the last run of consecutive rules with state
`s` starts; every row whose predicate or action `make_transition` calls from state `s`
lies in the run that starts at entry `s` (primary phase) or in the run that starts at
entry `guardState` (guard phase); and `make_transition` makes no access outside a block
from a state in `0..guardState`.  On the table `tableR`, row 0 has state 1 and a predicate
that returns `TRUE`, lies in the first run of state 1, and does not fire from state 1: no
action is called and the machine is unchanged. -/
theorem last_run_only {D A : Type} (sm0 : StateMachine D A)
    (hterm : ∃ (n : Nat) (z : StateTableEntry D A),
      sm0.stateTable[n]? = some z ∧ z.state = 0)
    (hstate : ∀ i e, IsRule sm0.stateTable i e → 1 ≤ e.state ∧ e.state ≤ sm0.guardState) :
    (∃ hm, sm_init true sm0 =
        some (UI_STATE_MACHINE_OK, { sm0 with stateTable_hashMap := some hm }) ∧
      (∀ s : Int, 0 ≤ s → s ≤ sm0.guardState →
        (readAt hm s = some (-1) ∧ ∀ i e, IsRule sm0.stateTable i e → e.state ≠ s) ∨
        ∃ i : Nat, readAt hm s = some (i : Int) ∧ LastRunStart sm0.stateTable s i) ∧
      (∀ (s ev : Int) (d : D) (sm2 : StateMachine D A) (log : List (Step D A)),
        make_transition (atState sm0 hm s) ev d = some (sm2, log) →
        ∀ r ∈ touched log,
          (∃ k : Nat, readAt hm s = some (k : Int) ∧ InRun sm0.stateTable s k r) ∨
          (∃ k : Nat, readAt hm sm0.guardState = some (k : Int) ∧
            InRun sm0.stateTable sm0.guardState k r)) ∧
      (∀ (s ev : Int) (d : D), 0 ≤ s → s ≤ sm0.guardState →
        ∃ r, make_transition (atState sm0 hm s) ev d = some r)) ∧
    (sm_init true (machineR D A) =
        some (UI_STATE_MACHINE_OK,
          { machineR D A with stateTable_hashMap := some [-1, 2, 1] }) ∧
      ∀ (ev : Int) (d : D),
        (∃ e, IsRule (tableR D A) 0 e ∧ e.state = 1 ∧ Matches e ev d) ∧
        make_transition (atState (machineR D A) [-1, 2, 1] 1) ev d =
          some (atState (machineR D A) [-1, 2, 1] 1, [Step.eval 2 ev d false])) := by
  constructor
  · obtain ⟨hm, n, z, hinit, hlen, hz, hz0, hmin, hruns⟩ := sm_init_runs sm0 hterm hstate
    have hrule : ∀ i e, IsRule sm0.stateTable i e ↔ i < n ∧ sm0.stateTable[i]? = some e :=
      SM.isRule_iff hz hz0 hmin
    have hrules : IndexRules sm0.stateTable hm :=
      indexRules_of_runs sm0.stateTable hm sm0.guardState n z hlen hz hz0 hmin hruns
    have hsound : IndexSound sm0.stateTable hm :=
      indexSound_of_rules sm0.stateTable hm n z hz hz0 hrules
    refine ⟨hm, hinit, ?_, ?_, ?_⟩
    · intro s hs0 hsg
      rcases hruns s hs0 hsg with ⟨hrd, hnone⟩ | ⟨i, hi, hrd, ⟨⟨e, he, hes⟩, hbefore⟩, hlast⟩
      · exact Or.inl ⟨hrd, fun i e hie => hnone i e ((hrule i e).mp hie).1 ((hrule i e).mp hie).2⟩
      · refine Or.inr ⟨i, hrd, ⟨⟨e, (hrule i e).mpr ⟨hi, he⟩, hes⟩, hbefore⟩, ?_⟩
        rintro j hij ⟨⟨x, hx, hxs⟩, hxbefore⟩
        exact hlast j hij ((hrule j x).mp hx).1 ⟨⟨x, hx.1, hxs⟩, hxbefore⟩
    · intro s ev d sm2 log hmk
      exact make_transition_run (atState sm0 hm s) hm rfl ev d sm2 log hmk
    · intro s ev d hs0 hsg
      exact make_transition_total (atState sm0 hm s) hm rfl hlen hsound hs0 hsg ev d
  · have hrow : IsRule (tableR D A) 0 ⟨1, some (fun _ _ => true), none, 2⟩ := by
      refine ⟨rfl, ?_⟩
      intro j r hj hr
      have hj0 : j = 0 := by omega
      subst hj0
      simp only [tableR, List.getElem?_cons_zero, Option.some.injEq] at hr
      rw [← hr]
      show (1 : Int) ≠ 0
      decide
    exact ⟨rfl, fun ev d => ⟨⟨_, hrow, rfl, _, rfl, rfl⟩, rfl⟩⟩

/-- Witness of C19 on `tableR`: the index entry of state 1 is offset 2, the start of the
second run of state 1. -/
theorem last_run_only_witness :
    ∃ hm, sm_init true (machineR Unit Act) =
        some (UI_STATE_MACHINE_OK,
          { machineR Unit Act with stateTable_hashMap := some hm }) ∧
      hm = [-1, 2, 1] ∧
      ∃ i : Nat, readAt hm 1 = some (i : Int) ∧ LastRunStart (tableR Unit Act) 1 i := by
  obtain ⟨⟨hm, h1, h2, _⟩, h3, _⟩ := last_run_only (machineR Unit Act)
    (terminated_of_check (tableR Unit Act) 3 (by decide))
    (rule_states_of_check (tableR Unit Act) 2 3 (by decide) (by decide))
  have hhm : hm = [-1, 2, 1] := by
    rw [h3] at h1
    simp only [Option.some.injEq, Prod.mk.injEq, StateMachine.mk.injEq, true_and] at h1
    simpa [eq_comm] using h1
  refine ⟨hm, h1, hhm, ?_⟩
  rcases h2 1 (by decide) (by decide) with ⟨hrd, _⟩ | hlast
  · rw [hhm] at hrd
    exact absurd hrd (by decide)
  · exact hlast

end SM
